import Mathlib

/-!
# bfutils_hash.h : a shallow embedding of the open-addressed hash table

The table of `src/bfutils_hash.h` is embedded as pure functions over an explicit
state.  Conventions:

* `size_t` is 64 bits wide.  The hash accumulator wraps modulo `2 ^ 64`.  The
  two counters `length` and `insert_count` are plain naturals: they are bounded
  by the amount of allocated memory, so they do not wrap (the decrement of a
  zero `insert_count` is modelled with its wrap).
* A pointer to key bytes (`const void *key`) is the list of bytes readable at
  that address.
* The record array is a list of `Record`s (`element_size` and `key_offset` only
  locate the fields of a record and do not appear).  Bytes that the allocator
  leaves indeterminate are the default record.
* A C loop that can spin is a structurally recursive function on a fuel
  argument; the entry points supply more fuel than the loop has distinct
  states, so running out of fuel stands for a loop that never terminates.
* Undefined behaviour (division by zero, a read through `NULL` or past a
  bitset) is a `Fault`.
* Calls of the registered `element_free` are recorded in the field `freed`.
-/

namespace BFUtils

/-- Ways in which an operation fails to produce a result. -/
inductive Fault where
  | div_by_zero
  | null_deref
  | out_of_bounds
  | no_fuel
deriving DecidableEq

/-- One element of the table, `struct { TK key; TV value; }`: the bytes of the
key field (for a text key, the bytes of the `char *`) and the value. -/
structure Record where
  key : List Nat
  value : Nat
deriving DecidableEq

instance : Inhabited Record := ⟨⟨[], 0⟩⟩

/-- The header `BFUtilsHashmapHeader` together with the record array that
follows it in memory.  `slots` and `removed` are byte arrays, `[]` standing
for `NULL`; `element_free` tells whether a destructor is registered; `freed`
lists the `(position, record)` arguments of the destructor calls made so far. -/
structure Hashmap where
  insert_count : Nat
  length : Nat
  slots : List Nat
  removed : List Nat
  element_free : Bool
  data : List Record
  freed : List (Nat × Record)
deriving DecidableEq

/-- The iterator `BFUtilsHashmapIterator`; `h` is the header pointer. -/
structure HashmapIterator where
  h : Option Hashmap
  current : Nat
  first : Nat
  last : Nat
  started : Nat
deriving DecidableEq

/-! ## Byte-level helpers -/

/-- Read of `bs[i]` for a byte array. -/
def rd (bs : List Nat) (i : Nat) : Except Fault Nat :=
  match bs[i]? with
  | some b => .ok b
  | none => .error (if bs = [] then Fault.null_deref else Fault.out_of_bounds)

/-- First difference of two byte strings (`0` iff they are equal). -/
def byte_diff : List Nat → List Nat → Int
  | [], [] => 0
  | [], _ :: _ => -1
  | _ :: _, [] => 1
  | a :: as, b :: bs => if a = b then byte_diff as bs else (a : Int) - (b : Int)

/-- The C function `memcmp` over `n` bytes. -/
def memcmp (a b : List Nat) (n : Nat) : Int :=
  byte_diff (a.take n) (b.take n)

/-- The characters of the C string at a pointer: the bytes before the first `0`. -/
def cstr (v : List Nat) : List Nat :=
  v.takeWhile (fun b => b != 0)

/-- The C function `strcmp`. -/
def strcmp (a b : List Nat) : Int :=
  byte_diff (cstr a) (cstr b)

/-- The C function `strlen`; a fault when no terminator is readable. -/
def strlen (v : List Nat) : Except Fault Nat :=
  if 0 ∈ v then .ok (cstr v).length else .error Fault.out_of_bounds

/-- The address stored in a pointer-sized key field (little endian). -/
def ptr_of : List Nat → Nat
  | [] => 0
  | b :: bs => b + 256 * ptr_of bs

/-- The eight bytes of an address (little endian). -/
def ptr_bytes (p : Nat) : List Nat :=
  (List.range 8).map (fun i => (p / 256 ^ i) % 256)

/-- The value of `x - 1` for a `size_t` x (`0 - 1` wraps to `2 ^ 64 - 1`). -/
def size_t_pred (x : Nat) : Nat :=
  if x = 0 then 2 ^ 64 - 1 else x - 1

/-! ## Accessor macros -/

/-- The macro `bfutils_hashmap_insert_count(h)`: 0 for `NULL`. -/
def bfutils_hashmap_insert_count (hm : Option Hashmap) : Nat :=
  match hm with
  | some h => h.insert_count
  | none => 0

/-- The macro `bfutils_hashmap_length(h)`: 0 for `NULL`. -/
def bfutils_hashmap_length (hm : Option Hashmap) : Nat :=
  match hm with
  | some h => h.length
  | none => 0

/-- The macro `bfutils_hashmap_slots(h)`: `NULL` for `NULL`. -/
def bfutils_hashmap_slots (hm : Option Hashmap) : List Nat :=
  match hm with
  | some h => h.slots
  | none => []

/-- The macro `bfutils_hashmap_removed(h)`: `NULL` for `NULL`. -/
def bfutils_hashmap_removed (hm : Option Hashmap) : List Nat :=
  match hm with
  | some h => h.removed
  | none => []

/-! ## Hash function and key comparison -/

/-- One round of the SDBM loop body,
`hash = (*str) + (hash << 6) + (hash << 16) - hash` on a 64-bit `size_t`. -/
def sdbm_step (hash b : Nat) : Nat :=
  (b + (hash <<< 6) % 2 ^ 64 + (hash <<< 16) % 2 ^ 64 + (2 ^ 64 - hash % 2 ^ 64)) % 2 ^ 64

/-- `bfutils_hashmap_function(key, key_size)`: SDBM over the first `key_size`
bytes at `key`. -/
def bfutils_hashmap_function (key : List Nat) (key_size : Nat) : Nat :=
  (key.take key_size).foldl sdbm_step 0

/-- `keycmp(keya, keyb, key_size, is_string)`; `keyb` points at the key field of
a record, `mem` gives the bytes readable at an address. -/
def keycmp (mem : Nat → List Nat) (keya keyb : List Nat) (key_size : Nat)
    (is_string : Bool) : Int :=
  if is_string then strcmp keya (mem (ptr_of keyb)) else memcmp keya keyb key_size

/-- The hash either entry point computes first:
`is_string ? function(key, strlen(key)) : function(key, key_size)`. -/
def key_hash (key : List Nat) (key_size : Nat) (is_string : Bool) : Except Fault Nat :=
  if is_string then
    match strlen key with
    | .ok n => .ok (bfutils_hashmap_function key n)
    | .error e => .error e
  else .ok (bfutils_hashmap_function key key_size)

/-! ## Constructor -/

/-- `bfutils_hashmap_with_free(element_free)`. -/
def bfutils_hashmap_with_free (element_free : Bool) : Option Hashmap :=
  some { insert_count := 0, length := 0, slots := [], removed := [],
         element_free := element_free, data := [], freed := [] }

/-! ## Probe engine -/

/-- The `while (is_slot_occupied)` loop of `bfutils_hashmap_insert_position` and
the statements after it.  `index` is the home bucket, which the loop never
updates.  The occupied bit is read at the head of every round; after the
`continue` this re-reads the bit the source still holds. -/
def insert_position_loop (mem : Nat → List Nat) (h : Hashmap) (key : List Nat)
    (key_size : Nat) (is_string : Bool) (index last_array_index : Nat) :
    Nat → Nat → Nat → Bool → Nat → Except Fault (Hashmap × Nat)
  | 0, _, _, _, _ => .error Fault.no_fuel
  | fuel + 1, slot_index, slot_array_index, found_removed_slot, removed_slot_index =>
    match rd h.slots slot_array_index with
    | .error e => .error e
    | .ok sb =>
      if sb &&& (1 <<< slot_index) = 0 then
        if found_removed_slot then
          match rd h.removed (removed_slot_index / 8), rd h.slots (removed_slot_index / 8) with
          | .ok rb, .ok ob =>
            .ok ({ h with
                    removed := h.removed.set (removed_slot_index / 8)
                      (rb &&& (255 ^^^ (1 <<< (removed_slot_index % 8))))
                    slots := h.slots.set (removed_slot_index / 8)
                      (ob ||| (1 <<< (removed_slot_index % 8)))
                    insert_count := h.insert_count + 1 },
                 slot_array_index * 8 + slot_index)
          | .error e, _ => .error e
          | _, .error e => .error e
        else
          .ok ({ h with
                  slots := h.slots.set slot_array_index (sb ||| (1 <<< slot_index))
                  insert_count := h.insert_count + 1 },
               slot_array_index * 8 + slot_index)
      else
        match rd h.removed slot_array_index with
        | .error e => .error e
        | .ok rb =>
          let is_slot_removed : Bool := rb &&& (1 <<< slot_index) != 0
          if is_slot_removed && !found_removed_slot then
            insert_position_loop mem h key key_size is_string index last_array_index
              fuel slot_index slot_array_index true (slot_array_index * 8 + slot_index)
          else
            match h.data[index]? with
            | none => .error Fault.out_of_bounds
            | some src =>
              if keycmp mem key src.key key_size is_string = 0 && !is_slot_removed then
                let pos := slot_array_index * 8 + slot_index
                if h.element_free then
                  match h.data[pos]? with
                  | none => .error Fault.out_of_bounds
                  | some r => .ok ({ h with freed := h.freed ++ [(pos, r)] }, pos)
                else .ok (h, pos)
              else if slot_index + 1 = 8 then
                if last_array_index = 0 then .error Fault.div_by_zero
                else
                  insert_position_loop mem h key key_size is_string index last_array_index
                    fuel 0 ((slot_array_index + 1) % last_array_index)
                    found_removed_slot removed_slot_index
              else
                insert_position_loop mem h key key_size is_string index last_array_index
                  fuel (slot_index + 1) slot_array_index found_removed_slot removed_slot_index

/-- `bfutils_hashmap_insert_position(hm, key, element_size, key_offset, key_size, is_string)`:
the new state of the table and the returned position. -/
def bfutils_hashmap_insert_position (mem : Nat → List Nat) (hm : Option Hashmap)
    (key : List Nat) (key_size : Nat) (is_string : Bool) : Except Fault (Hashmap × Nat) :=
  match key_hash key key_size is_string with
  | .error e => .error e
  | .ok hash =>
    if bfutils_hashmap_length hm = 0 then .error Fault.div_by_zero
    else
      match hm with
      | none => .error Fault.null_deref
      | some h =>
        let index := hash % h.length
        insert_position_loop mem h key key_size is_string index (h.length / 8)
          (2 * (h.length + 8) + 2) (index % 8) (index / 8) false 0

/-- The `while (is_slot_occupied)` loop of `bfutils_hashmap_get_position`; the
record of a slot is read only when the slot is not removed. -/
def get_position_loop (mem : Nat → List Nat) (h : Hashmap) (key : List Nat)
    (key_size : Nat) (is_string : Bool) (last_array_index : Nat) :
    Nat → Nat → Nat → Except Fault Int
  | 0, _, _ => .error Fault.no_fuel
  | fuel + 1, slot_index, slot_array_index =>
    match rd h.slots slot_array_index with
    | .error e => .error e
    | .ok sb =>
      if sb &&& (1 <<< slot_index) = 0 then .ok (-1)
      else
        let index := slot_array_index * 8 + slot_index
        match rd h.removed slot_array_index with
        | .error e => .error e
        | .ok rb =>
          if rb &&& (1 <<< slot_index) != 0 then
            if slot_index + 1 = 8 then
              if last_array_index = 0 then .error Fault.div_by_zero
              else
                get_position_loop mem h key key_size is_string last_array_index
                  fuel 0 ((slot_array_index + 1) % last_array_index)
            else
              get_position_loop mem h key key_size is_string last_array_index
                fuel (slot_index + 1) slot_array_index
          else
            match h.data[index]? with
            | none => .error Fault.out_of_bounds
            | some src =>
              if keycmp mem key src.key key_size is_string = 0 then .ok (index : Int)
              else if slot_index + 1 = 8 then
                if last_array_index = 0 then .error Fault.div_by_zero
                else
                  get_position_loop mem h key key_size is_string last_array_index
                    fuel 0 ((slot_array_index + 1) % last_array_index)
              else
                get_position_loop mem h key key_size is_string last_array_index
                  fuel (slot_index + 1) slot_array_index

/-- `bfutils_hashmap_get_position(hm, key, element_size, key_offset, key_size, is_string)`;
`-1` is the not-found value. -/
def bfutils_hashmap_get_position (mem : Nat → List Nat) (hm : Option Hashmap)
    (key : List Nat) (key_size : Nat) (is_string : Bool) : Except Fault Int :=
  match key_hash key key_size is_string with
  | .error e => .error e
  | .ok hash =>
    if bfutils_hashmap_length hm = 0 then .error Fault.div_by_zero
    else
      match hm with
      | none => .error Fault.null_deref
      | some h =>
        let index := hash % h.length
        get_position_loop mem h key key_size is_string (h.length / 8)
          (h.length + 9) (index % 8) (index / 8)

/-- `bfutils_hashmap_remove_key(hm, key, ...)`: the new state and the returned index. -/
def bfutils_hashmap_remove_key (mem : Nat → List Nat) (hm : Option Hashmap)
    (key : List Nat) (key_size : Nat) (is_string : Bool) :
    Except Fault (Option Hashmap × Int) :=
  match bfutils_hashmap_get_position mem hm key key_size is_string with
  | .error e => .error e
  | .ok index =>
    if index > 0 then
      match hm with
      | none => .error Fault.null_deref
      | some h =>
        let slot_index := index.toNat % 8
        let slot_array_index := index.toNat / 8
        match rd h.removed slot_array_index with
        | .error e => .error e
        | .ok rb =>
          .ok (some { h with
                      removed := h.removed.set slot_array_index (rb ||| (1 <<< slot_index))
                      insert_count := size_t_pred h.insert_count },
               index)
    else .ok (hm, index)

/-! ## Layout and memory manager -/

/-- The two nested `for` loops of `bfutils_hashmap_resize` that re-insert the
live records of the old table; the list holds the values of `i*8+j` in the
order the loops produce them.  `slots`, `removed` and `old_data` are the old
bitsets and the copy of the old records.  In text mode the key pointer handed
to `insert_position` is the address of the key field of the copied record,
that is, the bytes of the stored `char *`. -/
def rehash_loop (mem : Nat → List Nat) (slots removed : List Nat) (old_data : List Record)
    (key_size : Nat) (is_string : Bool) : List Nat → Hashmap → Except Fault Hashmap
  | [], hm => .ok hm
  | idx :: rest, hm =>
    match rd slots (idx / 8), rd removed (idx / 8) with
    | .ok sb, .ok rb =>
      if sb &&& (1 <<< (idx % 8)) != 0 && !(rb &&& (1 <<< (idx % 8)) != 0) then
        match old_data[idx]? with
        | none => .error Fault.out_of_bounds
        | some source =>
          match bfutils_hashmap_insert_position mem (some hm) source.key key_size is_string with
          | .error e => .error e
          | .ok (hm1, pos) =>
            rehash_loop mem slots removed old_data key_size is_string rest
              { hm1 with data := hm1.data.set pos source }
      else rehash_loop mem slots removed old_data key_size is_string rest hm
    | .error e, _ => .error e
    | _, .error e => .error e

/-- The record array of a table pointer. -/
def data_of (hm : Option Hashmap) : List Record :=
  match hm with
  | some h => h.data
  | none => []

/-- The header and storage `bfutils_hashmap_resize` sets up for the new length
before it re-inserts the old records: `realloc` keeps the leading records and
the destructor pointer, the bitsets are fresh zeroed arrays of
`length / 8 + 1` bytes, and `insert_count` is 0. -/
def resize_header (hm : Option Hashmap) (length : Nat) : Hashmap :=
  { insert_count := 0
    length := length
    slots := List.replicate (length / 8 + 1) 0
    removed := List.replicate (length / 8 + 1) 0
    element_free := match hm with
      | some h => h.element_free
      | none => false
    data := (data_of hm).take length
      ++ List.replicate (length - (data_of hm).length) default
    freed := match hm with
      | some h => h.freed
      | none => [] }

/-- `bfutils_hashmap_resize(hm, element_size, key_offset, key_size, is_string)`.
The two load-factor tests `insert_count / (double) length > 0.5` and `< 0.25`
are exact in double precision for every size a table can have and are written
over the naturals.  `realloc` keeps the leading records. -/
def bfutils_hashmap_resize (mem : Nat → List Nat) (hm : Option Hashmap) (key_size : Nat)
    (is_string : Bool) : Except Fault (Option Hashmap) :=
  let need_to_grow : Bool :=
    bfutils_hashmap_length hm = 0
      || decide (2 * bfutils_hashmap_insert_count hm > bfutils_hashmap_length hm)
  let need_to_shrink : Bool :=
    decide (bfutils_hashmap_length hm > 32)
      && decide (4 * bfutils_hashmap_insert_count hm < bfutils_hashmap_length hm)
  if !need_to_grow && !need_to_shrink then .ok hm
  else
    let old_length := bfutils_hashmap_length hm
    let length :=
      if need_to_shrink then old_length / 2
      else if old_length > 0 then old_length * 2 else 32
    let slots := bfutils_hashmap_slots hm
    let removed := bfutils_hashmap_removed hm
    let old_data := data_of hm
    let header := resize_header hm length
    if old_length > 0 then
      match rehash_loop mem slots removed old_data key_size is_string
          (List.range ((old_length / 8 + 1) * 8)) header with
      | .error e => .error e
      | .ok h1 => .ok (some h1)
    else .ok (some header)

/-! ## The public macros -/

/-- `bfutils_hashmap_push(h, k, v)` for a binary key of `key_size` bytes. -/
def bfutils_hashmap_push (mem : Nat → List Nat) (key_size : Nat) (hm : Option Hashmap)
    (k : List Nat) (v : Nat) : Except Fault (Option Hashmap) :=
  match bfutils_hashmap_resize mem hm key_size false with
  | .error e => .error e
  | .ok hm1 =>
    match bfutils_hashmap_insert_position mem hm1 k key_size false with
    | .error e => .error e
    | .ok (h2, pos) => .ok (some { h2 with data := h2.data.set pos ⟨k, v⟩ })

/-- `bfutils_hashmap_get(h, k)`: the value field of the element at the position
`get_position` returns; reading the element at `-1` is a fault. -/
def bfutils_hashmap_get (mem : Nat → List Nat) (key_size : Nat) (hm : Option Hashmap)
    (k : List Nat) : Except Fault Nat :=
  match bfutils_hashmap_get_position mem hm k key_size false with
  | .error e => .error e
  | .ok index =>
    if index < 0 then .error Fault.out_of_bounds
    else
      match hm with
      | none => .error Fault.null_deref
      | some h =>
        match h.data[index.toNat]? with
        | none => .error Fault.out_of_bounds
        | some r => .ok r.value

/-- `bfutils_hashmap_contains(h, k)`, that is `get_position(...) > 0`. -/
def bfutils_hashmap_contains (mem : Nat → List Nat) (key_size : Nat) (hm : Option Hashmap)
    (k : List Nat) : Except Fault Bool :=
  match bfutils_hashmap_get_position mem hm k key_size false with
  | .error e => .error e
  | .ok index => .ok (decide (index > 0))

/-- The value field the remove macros read at the returned index; for `-1` the
macro reads the memory in front of the record array, which holds no record. -/
def value_at (hm : Option Hashmap) (index : Int) : Option Nat :=
  match hm with
  | none => none
  | some h => if index < 0 then none else (h.data[index.toNat]?).map Record.value

/-- `bfutils_hashmap_remove(h, k)`: the new table and the value read at the
index `remove_key` returns. -/
def bfutils_hashmap_remove (mem : Nat → List Nat) (key_size : Nat) (hm : Option Hashmap)
    (k : List Nat) : Except Fault (Option Hashmap × Option Nat) :=
  match bfutils_hashmap_resize mem hm key_size false with
  | .error e => .error e
  | .ok hm1 =>
    match bfutils_hashmap_remove_key mem hm1 k key_size false with
    | .error e => .error e
    | .ok (hm2, index) => .ok (hm2, value_at hm2 index)

/-- `bfutils_string_hashmap_push(h, k, v)`: `p` is the `char *` given as key;
the key field of the record receives the pointer. -/
def bfutils_string_hashmap_push (mem : Nat → List Nat) (hm : Option Hashmap)
    (p : Nat) (v : Nat) : Except Fault (Option Hashmap) :=
  match bfutils_hashmap_resize mem hm 8 true with
  | .error e => .error e
  | .ok hm1 =>
    match bfutils_hashmap_insert_position mem hm1 (mem p) 8 true with
    | .error e => .error e
    | .ok (h2, pos) => .ok (some { h2 with data := h2.data.set pos ⟨ptr_bytes p, v⟩ })

/-- `bfutils_string_hashmap_get(h, k)`. -/
def bfutils_string_hashmap_get (mem : Nat → List Nat) (hm : Option Hashmap)
    (p : Nat) : Except Fault Nat :=
  match bfutils_hashmap_get_position mem hm (mem p) 8 true with
  | .error e => .error e
  | .ok index =>
    if index < 0 then .error Fault.out_of_bounds
    else
      match hm with
      | none => .error Fault.null_deref
      | some h =>
        match h.data[index.toNat]? with
        | none => .error Fault.out_of_bounds
        | some r => .ok r.value

/-- `bfutils_string_hashmap_remove(h, k)`: `p` is the `char *` given as key; the
new table and the value read at the index `remove_key` returns. -/
def bfutils_string_hashmap_remove (mem : Nat → List Nat) (hm : Option Hashmap)
    (p : Nat) : Except Fault (Option Hashmap × Option Nat) :=
  match bfutils_hashmap_resize mem hm 8 true with
  | .error e => .error e
  | .ok hm1 =>
    match bfutils_hashmap_remove_key mem hm1 (mem p) 8 true with
    | .error e => .error e
    | .ok (hm2, index) => .ok (hm2, value_at hm2 index)

/-! ## Iterator -/

/-- The scan of `bfutils_hashmap_iterator` over the values `i*8+j`; the state is
`(first, last, first_set)`. -/
def iterator_scan (slots removed : List Nat) :
    List Nat → Nat × Nat × Bool → Except Fault (Nat × Nat × Bool)
  | [], acc => .ok acc
  | idx :: rest, (first, last, first_set) =>
    match rd slots (idx / 8), rd removed (idx / 8) with
    | .ok sb, .ok rb =>
      if sb &&& (1 <<< (idx % 8)) != 0 && !(rb &&& (1 <<< (idx % 8)) != 0) then
        iterator_scan slots removed rest (if first_set then first else idx, idx, true)
      else iterator_scan slots removed rest (first, last, first_set)
    | .error e, _ => .error e
    | _, .error e => .error e

/-- `bfutils_hashmap_iterator(hm)`; `started` is zero-initialised. -/
def bfutils_hashmap_iterator (hm : Option Hashmap) : Except Fault HashmapIterator :=
  match iterator_scan (bfutils_hashmap_slots hm) (bfutils_hashmap_removed hm)
      (List.range ((bfutils_hashmap_length hm / 8 + 1) * 8)) (0, 0, false) with
  | .error e => .error e
  | .ok (first, last, _) =>
    .ok { h := hm, current := first, first := first, last := last, started := 0 }

/-- `bfutils_hashmap_iterator_reverse(hm)`. -/
def bfutils_hashmap_iterator_reverse (hm : Option Hashmap) : Except Fault HashmapIterator :=
  match bfutils_hashmap_iterator hm with
  | .error e => .error e
  | .ok it => .ok { it with started := 1 }

/-- `bfutils_hashmap_iterator_has_next(it)`. -/
def bfutils_hashmap_iterator_has_next (it : HashmapIterator) : Except Fault Bool :=
  if it.started = 0 then
    match it.h with
    | none => .error Fault.null_deref
    | some h => .ok (decide (h.insert_count > 0))
  else .ok (decide (it.current < it.last))

/-- `bfutils_hashmap_iterator_has_previous(it)`. -/
def bfutils_hashmap_iterator_has_previous (it : HashmapIterator) : Except Fault Bool :=
  if it.started = 1 then
    match it.h with
    | none => .error Fault.null_deref
    | some h => .ok (decide (h.insert_count > 0))
  else .ok (decide (it.current > it.first))

/-- The `while (index < it->last)` loop of
`bfutils_hashmap_iterator_next_position`; the result is the value stored in
`it->current` and returned. -/
def next_position_loop (h : Hashmap) (last : Nat) : Nat → Nat → Nat → Nat → Except Fault Nat
  | 0, _, _, _ => .error Fault.no_fuel
  | fuel + 1, slot_index, slot_array_index, index =>
    if index < last then
      match rd h.slots slot_array_index, rd h.removed slot_array_index with
      | .ok sb, .ok rb =>
        if sb &&& (1 <<< slot_index) != 0 && !(rb &&& (1 <<< slot_index) != 0) then .ok index
        else if slot_index + 1 = 8 then
          if h.length / 8 = 0 then .error Fault.div_by_zero
          else
            next_position_loop h last fuel 0 ((slot_array_index + 1) % (h.length / 8))
              (((slot_array_index + 1) % (h.length / 8)) * 8 + 0)
        else
          next_position_loop h last fuel (slot_index + 1) slot_array_index
            (slot_array_index * 8 + (slot_index + 1))
      | .error e, _ => .error e
      | _, .error e => .error e
    else .ok last

/-- `bfutils_hashmap_iterator_next_position(it)`: the updated iterator and the
returned position. -/
def bfutils_hashmap_iterator_next_position (it : HashmapIterator) :
    Except Fault (HashmapIterator × Nat) :=
  match it.h with
  | none => .error Fault.null_deref
  | some h =>
    let index := if it.started = 0 then it.first else it.current + 1
    match next_position_loop h it.last (it.last + 2) (index % 8) (index / 8) index with
    | .error e => .error e
    | .ok pos => .ok ({ it with started := 2, current := pos }, pos)

/-- The `while (index > it->first)` loop of
`bfutils_hashmap_iterator_previous_position`; `slot_array_index - 1` is a
`size_t` subtraction. -/
def previous_position_loop (h : Hashmap) (first : Nat) : Nat → Nat → Nat → Nat → Except Fault Nat
  | 0, _, _, _ => .error Fault.no_fuel
  | fuel + 1, slot_index, slot_array_index, index =>
    if index > first then
      match rd h.slots slot_array_index, rd h.removed slot_array_index with
      | .ok sb, .ok rb =>
        if sb &&& (1 <<< slot_index) != 0 && !(rb &&& (1 <<< slot_index) != 0) then .ok index
        else if slot_index = 0 then
          if h.length / 8 = 0 then .error Fault.div_by_zero
          else
            previous_position_loop h first fuel 7
              (size_t_pred slot_array_index % (h.length / 8))
              ((size_t_pred slot_array_index % (h.length / 8)) * 8 + 7)
        else
          previous_position_loop h first fuel (slot_index - 1) slot_array_index
            (slot_array_index * 8 + (slot_index - 1))
      | .error e, _ => .error e
      | _, .error e => .error e
    else .ok first

/-- `bfutils_hashmap_iterator_previous_position(it)`; `it->current - 1` is a
`size_t` subtraction. -/
def bfutils_hashmap_iterator_previous_position (it : HashmapIterator) :
    Except Fault (HashmapIterator × Nat) :=
  match it.h with
  | none => .error Fault.null_deref
  | some h =>
    let index := if it.started = 1 then it.last else size_t_pred it.current
    match previous_position_loop h it.first (index + h.length + 2) (index % 8) (index / 8)
        index with
    | .error e => .error e
    | .ok pos => .ok ({ it with started := 2, current := pos }, pos)

/-- The loop `while (has_next(&it)) pos = next_position(&it);` of a client that
walks the table forwards: the positions in the order they are produced, and the iterator when the loop has ended. -/
def forward_positions : Nat → HashmapIterator → Except Fault (List Nat × HashmapIterator)
  | 0, _ => .error Fault.no_fuel
  | fuel + 1, it =>
    match bfutils_hashmap_iterator_has_next it with
    | .error e => .error e
    | .ok false => .ok ([], it)
    | .ok true =>
      match bfutils_hashmap_iterator_next_position it with
      | .error e => .error e
      | .ok (it1, pos) =>
        match forward_positions fuel it1 with
        | .error e => .error e
        | .ok (rest, it2) => .ok (pos :: rest, it2)

/-- The loop `while (has_previous(&it)) pos = previous_position(&it);`. -/
def backward_positions : Nat → HashmapIterator → Except Fault (List Nat × HashmapIterator)
  | 0, _ => .error Fault.no_fuel
  | fuel + 1, it =>
    match bfutils_hashmap_iterator_has_previous it with
    | .error e => .error e
    | .ok false => .ok ([], it)
    | .ok true =>
      match bfutils_hashmap_iterator_previous_position it with
      | .error e => .error e
      | .ok (it1, pos) =>
        match backward_positions fuel it1 with
        | .error e => .error e
        | .ok (rest, it2) => .ok (pos :: rest, it2)

/-- The positions a forward iterator over `hm` yields. -/
def iterate_forward (hm : Option Hashmap) : Except Fault (List Nat × HashmapIterator) :=
  match bfutils_hashmap_iterator hm with
  | .error e => .error e
  | .ok it => forward_positions (it.last + 2) it

/-- The positions a reverse iterator over `hm` yields. -/
def iterate_backward (hm : Option Hashmap) : Except Fault (List Nat × HashmapIterator) :=
  match bfutils_hashmap_iterator_reverse hm with
  | .error e => .error e
  | .ok it => backward_positions (it.last + bfutils_hashmap_length hm + 2) it

/-! ## Destruction -/

/-- The `while` loop of `bfutils_hashmap_free_f`: every round calls
`element_free` on the element at the position the iterator returns. -/
def free_loop (h : Hashmap) : Nat → HashmapIterator → List (Nat × Record) →
    Except Fault (List (Nat × Record))
  | 0, _, _ => .error Fault.no_fuel
  | fuel + 1, it, freed =>
    match bfutils_hashmap_iterator_has_next it with
    | .error e => .error e
    | .ok false => .ok freed
    | .ok true =>
      match bfutils_hashmap_iterator_next_position it with
      | .error e => .error e
      | .ok (it1, pos) =>
        match h.data[pos]? with
        | none => .error Fault.out_of_bounds
        | some r => free_loop h fuel it1 (freed ++ [(pos, r)])

/-- `bfutils_hashmap_free_f(hm, element_size)`: the destructor calls made up to
the release of the table. -/
def bfutils_hashmap_free_f (hm : Option Hashmap) : Except Fault (List (Nat × Record)) :=
  match hm with
  | none => .ok []
  | some h =>
    if h.element_free then
      match bfutils_hashmap_iterator hm with
      | .error e => .error e
      | .ok it => free_loop h (it.last + 2) it h.freed
    else .ok h.freed

/-! ## Clients -/

deriving instance DecidableEq for Except

/-- The four bytes of a 32-bit key (little endian). -/
def key32 (n : Nat) : List Nat :=
  [n % 256, n / 256 % 256, n / 65536 % 256, n / 16777216 % 256]

/-- A memory without strings, for tables with binary keys. -/
def no_mem : Nat → List Nat := fun _ => []

/-- The destructor calls made so far on a table pointer. -/
def freed_of (hm : Option Hashmap) : List (Nat × Record) :=
  match hm with
  | some h => h.freed
  | none => []

/-- A public mutating operation of a table with binary keys. -/
inductive Op where
  | push (k : List Nat) (v : Nat)
  | remove (k : List Nat)
deriving DecidableEq

/-- A client program: the operations are applied to the table from left to
right. -/
def run (mem : Nat → List Nat) (key_size : Nat) :
    Option Hashmap → List Op → Except Fault (Option Hashmap)
  | hm, [] => .ok hm
  | hm, Op.push k v :: rest =>
    match bfutils_hashmap_push mem key_size hm k v with
    | .error e => .error e
    | .ok hm1 => run mem key_size hm1 rest
  | hm, Op.remove k :: rest =>
    match bfutils_hashmap_remove mem key_size hm k with
    | .error e => .error e
    | .ok (hm1, _) => run mem key_size hm1 rest

/-- The tables a client reaches from an empty table, `NULL` or the result of
`bfutils_hashmap(element_free)`, by pushes and removes. -/
def Reachable (mem : Nat → List Nat) (key_size : Nat) (hm : Option Hashmap) : Prop :=
  ∃ (start : Option Hashmap) (ops : List Op),
    (start = none ∨ start = bfutils_hashmap_with_free false
      ∨ start = bfutils_hashmap_with_free true)
    ∧ run mem key_size start ops = .ok hm

/-- A public mutating operation of a table, of either key kind: the macros
`bfutils_hashmap_push` and `bfutils_hashmap_remove` on a binary key, and
`bfutils_string_hashmap_push` and `bfutils_string_hashmap_remove` on the
`char *` `p`. -/
inductive Call where
  | push (k : List Nat) (v : Nat)
  | remove (k : List Nat)
  | string_push (p : Nat) (v : Nat)
  | string_remove (p : Nat)
deriving DecidableEq

/-- A client program over the mutating macros of both key kinds, applied to the
table from left to right. -/
def run_calls (mem : Nat → List Nat) (key_size : Nat) :
    Option Hashmap → List Call → Except Fault (Option Hashmap)
  | hm, [] => .ok hm
  | hm, Call.push k v :: rest =>
    match bfutils_hashmap_push mem key_size hm k v with
    | .error e => .error e
    | .ok hm1 => run_calls mem key_size hm1 rest
  | hm, Call.remove k :: rest =>
    match bfutils_hashmap_remove mem key_size hm k with
    | .error e => .error e
    | .ok (hm1, _) => run_calls mem key_size hm1 rest
  | hm, Call.string_push p v :: rest =>
    match bfutils_string_hashmap_push mem hm p v with
    | .error e => .error e
    | .ok hm1 => run_calls mem key_size hm1 rest
  | hm, Call.string_remove p :: rest =>
    match bfutils_string_hashmap_remove mem hm p with
    | .error e => .error e
    | .ok (hm1, _) => run_calls mem key_size hm1 rest

/-- The tables a client reaches from an empty table, `NULL` or the result of
`bfutils_hashmap(element_free)`, by pushes and removes of either key kind. -/
def Reached (mem : Nat → List Nat) (key_size : Nat) (hm : Option Hashmap) : Prop :=
  ∃ (start : Option Hashmap) (calls : List Call),
    (start = none ∨ start = bfutils_hashmap_with_free false
      ∨ start = bfutils_hashmap_with_free true)
    ∧ run_calls mem key_size start calls = .ok hm

/-- The binary operation as a call. -/
def Op.toCall : Op → Call
  | Op.push k v => Call.push k v
  | Op.remove k => Call.remove k

/-! ## Views of the state -/

/-- Bit `idx % 8` of byte `idx / 8` of a bitset. -/
def bit_set (bs : List Nat) (idx : Nat) : Bool :=
  (bs.getD (idx / 8) 0) &&& (1 <<< (idx % 8)) != 0

/-- The Occupied bit of slot `idx`. -/
def occupied (h : Hashmap) (idx : Nat) : Bool := bit_set h.slots idx

/-- The Tombstoned bit of slot `idx`. -/
def tombstoned (h : Hashmap) (idx : Nat) : Bool := bit_set h.removed idx

/-- A slot is live when it is Occupied and not Tombstoned. -/
def live (h : Hashmap) (idx : Nat) : Bool := occupied h idx && !tombstoned h idx

/-- The indices of the live slots, in ascending order. -/
def live_positions (h : Hashmap) : List Nat := (List.range h.length).filter (live h)

/-- The allocated storage of a table: the length is a positive multiple of
eight, both bitsets have `length / 8 + 1` bytes, and the spare last byte of each,
which stands for no slot, is zero. -/
def Shape (h : Hashmap) : Prop :=
  8 ≤ h.length ∧ 8 ∣ h.length
    ∧ h.slots.length = h.length / 8 + 1 ∧ h.removed.length = h.length / 8 + 1
    ∧ h.slots[h.length / 8]? = some 0 ∧ h.removed[h.length / 8]? = some 0

instance (h : Hashmap) : Decidable (Shape h) := by
  unfold Shape
  infer_instance

/-- The state of a table that has storage, as the library maintains it: the
storage has its shape, the length is a power of two from 32 on, there is one
record per slot, only Occupied slots are Tombstoned, and `insert_count` is the
number of live slots. -/
def WellFormed (h : Hashmap) : Prop :=
  Shape h
    ∧ (∃ n, n < h.length ∧ 5 ≤ n ∧ h.length = 2 ^ n)
    ∧ h.data.length = h.length
    ∧ (∀ idx, idx < h.length → tombstoned h idx = true → occupied h idx = true)
    ∧ h.insert_count = (live_positions h).length

instance (h : Hashmap) : Decidable (WellFormed h) := by
  unfold WellFormed
  infer_instance

/-- The table after `insert_position` has taken the not-Occupied slot `p`:
`slots[p / 8] |= 1 << (p % 8)` and `insert_count++`. -/
def occupy (h : Hashmap) (p : Nat) : Hashmap :=
  { h with
    slots := h.slots.set (p / 8) (h.slots.getD (p / 8) 0 ||| (1 <<< (p % 8)))
    insert_count := h.insert_count + 1 }

/-- The table after `insert_position` has taken back the remembered tombstone
`r`: its Tombstoned bit is cleared, its Occupied bit set, and `insert_count++`. -/
def revive (h : Hashmap) (r : Nat) : Hashmap :=
  { h with
    removed := h.removed.set (r / 8) (h.removed.getD (r / 8) 0 &&& (255 ^^^ (1 <<< (r % 8))))
    slots := h.slots.set (r / 8) (h.slots.getD (r / 8) 0 ||| (1 <<< (r % 8)))
    insert_count := h.insert_count + 1 }

/-- The table after `insert_position` has called the destructor, when one is
registered, on the element at `p`. -/
def call_free (h : Hashmap) (p : Nat) : Hashmap :=
  if h.element_free then { h with freed := h.freed ++ [(p, h.data.getD p default)] } else h

/-- The table after `remove_key` has found the key at slot `p > 0`:
`removed[p / 8] |= 1 << (p % 8)` and `insert_count--`. -/
def bury (h : Hashmap) (p : Nat) : Hashmap :=
  { h with
    removed := h.removed.set (p / 8) (h.removed.getD (p / 8) 0 ||| (1 <<< (p % 8)))
    insert_count := size_t_pred h.insert_count }

/-- The table after the record `r` has been written to slot `pos`. -/
def store (h : Hashmap) (pos : Nat) (r : Record) : Hashmap :=
  { h with data := h.data.set pos r }

/-- A table that has no storage yet, as the constructor returns it. -/
def Fresh (h : Hashmap) : Prop :=
  h.length = 0 ∧ h.insert_count = 0 ∧ h.slots = [] ∧ h.removed = [] ∧ h.data = []

instance (h : Hashmap) : Decidable (Fresh h) := by
  unfold Fresh
  infer_instance

/-- The states the library keeps a table pointer in: `NULL`, a header without
storage, or a well-formed table. -/
def Sound (hm : Option Hashmap) : Prop :=
  match hm with
  | none => True
  | some h => Fresh h ∨ WellFormed h

/-- The second half of `bfutils_hashmap_resize`: the re-insertion of the records
of the old table `hm` into the storage set up for `length`. -/
def rehash_into (mem : Nat → List Nat) (hm : Option Hashmap) (key_size : Nat)
    (is_string : Bool) (length : Nat) : Except Fault (Option Hashmap) :=
  match rehash_loop mem (bfutils_hashmap_slots hm) (bfutils_hashmap_removed hm) (data_of hm)
      key_size is_string (List.range ((bfutils_hashmap_length hm / 8 + 1) * 8))
      (resize_header hm length) with
  | .error e => .error e
  | .ok h1 => .ok (some h1)

/-- One round of the scan of `bfutils_hashmap_iterator`, on the state
`(first, last, first_set)`. -/
def scan_step (h : Hashmap) (acc : Nat × Nat × Bool) (idx : Nat) : Nat × Nat × Bool :=
  if live h idx then (if acc.2.2 then acc.1 else idx, idx, true) else acc

/-- The live slots from index `c` on, in ascending order. -/
def live_from (h : Hashmap) (c : Nat) : List Nat :=
  (List.range' c (h.length - c)).filter (live h)

/-- The live slots below index `c`, in ascending order. -/
def live_below (h : Hashmap) (c : Nat) : List Nat :=
  (List.range c).filter (live h)

/-- The table a client reaches from `bfutils_hashmap(element_free)` with the
pushes (1,5), (2,6), (3,7) and the removal of key 2: slots 29 and 31 are live,
slot 30 is a tombstone. -/
def sample_table : Hashmap :=
  { insert_count := 2
    length := 32
    slots := [0, 0, 0, 224, 0]
    removed := [0, 0, 0, 64, 0]
    element_free := true
    data := (((List.replicate 32 default).set 31 ⟨key32 1, 5⟩).set 30 ⟨key32 2, 6⟩).set 29
      ⟨key32 3, 7⟩
    freed := [] }

/-- The client program that leads to `sample_table`. -/
def sample_ops : List Op :=
  [Op.push (key32 1) 5, Op.push (key32 2) 6, Op.push (key32 3) 7, Op.remove (key32 2)]

/-- The home bucket of the record stored in slot `s` of a table with binary
keys of `key_size` bytes. -/
def home_of (h : Hashmap) (key_size : Nat) (s : Nat) : Nat :=
  bfutils_hashmap_function (h.data.getD s default).key key_size % h.length

/-- The state of the new table `t` while `bfutils_hashmap_resize` re-inserts the
records of the table `old`, once the old slots below `n` have been handled:
`t` has no tombstone, its Occupied slots hold exactly the live records of `old`
below `n`, every record is reached from its home bucket over Occupied slots,
and no destructor call was made. -/
structure Rehashed (old : Hashmap) (key_size : Nat) (n : Nat) (t : Hashmap) : Prop where
  wf : WellFormed t
  freed_eq : t.freed = old.freed
  no_tomb : ∀ s, tombstoned t s = false
  from_old : ∀ s, s < t.length → occupied t s = true →
    ∃ i, i < n ∧ live old i = true ∧ t.data.getD s default = old.data.getD i default
  to_new : ∀ i, i < n → live old i = true →
    ∃ s, s < t.length ∧ occupied t s = true ∧ t.data.getD s default = old.data.getD i default
  path : ∀ s, s < t.length → occupied t s = true →
    ∃ d, d < t.length ∧ s = (home_of t key_size s + d) % t.length
      ∧ ∀ e, e ≤ d → occupied t ((home_of t key_size s + e) % t.length) = true
  count : t.insert_count = (live_below old n).length

/-- The live records of a table have keys of `key_size` bytes. -/
def KeysSized (h : Hashmap) (key_size : Nat) : Prop :=
  ∀ i, i < h.length → live h i = true → (h.data.getD i default).key.length = key_size

instance (h : Hashmap) (key_size : Nat) : Decidable (KeysSized h key_size) := by
  unfold KeysSized
  infer_instance

/-- The live records of a table have pairwise distinct keys. -/
def KeysDistinct (h : Hashmap) : Prop :=
  ∀ i, i < h.length → ∀ j, j < h.length → live h i = true → live h j = true →
    (h.data.getD i default).key = (h.data.getD j default).key → i = j

instance (h : Hashmap) : Decidable (KeysDistinct h) := by
  unfold KeysDistinct
  infer_instance

/-- The table a client reaches from `NULL` with the pushes (1,10), (2,20), ...,
(17,170) of 32-bit keys: key `i` is in slot `32 - i`, the length is still 32 and
`insert_count` is 17, so the next `bfutils_hashmap_resize` grows the table. -/
def full_table : Hashmap :=
  { insert_count := 17
    length := 32
    slots := [0, 128, 255, 255, 0]
    removed := [0, 0, 0, 0, 0]
    element_free := false
    data := (List.range 32).map
      (fun i => if 15 ≤ i then ⟨key32 (32 - i), 10 * (32 - i)⟩ else default)
    freed := [] }

/-- A memory that holds the eighteen one-letter strings `"a"`, ..., `"r"`, the
string number `i` at the address `0x602010 + 16 * i`. -/
def text_mem (a : Nat) : List Nat :=
  if 6299664 ≤ a ∧ (a - 6299664) % 16 = 0 ∧ (a - 6299664) / 16 < 18 then
    [97 + (a - 6299664) / 16, 0]
  else []

/-- The address of the string number `i` in `text_mem`. -/
def text_key (i : Nat) : Nat := 6299664 + 16 * i

/-- A client program of pushes into a table with text keys; a push is given by
the address of its key string and the value. -/
def run_text (mem : Nat → List Nat) :
    Option Hashmap → List (Nat × Nat) → Except Fault (Option Hashmap)
  | hm, [] => .ok hm
  | hm, (p, v) :: rest =>
    match bfutils_string_hashmap_push mem hm p v with
    | .error e => .error e
    | .ok hm1 => run_text mem hm1 rest

/-- The client program `push(1,10); push(2,20); ...; push(n,10*n)` on 32-bit
keys. -/
def pushes_upto (n : Nat) : List Op :=
  (List.range n).map (fun i => Op.push (key32 (i + 1)) (10 * (i + 1)))

/-- The client program `remove(1); remove(2); ...; remove(n)` on 32-bit keys. -/
def removes_upto (n : Nat) : List Op :=
  (List.range n).map (fun i => Op.remove (key32 (i + 1)))

/-- The client program that pushes (1,10) and then sixteen times the key 33,
with the values 20, 21, ..., 35. -/
def duplicate_ops : List Op :=
  Op.push (key32 1) 10 :: (List.range 16).map (fun i => Op.push (key32 33) (20 + i))

/-- The reference map of the specification after `insert(k, v)`: `k` has the
value `v`, every other key keeps its entry. -/
def spec_map_insert (m : List (List Nat × Nat)) (k : List Nat) (v : Nat) :
    List (List Nat × Nat) :=
  (k, v) :: m.filter (fun e => e.1 != k)

/-- The reference map of the specification after `remove(k)`. -/
def spec_map_remove (m : List (List Nat × Nat)) (k : List Nat) : List (List Nat × Nat) :=
  m.filter (fun e => e.1 != k)

/-- The reference map of the specification after a client program. -/
def spec_map_run : List (List Nat × Nat) → List Op → List (List Nat × Nat)
  | m, [] => m
  | m, Op.push k v :: rest => spec_map_run (spec_map_insert m k v) rest
  | m, Op.remove k :: rest => spec_map_run (spec_map_remove m k) rest

/-- Whether the hash of a key can be computed: always for a binary key, and for
a text key when a terminator is readable. -/
def hashable (key : List Nat) (key_size : Nat) (is_string : Bool) : Bool :=
  match key_hash key key_size is_string with
  | .ok _ => true
  | .error _ => false

/-- The key fields of the live records can be hashed the way the rehash of
`bfutils_hashmap_resize` hashes them. -/
def KeysHashable (h : Hashmap) (key_size : Nat) (is_string : Bool) : Prop :=
  ∀ i, i < h.length → live h i = true →
    hashable (h.data.getD i default).key key_size is_string = true

instance (h : Hashmap) (key_size : Nat) (is_string : Bool) :
    Decidable (KeysHashable h key_size is_string) := by
  unfold KeysHashable
  infer_instance

/-- Key equality in the words of the specification: a binary key equals the key
bytes of the record; a text key equals, as a string, the null-terminated string
that the key field of the record points to. -/
def spec_key_equal (mem : Nat → List Nat) (is_string : Bool) (k stored : List Nat) : Prop :=
  if is_string then cstr (mem (ptr_of stored)) = cstr k else stored = k

instance (mem : Nat → List Nat) (is_string : Bool) (k stored : List Nat) :
    Decidable (spec_key_equal mem is_string k stored) := by
  unfold spec_key_equal
  infer_instance

/-- The effective key bytes of the specification: the first `key_size` bytes of
a binary key, the bytes before the terminator of a text key. -/
def effective_key (k : List Nat) (key_size : Nat) (is_string : Bool) : List Nat :=
  if is_string then cstr k else k.take key_size

/-- The hash of a key in the words of the specification: the SDBM rounds over
the effective key bytes, from 0. -/
def spec_hash (k : List Nat) (key_size : Nat) (is_string : Bool) : Nat :=
  (effective_key k key_size is_string).foldl sdbm_step 0

/-- The lookup walk in the words of the specification, for a key `k` of either
kind: walk the slots from `p` on with unit stride modulo the length; stop with
`-1` at a slot that is not Occupied; stop with the index at a slot that is
Occupied, not Tombstoned and whose key equals `k`; pass every other slot.  The
first argument bounds the number of slots visited. -/
def spec_get_position (mem : Nat → List Nat) (h : Hashmap) (k : List Nat) (is_string : Bool) :
    Nat → Nat → Int
  | 0, _ => -1
  | n + 1, p =>
    if occupied h p = false then -1
    else if tombstoned h p = false
        ∧ spec_key_equal mem is_string k (h.data.getD p default).key then (p : Int)
    else spec_get_position mem h k is_string n ((p + 1) % h.length)

/-- The table a client reaches from `NULL` with the pushes (1,10), ..., (18,180)
and the removal of the keys 1, 2 and 3: the length is 64, key `i` is in slot
`64 - i`, the slots 61..63 are tombstones, and the slots 15..31 still hold the
bytes that `realloc` kept from the table of length 32. -/
def sparse_table : Hashmap :=
  { insert_count := 15
    length := 64
    slots := [0, 0, 0, 0, 0, 192, 255, 255, 0]
    removed := [0, 0, 0, 0, 0, 0, 0, 224, 0]
    element_free := false
    data := (List.range 64).map
      (fun i => if 46 ≤ i then ⟨key32 (64 - i), 10 * (64 - i)⟩
        else if 15 ≤ i ∧ i < 32 then ⟨key32 (32 - i), 10 * (32 - i)⟩ else default)
    freed := [] }

/-- Every Occupied slot is reached from the home bucket of the record it holds
over Occupied slots only: on the cyclic walk with unit stride from the home
bucket up to the slot there is no slot whose Occupied bit is clear. -/
def Pathed (h : Hashmap) (key_size : Nat) : Prop :=
  ∀ s, s < h.length → occupied h s = true →
    ∃ d, d < h.length ∧ s = (home_of h key_size s + d) % h.length
      ∧ ∀ e, e ≤ d → occupied h ((home_of h key_size s + e) % h.length) = true

instance (h : Hashmap) (key_size : Nat) : Decidable (Pathed h key_size) := by
  unfold Pathed
  infer_instance

/-- The states of a table pointer with binary keys: `NULL`, a header without
storage, or a well-formed table in which every Occupied slot is reached from the
home bucket of its record. -/
def Tracked (hm : Option Hashmap) (key_size : Nat) : Prop :=
  match hm with
  | none => True
  | some h => Fresh h ∨ (WellFormed h ∧ Pathed h key_size)

/-- The table a client reaches from `NULL` with the pushes (1,10) and (33,20) of
32-bit keys: both keys have the home bucket 31, key 1 is in slot 31 and key 33
one step further, in slot 0. -/
def displaced_table : Hashmap :=
  { insert_count := 2
    length := 32
    slots := [1, 0, 0, 128, 0]
    removed := [0, 0, 0, 0, 0]
    element_free := false
    data := ((List.replicate 32 default).set 31 ⟨key32 1, 10⟩).set 0 ⟨key32 33, 20⟩
    freed := [] }

/-- The number of set bits in a bitset, over all its bytes. -/
def set_bits (bs : List Nat) : Nat :=
  ((List.range (8 * bs.length)).filter (bit_set bs)).length

/-- The number of indices, over all the bytes of the Occupied bitset, whose
Occupied bit is set and whose Tombstoned bit is clear. -/
def live_bits (slots removed : List Nat) : Nat :=
  ((List.range (8 * slots.length)).filter
    (fun idx => bit_set slots idx && !bit_set removed idx)).length

/-- One round of SDBM in the closed form of the specification,
`h_i = (b_i + 65599 * h_(i-1)) mod 2^64`. -/
def spec_sdbm_step (hash b : Nat) : Nat :=
  (b + 65599 * hash) % 2 ^ 64

/-- One round of SDBM in the shift form of the specification, over the
integers: `(b_i + (h << 6) + (h << 16) - h) mod 2^64` with `h << n` the product
`h * 2^n`. -/
def spec_sdbm_shift (hash b : Nat) : Int :=
  ((b : Int) + (hash : Int) * 2 ^ 6 + (hash : Int) * 2 ^ 16 - (hash : Int)) % 2 ^ 64

/-- The client program `push(i, 10*i); remove(i)` for `i = 1, ..., 31` followed
by `push(32, 320)`, on 32-bit keys. -/
def clog_ops : List Op :=
  (List.range 31).flatMap
      (fun i => [Op.push (key32 (i + 1)) (10 * (i + 1)), Op.remove (key32 (i + 1))])
    ++ [Op.push (key32 32) 320]

/-- The table a client reaches from `NULL` with `clog_ops`: the length is 32,
slot 0 holds key 32 and is live, the slots 1..31 are tombstones that hold the
keys 31..1, and `insert_count` is 1. -/
def clogged_table : Hashmap :=
  { insert_count := 1
    length := 32
    slots := [255, 255, 255, 255, 0]
    removed := [254, 255, 255, 255, 0]
    element_free := false
    data := (List.range 32).map (fun i => ⟨key32 (32 - i), 10 * (32 - i)⟩)
    freed := [] }

/-- The client program that pushes the strings `"a"`, `"b"` and `"c"` of
`text_mem` with the values 1, 2 and 3 and then removes `"b"`. -/
def text_calls : List Call :=
  [Call.string_push (text_key 0) 1, Call.string_push (text_key 1) 2,
    Call.string_push (text_key 2) 3, Call.string_remove (text_key 1)]

/-- The table a client reaches from `bfutils_hashmap(element_free)` with
`text_calls`: the key fields hold the addresses of the strings, the slots 1 and
3 are live and slot 2 is a tombstone. -/
def text_table : Hashmap :=
  { insert_count := 2
    length := 32
    slots := [14, 0, 0, 0, 0]
    removed := [4, 0, 0, 0, 0]
    element_free := true
    data := (((List.replicate 32 default).set 1 ⟨ptr_bytes (text_key 0), 1⟩).set 2
      ⟨ptr_bytes (text_key 1), 2⟩).set 3 ⟨ptr_bytes (text_key 2), 3⟩
    freed := [] }

/-! # Theorems -/

/-! ## Bits -/

theorem and_shift_eq_zero_iff (b j : Nat) : (b &&& (1 <<< j) = 0) ↔ b.testBit j = false := by
  rw [Nat.one_shiftLeft]
  constructor
  · intro h
    have := congrArg (fun x => x.testBit j) h
    simpa [Nat.testBit_and, Nat.testBit_two_pow_self] using this
  · intro h
    apply Nat.eq_of_testBit_eq
    intro i
    simp only [Nat.testBit_and, Nat.testBit_two_pow, Nat.zero_testBit]
    by_cases hij : j = i
    · subst hij
      simp [h]
    · simp [hij]

theorem and_shift_bne_zero (b j : Nat) : (b &&& (1 <<< j) != 0) = b.testBit j := by
  by_cases h : b &&& (1 <<< j) = 0
  · have := (and_shift_eq_zero_iff b j).1 h
    simp [h, this]
  · have h1 : b.testBit j = true := by
      by_contra hc
      exact h ((and_shift_eq_zero_iff b j).2 (by simpa using hc))
    simp [h, h1]

theorem bit_set_eq (bs : List Nat) (idx : Nat) :
    bit_set bs idx = (bs.getD (idx / 8) 0).testBit (idx % 8) := by
  unfold bit_set
  exact and_shift_bne_zero _ _

theorem rd_of_lt (bs : List Nat) (i : Nat) (hi : i < bs.length) :
    rd bs i = .ok (bs.getD i 0) := by
  unfold rd
  rw [List.getD_eq_getElem?_getD, List.getElem?_eq_getElem hi]
  rfl

theorem getD_set_eq (bs : List Nat) (i k v : Nat) (hi : i < bs.length) :
    (bs.set i v).getD k 0 = if k = i then v else bs.getD k 0 := by
  simp only [List.getD_eq_getElem?_getD, List.getElem?_set]
  by_cases hk : i = k
  · subst hk
    simp [hi]
  · have hk1 : ¬ k = i := fun hc => hk hc.symm
    simp [hk, hk1]

/-- Setting the bit of position `p` changes that position only. -/
theorem bit_set_set_or (bs : List Nat) (p idx : Nat) (hp : p / 8 < bs.length) :
    bit_set (bs.set (p / 8) (bs.getD (p / 8) 0 ||| (1 <<< (p % 8)))) idx
      = (bit_set bs idx || decide (idx = p)) := by
  rw [bit_set_eq, bit_set_eq, getD_set_eq _ _ _ _ hp]
  by_cases h1 : idx / 8 = p / 8
  · rw [if_pos h1, Nat.testBit_or, Nat.one_shiftLeft, Nat.testBit_two_pow, h1]
    by_cases h2 : p % 8 = idx % 8
    · have : idx = p := by omega
      simp [h2, this]
    · have : ¬ idx = p := by omega
      simp [h2, this]
  · rw [if_neg h1]
    have : ¬ idx = p := by omega
    simp [this]

/-- Clearing the bit of position `p` changes that position only. -/
theorem bit_set_set_clear (bs : List Nat) (p idx : Nat) (hp : p / 8 < bs.length) :
    bit_set (bs.set (p / 8) (bs.getD (p / 8) 0 &&& (255 ^^^ (1 <<< (p % 8))))) idx
      = (bit_set bs idx && !decide (idx = p)) := by
  rw [bit_set_eq, bit_set_eq, getD_set_eq _ _ _ _ hp]
  by_cases h1 : idx / 8 = p / 8
  · rw [if_pos h1, Nat.testBit_and, Nat.testBit_xor, Nat.one_shiftLeft, Nat.testBit_two_pow, h1]
    have h255 : Nat.testBit 255 (idx % 8) = true := by
      have := Nat.testBit_two_pow_sub_one 8 (idx % 8)
      have hlt : idx % 8 < 8 := Nat.mod_lt _ (by norm_num)
      simpa [hlt] using this
    rw [h255]
    by_cases h2 : p % 8 = idx % 8
    · have : idx = p := by omega
      simp [h2, this]
    · have : ¬ idx = p := by omega
      simp [h2, this]
  · rw [if_neg h1]
    have : ¬ idx = p := by omega
    simp [this]

theorem bit_set_replicate_zero (n idx : Nat) : bit_set (List.replicate n 0) idx = false := by
  rw [bit_set_eq, List.getD_eq_getElem?_getD, List.getElem?_replicate]
  by_cases h : idx / 8 < n <;> simp [h]

/-- Positions from `length` on have no bit set in a bitset of the table's shape. -/
theorem bit_set_of_ge (bs : List Nat) (L idx : Nat) (h8 : 8 ∣ L)
    (hlen : bs.length = L / 8 + 1) (hlast : bs[L / 8]? = some 0) (hidx : L ≤ idx) :
    bit_set bs idx = false := by
  rw [bit_set_eq, List.getD_eq_getElem?_getD]
  obtain ⟨n, rfl⟩ := h8
  have hn : 8 * n / 8 = n := by omega
  rw [hn] at hlen hlast
  by_cases h1 : idx / 8 = n
  · rw [h1, hlast]
    simp
  · have h2 : bs.length ≤ idx / 8 := by omega
    rw [List.getElem?_eq_none h2]
    simp

/-! ## Walking the slots -/

/-- The step `slot_index++` with its wrap, on positions: from position `p` the
walk goes to `(p + 1) % length`. -/
theorem advance_pos (L p : Nat) (h8 : 8 ∣ L) (hp : p < L) :
    (if p % 8 + 1 = 8 then ((0 : Nat), (p / 8 + 1) % (L / 8)) else (p % 8 + 1, p / 8))
      = (((p + 1) % L) % 8, ((p + 1) % L) / 8) := by
  obtain ⟨n, rfl⟩ := h8
  have hn : 8 * n / 8 = n := by omega
  rw [hn]
  by_cases hc : p % 8 + 1 = 8
  · rw [if_pos hc]
    have h1 : p + 1 = 8 * (p / 8 + 1) := by omega
    rw [h1, Nat.mul_mod_mul_left]
    have h2 : 8 * ((p / 8 + 1) % n) % 8 = 0 := by omega
    have h3 : 8 * ((p / 8 + 1) % n) / 8 = (p / 8 + 1) % n := by omega
    rw [h2, h3]
  · rw [if_neg hc]
    have h1 : (p + 1) % (8 * n) = p + 1 := Nat.mod_eq_of_lt (by omega)
    rw [h1]
    have h2 : (p + 1) % 8 = p % 8 + 1 := by omega
    have h3 : (p + 1) / 8 = p / 8 := by omega
    rw [h2, h3]

theorem bit_test_eq_zero_iff (bs : List Nat) (p : Nat) :
    (bs.getD (p / 8) 0 &&& (1 <<< (p % 8)) = 0) ↔ bit_set bs p = false := by
  unfold bit_set
  simp

theorem data_get_of_lt (h : Hashmap) (p : Nat) (hp : p < h.data.length) :
    h.data[p]? = some (h.data.getD p default) := by
  rw [List.getD_eq_getElem?_getD, List.getElem?_eq_getElem hp]
  rfl

theorem Shape.div_lt {h : Hashmap} (hs : Shape h) {p : Nat} (hp : p < h.length) :
    p / 8 < h.length / 8 := by
  obtain ⟨_, ⟨n, hn⟩, _⟩ := hs
  omega

theorem Shape.slots_lt {h : Hashmap} (hs : Shape h) {p : Nat} (hp : p < h.length) :
    p / 8 < h.slots.length := by
  have := hs.div_lt hp
  have := hs.2.2.1
  omega

theorem Shape.removed_lt {h : Hashmap} (hs : Shape h) {p : Nat} (hp : p < h.length) :
    p / 8 < h.removed.length := by
  have := hs.div_lt hp
  have := hs.2.2.2.1
  omega

theorem Shape.div_ne_zero {h : Hashmap} (hs : Shape h) : h.length / 8 ≠ 0 := by
  have := hs.1
  omega

theorem Shape.mod_lt {h : Hashmap} (hs : Shape h) (p : Nat) : p % h.length < h.length :=
  Nat.mod_lt _ (by have := hs.1; omega)

/-- One round of the loop of `get_position`, on positions. -/
theorem get_position_loop_step (mem : Nat → List Nat) (h : Hashmap) (key : List Nat)
    (key_size : Nat) (is_string : Bool) (fuel p : Nat) (hs : Shape h)
    (hd : h.data.length = h.length) (hp : p < h.length) :
    get_position_loop mem h key key_size is_string (h.length / 8) (fuel + 1) (p % 8) (p / 8)
      = if occupied h p = false then .ok (-1)
        else if tombstoned h p = false
            ∧ keycmp mem key (h.data.getD p default).key key_size is_string = 0 then
          .ok (p : Int)
        else
          get_position_loop mem h key key_size is_string (h.length / 8) fuel
            (((p + 1) % h.length) % 8) (((p + 1) % h.length) / 8) := by
  have hadv := advance_pos h.length p hs.2.1 hp
  have hnext : (if p % 8 + 1 = 8 then
        (if h.length / 8 = 0 then (.error Fault.div_by_zero : Except Fault Int)
         else get_position_loop mem h key key_size is_string (h.length / 8) fuel 0
           ((p / 8 + 1) % (h.length / 8)))
      else get_position_loop mem h key key_size is_string (h.length / 8) fuel (p % 8 + 1) (p / 8))
      = get_position_loop mem h key key_size is_string (h.length / 8) fuel
          (((p + 1) % h.length) % 8) (((p + 1) % h.length) / 8) := by
    by_cases h8 : p % 8 + 1 = 8
    · rw [if_pos h8, if_neg hs.div_ne_zero]
      rw [if_pos h8] at hadv
      have e1 := congrArg Prod.fst hadv
      have e2 := congrArg Prod.snd hadv
      simp only at e1 e2
      rw [← e1, ← e2]
    · rw [if_neg h8]
      rw [if_neg h8] at hadv
      have e1 := congrArg Prod.fst hadv
      have e2 := congrArg Prod.snd hadv
      simp only at e1 e2
      rw [← e1, ← e2]
  rw [get_position_loop, rd_of_lt _ _ (hs.slots_lt hp), rd_of_lt _ _ (hs.removed_lt hp)]
  simp only [Nat.div_add_mod', data_get_of_lt h p (hd ▸ hp), and_shift_bne_zero]
  rw [← bit_set_eq, hnext]
  by_cases hocc : occupied h p = false
  · have h0 : h.slots.getD (p / 8) 0 &&& (1 <<< (p % 8)) = 0 :=
      (bit_test_eq_zero_iff _ _).2 hocc
    rw [if_pos h0, if_pos hocc]
  · have h0 : ¬ h.slots.getD (p / 8) 0 &&& (1 <<< (p % 8)) = 0 := fun hc =>
      hocc ((bit_test_eq_zero_iff _ _).1 hc)
    rw [if_neg h0, if_neg hocc]
    by_cases ht : bit_set h.removed p = true
    · have hm : ¬ (tombstoned h p = false
          ∧ keycmp mem key (h.data.getD p default).key key_size is_string = 0) := by
        intro hc
        have h1 : bit_set h.removed p = false := hc.1
        rw [ht] at h1
        cases h1
      rw [if_pos ht, if_neg hm]
    · rw [if_neg ht]
      have ht1 : tombstoned h p = false := by
        unfold tombstoned
        simpa using ht
      by_cases hk : keycmp mem key (h.data.getD p default).key key_size is_string = 0
      · rw [if_pos hk, if_pos ⟨ht1, hk⟩]
      · rw [if_neg hk, if_neg (fun hc => hk hc.2)]

/-- One round of the loop of `insert_position`, on positions; `index` is the
home bucket whose record every round compares with. -/
theorem insert_position_loop_step (mem : Nat → List Nat) (h : Hashmap) (key : List Nat)
    (key_size : Nat) (is_string : Bool) (index fuel p : Nat) (found : Bool) (r : Nat)
    (hs : Shape h) (hd : h.data.length = h.length) (hp : p < h.length)
    (hindex : index < h.length) (hr : found = true → r < h.length) :
    insert_position_loop mem h key key_size is_string index (h.length / 8) (fuel + 1)
        (p % 8) (p / 8) found r
      = if occupied h p = false then
          (if found = true then .ok (revive h r, p) else .ok (occupy h p, p))
        else if tombstoned h p = true ∧ found = false then
          insert_position_loop mem h key key_size is_string index (h.length / 8) fuel
            (p % 8) (p / 8) true p
        else if keycmp mem key (h.data.getD index default).key key_size is_string = 0
            ∧ tombstoned h p = false then
          .ok (call_free h p, p)
        else
          insert_position_loop mem h key key_size is_string index (h.length / 8) fuel
            (((p + 1) % h.length) % 8) (((p + 1) % h.length) / 8) found r := by
  have hadv := advance_pos h.length p hs.2.1 hp
  rw [insert_position_loop, rd_of_lt _ _ (hs.slots_lt hp), rd_of_lt _ _ (hs.removed_lt hp)]
  simp only [Nat.div_add_mod', data_get_of_lt h index (hd ▸ hindex),
    data_get_of_lt h p (hd ▸ hp), and_shift_bne_zero]
  rw [← bit_set_eq]
  by_cases hocc : occupied h p = false
  · have h0 : h.slots.getD (p / 8) 0 &&& (1 <<< (p % 8)) = 0 :=
      (bit_test_eq_zero_iff _ _).2 hocc
    rw [if_pos h0, if_pos hocc]
    by_cases hf : found = true
    · rw [if_pos hf, if_pos hf, rd_of_lt _ _ (hs.removed_lt (hr hf)),
        rd_of_lt _ _ (hs.slots_lt (hr hf))]
      rfl
    · rw [if_neg hf, if_neg hf]
      rfl
  · have h0 : ¬ h.slots.getD (p / 8) 0 &&& (1 <<< (p % 8)) = 0 := fun hc =>
      hocc ((bit_test_eq_zero_iff _ _).1 hc)
    rw [if_neg h0, if_neg hocc]
    by_cases ht : tombstoned h p = true ∧ found = false
    · have : (bit_set h.removed p && !found) = true := by
        have h1 : bit_set h.removed p = true := ht.1
        rw [h1, ht.2]
        rfl
      rw [if_pos this, if_pos ht]
    · have : ¬ (bit_set h.removed p && !found) = true := by
        intro hc
        simp only [Bool.and_eq_true, Bool.not_eq_true'] at hc
        exact ht hc
      rw [if_neg this, if_neg ht]
      by_cases hm : keycmp mem key (h.data.getD index default).key key_size is_string = 0
          ∧ tombstoned h p = false
      · have : (decide (keycmp mem key (h.data.getD index default).key key_size is_string = 0)
            && !bit_set h.removed p) = true := by
          have h1 : bit_set h.removed p = false := hm.2
          rw [h1]
          simp only [Bool.not_false, Bool.and_true, decide_eq_true_eq]
          exact hm.1
        rw [if_pos this, if_pos hm]
        unfold call_free
        by_cases hef : h.element_free = true
        · rw [if_pos hef, if_pos hef]
        · rw [if_neg hef, if_neg hef]
      · have : ¬ (decide (keycmp mem key (h.data.getD index default).key key_size is_string = 0)
            && !bit_set h.removed p) = true := by
          intro hc
          simp only [Bool.and_eq_true, Bool.not_eq_true', decide_eq_true_eq] at hc
          exact hm hc
        rw [if_neg this, if_neg hm]
        by_cases h8 : p % 8 + 1 = 8
        · rw [if_pos h8, if_neg hs.div_ne_zero]
          rw [if_pos h8] at hadv
          have e1 := congrArg Prod.fst hadv
          have e2 := congrArg Prod.snd hadv
          simp only at e1 e2
          rw [← e1, ← e2]
        · rw [if_neg h8]
          rw [if_neg h8] at hadv
          have e1 := congrArg Prod.fst hadv
          have e2 := congrArg Prod.snd hadv
          simp only at e1 e2
          rw [← e1, ← e2]

/-! ## The outcomes of `insert_position` -/

/-- Whatever the loop of `insert_position` returns, it is one of three things:
a not-Occupied slot `pos` was reached and taken; a not-Occupied slot `pos` was
reached and a tombstone `r` seen before was taken back; or the walk stopped at
a live slot `pos` because the record of the home bucket compared equal. -/
theorem insert_position_loop_cases (mem : Nat → List Nat) (h : Hashmap) (key : List Nat)
    (key_size : Nat) (is_string : Bool) (index : Nat) (hs : Shape h)
    (hd : h.data.length = h.length) (hindex : index < h.length) :
    ∀ (fuel p : Nat) (found : Bool) (r : Nat) (h1 : Hashmap) (pos : Nat),
      p < h.length →
      (found = true → r < h.length ∧ occupied h r = true ∧ tombstoned h r = true) →
      insert_position_loop mem h key key_size is_string index (h.length / 8) fuel
        (p % 8) (p / 8) found r = .ok (h1, pos) →
      pos < h.length ∧
        ((occupied h pos = false ∧ h1 = occupy h pos)
          ∨ (occupied h pos = false ∧ ∃ r1, r1 < h.length ∧ occupied h r1 = true
              ∧ tombstoned h r1 = true ∧ h1 = revive h r1)
          ∨ (occupied h pos = true ∧ tombstoned h pos = false
              ∧ keycmp mem key (h.data.getD index default).key key_size is_string = 0
              ∧ h1 = call_free h pos)) := by
  intro fuel
  induction fuel with
  | zero =>
    intro p found r h1 pos _ _ hrun
    rw [insert_position_loop] at hrun
    cases hrun
  | succ fuel ih =>
    intro p found r h1 pos hp hr hrun
    rw [insert_position_loop_step mem h key key_size is_string index fuel p found r hs hd hp
      hindex (fun hf => (hr hf).1)] at hrun
    by_cases hocc : occupied h p = false
    · rw [if_pos hocc] at hrun
      by_cases hf : found = true
      · rw [if_pos hf] at hrun
        simp only [Except.ok.injEq, Prod.mk.injEq] at hrun
        obtain ⟨e1, e2⟩ := hrun
        subst e1 e2
        exact ⟨hp, Or.inr (Or.inl ⟨hocc, r, (hr hf).1, (hr hf).2.1, (hr hf).2.2, rfl⟩)⟩
      · rw [if_neg hf] at hrun
        simp only [Except.ok.injEq, Prod.mk.injEq] at hrun
        obtain ⟨e1, e2⟩ := hrun
        subst e1 e2
        exact ⟨hp, Or.inl ⟨hocc, rfl⟩⟩
    · rw [if_neg hocc] at hrun
      have hocc1 : occupied h p = true := by simpa using hocc
      by_cases ht : tombstoned h p = true ∧ found = false
      · rw [if_pos ht] at hrun
        exact ih p true p h1 pos hp (fun _ => ⟨hp, hocc1, ht.1⟩) hrun
      · rw [if_neg ht] at hrun
        by_cases hm : keycmp mem key (h.data.getD index default).key key_size is_string = 0
            ∧ tombstoned h p = false
        · rw [if_pos hm] at hrun
          simp only [Except.ok.injEq, Prod.mk.injEq] at hrun
          obtain ⟨e1, e2⟩ := hrun
          subst e1 e2
          exact ⟨hp, Or.inr (Or.inr ⟨hocc1, hm.2, hm.1, rfl⟩)⟩
        · rw [if_neg hm] at hrun
          exact ih ((p + 1) % h.length) found r h1 pos (hs.mod_lt _) hr hrun

/-- The outcomes of `bfutils_hashmap_insert_position` on a table with storage. -/
theorem insert_position_cases (mem : Nat → List Nat) (h : Hashmap) (key : List Nat)
    (key_size : Nat) (is_string : Bool) (hs : Shape h) (hd : h.data.length = h.length)
    (h1 : Hashmap) (pos : Nat)
    (hrun : bfutils_hashmap_insert_position mem (some h) key key_size is_string = .ok (h1, pos)) :
    pos < h.length ∧
      ((occupied h pos = false ∧ h1 = occupy h pos)
        ∨ (occupied h pos = false ∧ ∃ r1, r1 < h.length ∧ occupied h r1 = true
            ∧ tombstoned h r1 = true ∧ h1 = revive h r1)
        ∨ (occupied h pos = true ∧ tombstoned h pos = false ∧ h1 = call_free h pos)) := by
  unfold bfutils_hashmap_insert_position at hrun
  cases hk : key_hash key key_size is_string with
  | error e => simp [hk] at hrun
  | ok hash =>
    have hne : ¬ bfutils_hashmap_length (some h) = 0 := by
      have := hs.1
      simp only [bfutils_hashmap_length]
      omega
    simp only [hk, if_neg hne] at hrun
    have hidx : hash % h.length < h.length := hs.mod_lt _
    have := insert_position_loop_cases mem h key key_size is_string (hash % h.length) hs hd hidx
      _ (hash % h.length) false 0 h1 pos hidx (by simp) hrun
    obtain ⟨hpos, hc⟩ := this
    refine ⟨hpos, ?_⟩
    rcases hc with hc | hc | hc
    · exact Or.inl hc
    · exact Or.inr (Or.inl hc)
    · exact Or.inr (Or.inr ⟨hc.1, hc.2.1, hc.2.2.2⟩)

/-! ## The state after each kind of update -/

theorem occupied_occupy (h : Hashmap) (p idx : Nat) (hp : p / 8 < h.slots.length) :
    occupied (occupy h p) idx = (occupied h idx || decide (idx = p)) :=
  bit_set_set_or h.slots p idx hp

theorem tombstoned_occupy (h : Hashmap) (p idx : Nat) :
    tombstoned (occupy h p) idx = tombstoned h idx := rfl

theorem occupied_revive (h : Hashmap) (r idx : Nat) (hr : r / 8 < h.slots.length) :
    occupied (revive h r) idx = (occupied h idx || decide (idx = r)) :=
  bit_set_set_or h.slots r idx hr

theorem tombstoned_revive (h : Hashmap) (r idx : Nat) (hr : r / 8 < h.removed.length) :
    tombstoned (revive h r) idx = (tombstoned h idx && !decide (idx = r)) :=
  bit_set_set_clear h.removed r idx hr

theorem occupied_bury (h : Hashmap) (p idx : Nat) :
    occupied (bury h p) idx = occupied h idx := rfl

theorem tombstoned_bury (h : Hashmap) (p idx : Nat) (hp : p / 8 < h.removed.length) :
    tombstoned (bury h p) idx = (tombstoned h idx || decide (idx = p)) :=
  bit_set_set_or h.removed p idx hp

theorem occupied_call_free (h : Hashmap) (p idx : Nat) :
    occupied (call_free h p) idx = occupied h idx := by
  unfold call_free
  split <;> rfl

theorem tombstoned_call_free (h : Hashmap) (p idx : Nat) :
    tombstoned (call_free h p) idx = tombstoned h idx := by
  unfold call_free
  split <;> rfl

theorem call_free_length (h : Hashmap) (p : Nat) : (call_free h p).length = h.length := by
  unfold call_free
  split <;> rfl

theorem call_free_data (h : Hashmap) (p : Nat) : (call_free h p).data = h.data := by
  unfold call_free
  split <;> rfl

theorem call_free_insert_count (h : Hashmap) (p : Nat) :
    (call_free h p).insert_count = h.insert_count := by
  unfold call_free
  split <;> rfl

theorem call_free_slots (h : Hashmap) (p : Nat) : (call_free h p).slots = h.slots := by
  unfold call_free
  split <;> rfl

theorem call_free_removed (h : Hashmap) (p : Nat) : (call_free h p).removed = h.removed := by
  unfold call_free
  split <;> rfl

/-- A write to byte `p / 8` of a bitset, for a slot `p`, keeps the shape. -/
theorem set_keeps_shape (bs : List Nat) (L p v : Nat) (h8 : 8 ∣ L) (hp : p < L)
    (hlen : bs.length = L / 8 + 1) (hlast : bs[L / 8]? = some 0) :
    (bs.set (p / 8) v).length = L / 8 + 1 ∧ (bs.set (p / 8) v)[L / 8]? = some 0 := by
  refine ⟨by rw [List.length_set, hlen], ?_⟩
  rw [List.getElem?_set]
  obtain ⟨n, rfl⟩ := h8
  have : ¬ p / 8 = 8 * n / 8 := by omega
  rw [if_neg this, hlast]

theorem shape_occupy {h : Hashmap} (hs : Shape h) {p : Nat} (hp : p < h.length) :
    Shape (occupy h p) := by
  obtain ⟨h1, h2, h3, h4, h5, h6⟩ := hs
  have := set_keeps_shape h.slots h.length p
    (h.slots.getD (p / 8) 0 ||| (1 <<< (p % 8))) h2 hp h3 h5
  exact ⟨h1, h2, this.1, h4, this.2, h6⟩

theorem shape_revive {h : Hashmap} (hs : Shape h) {r : Nat} (hr : r < h.length) :
    Shape (revive h r) := by
  obtain ⟨h1, h2, h3, h4, h5, h6⟩ := hs
  have a := set_keeps_shape h.slots h.length r
    (h.slots.getD (r / 8) 0 ||| (1 <<< (r % 8))) h2 hr h3 h5
  have b := set_keeps_shape h.removed h.length r
    (h.removed.getD (r / 8) 0 &&& (255 ^^^ (1 <<< (r % 8)))) h2 hr h4 h6
  exact ⟨h1, h2, a.1, b.1, a.2, b.2⟩

theorem shape_bury {h : Hashmap} (hs : Shape h) {p : Nat} (hp : p < h.length) :
    Shape (bury h p) := by
  obtain ⟨h1, h2, h3, h4, h5, h6⟩ := hs
  have b := set_keeps_shape h.removed h.length p
    (h.removed.getD (p / 8) 0 ||| (1 <<< (p % 8))) h2 hp h4 h6
  exact ⟨h1, h2, h3, b.1, h5, b.2⟩

theorem shape_call_free {h : Hashmap} (hs : Shape h) (p : Nat) : Shape (call_free h p) := by
  unfold Shape
  rw [call_free_length, call_free_slots, call_free_removed]
  exact hs

theorem shape_store {h : Hashmap} (hs : Shape h) (pos : Nat) (r : Record) :
    Shape (store h pos r) := hs

/-! ## Counting live slots -/

/-- Two predicates that differ at most at `a` have counts over `range n` that
differ by what they say at `a`. -/
theorem countP_range_update (f g : Nat → Bool) (a : Nat)
    (hfg : ∀ idx, idx ≠ a → g idx = f idx) (n : Nat) :
    (List.range n).countP g + (if a < n ∧ f a = true then 1 else 0)
      = (List.range n).countP f + (if a < n ∧ g a = true then 1 else 0) := by
  induction n with
  | zero => simp
  | succ n ih =>
    rw [List.range_succ, List.countP_append, List.countP_append]
    simp only [List.countP_cons, List.countP_nil, Nat.zero_add]
    by_cases hna : n = a
    · subst hna
      have h1 : ¬ n < n := lt_irrefl n
      simp only [h1, false_and, if_false, Nat.add_zero] at ih
      have h2 : n < n + 1 := Nat.lt_succ_self n
      simp only [h2, true_and]
      rw [ih]
      omega
    · have h3 := hfg n hna
      rw [h3]
      have h4 : a < n + 1 ↔ a < n := by omega
      simp only [h4]
      omega

theorem live_positions_length (h : Hashmap) :
    (live_positions h).length = (List.range h.length).countP (live h) := by
  unfold live_positions
  rw [List.countP_eq_length_filter]

/-! ## Updates keep the table well formed -/

theorem WellFormed.shape {h : Hashmap} (hw : WellFormed h) : Shape h := hw.1

theorem well_formed_occupy {h : Hashmap} (hw : WellFormed h) {p : Nat} (hp : p < h.length)
    (hocc : occupied h p = false) : WellFormed (occupy h p) := by
  obtain ⟨hs, hpow, hd, hto, hcnt⟩ := hw
  have htp : tombstoned h p = false := by
    by_contra hc
    have := hto p hp (by simpa using hc)
    rw [hocc] at this
    cases this
  refine ⟨shape_occupy hs hp, hpow, hd, ?_, ?_⟩
  · intro idx hidx ht
    rw [occupied_occupy h p idx (hs.slots_lt hp)]
    rw [tombstoned_occupy] at ht
    rw [hto idx hidx ht]
    rfl
  · rw [live_positions_length]
    have hlen : (occupy h p).length = h.length := rfl
    rw [hlen]
    have hupd := countP_range_update (live h) (live (occupy h p)) p (by
      intro idx hne
      unfold live
      rw [occupied_occupy h p idx (hs.slots_lt hp), tombstoned_occupy]
      simp [hne]) h.length
    have h1 : live h p = false := by
      unfold live
      rw [hocc]
      rfl
    have h2 : live (occupy h p) p = true := by
      unfold live
      rw [occupied_occupy h p p (hs.slots_lt hp), tombstoned_occupy, htp]
      simp
    rw [h1, h2] at hupd
    simp only [hp, true_and, if_true] at hupd
    rw [live_positions_length] at hcnt
    have hc : (occupy h p).insert_count = h.insert_count + 1 := rfl
    rw [hc, hcnt]
    simp only [Bool.false_eq_true, if_false, Nat.add_zero] at hupd
    exact hupd.symm

theorem well_formed_revive {h : Hashmap} (hw : WellFormed h) {r : Nat} (hr : r < h.length)
    (hocc : occupied h r = true) (htomb : tombstoned h r = true) : WellFormed (revive h r) := by
  obtain ⟨hs, hpow, hd, hto, hcnt⟩ := hw
  refine ⟨shape_revive hs hr, hpow, hd, ?_, ?_⟩
  · intro idx hidx ht
    rw [occupied_revive h r idx (hs.slots_lt hr)]
    rw [tombstoned_revive h r idx (hs.removed_lt hr)] at ht
    simp only [Bool.and_eq_true] at ht
    rw [hto idx hidx ht.1]
    rfl
  · rw [live_positions_length]
    have hlen : (revive h r).length = h.length := rfl
    rw [hlen]
    have hupd := countP_range_update (live h) (live (revive h r)) r (by
      intro idx hne
      unfold live
      rw [occupied_revive h r idx (hs.slots_lt hr), tombstoned_revive h r idx (hs.removed_lt hr)]
      simp [hne]) h.length
    have h1 : live h r = false := by
      unfold live
      rw [hocc, htomb]
      rfl
    have h2 : live (revive h r) r = true := by
      unfold live
      rw [occupied_revive h r r (hs.slots_lt hr), tombstoned_revive h r r (hs.removed_lt hr)]
      simp
    rw [h1, h2] at hupd
    simp only [hr, true_and, if_true] at hupd
    rw [live_positions_length] at hcnt
    have hc : (revive h r).insert_count = h.insert_count + 1 := rfl
    rw [hc, hcnt]
    simp only [Bool.false_eq_true, if_false, Nat.add_zero] at hupd
    exact hupd.symm

theorem well_formed_bury {h : Hashmap} (hw : WellFormed h) {p : Nat} (hp : p < h.length)
    (hlive : live h p = true) : WellFormed (bury h p) := by
  obtain ⟨hs, hpow, hd, hto, hcnt⟩ := hw
  have hocc : occupied h p = true := by
    unfold live at hlive
    simp only [Bool.and_eq_true] at hlive
    exact hlive.1
  refine ⟨shape_bury hs hp, hpow, hd, ?_, ?_⟩
  · intro idx hidx ht
    rw [occupied_bury]
    rw [tombstoned_bury h p idx (hs.removed_lt hp)] at ht
    simp only [Bool.or_eq_true, decide_eq_true_eq] at ht
    rcases ht with ht | ht
    · exact hto idx hidx ht
    · rw [ht]
      exact hocc
  · rw [live_positions_length]
    have hlen : (bury h p).length = h.length := rfl
    rw [hlen]
    have hupd := countP_range_update (live h) (live (bury h p)) p (by
      intro idx hne
      unfold live
      rw [occupied_bury, tombstoned_bury h p idx (hs.removed_lt hp)]
      simp [hne]) h.length
    have h2 : live (bury h p) p = false := by
      unfold live
      rw [occupied_bury, tombstoned_bury h p p (hs.removed_lt hp)]
      simp
    rw [hlive, h2] at hupd
    simp only [hp, true_and, if_true] at hupd
    rw [live_positions_length] at hcnt
    have hc : (bury h p).insert_count = size_t_pred h.insert_count := rfl
    rw [hc, hcnt]
    unfold size_t_pred
    have hpos : ¬ List.countP (live h) (List.range h.length) = 0 := by
      simp at hupd
      omega
    rw [if_neg hpos]
    simp at hupd
    omega

theorem live_call_free (h : Hashmap) (p : Nat) : live (call_free h p) = live h := by
  funext idx
  unfold live
  rw [occupied_call_free, tombstoned_call_free]

theorem well_formed_call_free {h : Hashmap} (hw : WellFormed h) (p : Nat) :
    WellFormed (call_free h p) := by
  obtain ⟨hs, hpow, hd, hto, hcnt⟩ := hw
  refine ⟨shape_call_free hs p, ?_, ?_, ?_, ?_⟩
  · rw [call_free_length]
    exact hpow
  · rw [call_free_length, call_free_data]
    exact hd
  · intro idx hidx ht
    rw [call_free_length] at hidx
    rw [tombstoned_call_free] at ht
    rw [occupied_call_free]
    exact hto idx hidx ht
  · unfold live_positions
    rw [call_free_insert_count, call_free_length, live_call_free]
    exact hcnt

theorem well_formed_store {h : Hashmap} (hw : WellFormed h) (pos : Nat) (r : Record) :
    WellFormed (store h pos r) := by
  obtain ⟨hs, hpow, hd, hto, hcnt⟩ := hw
  refine ⟨hs, hpow, ?_, hto, hcnt⟩
  show (h.data.set pos r).length = h.length
  rw [List.length_set]
  exact hd

/-- `insert_position` keeps a table well formed and returns a slot of it. -/
theorem insert_position_well_formed (mem : Nat → List Nat) (h : Hashmap) (key : List Nat)
    (key_size : Nat) (is_string : Bool) (hw : WellFormed h) (h1 : Hashmap) (pos : Nat)
    (hrun : bfutils_hashmap_insert_position mem (some h) key key_size is_string = .ok (h1, pos)) :
    WellFormed h1 ∧ pos < h1.length ∧ h1.length = h.length := by
  obtain ⟨hpos, hc⟩ := insert_position_cases mem h key key_size is_string hw.shape hw.2.2.1
    h1 pos hrun
  rcases hc with ⟨hocc, rfl⟩ | ⟨_, r1, hr1, ho, ht, rfl⟩ | ⟨_, _, rfl⟩
  · exact ⟨well_formed_occupy hw hpos hocc, hpos, rfl⟩
  · exact ⟨well_formed_revive hw hr1 ho ht, hpos, rfl⟩
  · exact ⟨well_formed_call_free hw pos, by rw [call_free_length]; exact hpos, call_free_length h pos⟩

/-! ## The outcomes of `get_position` and `remove_key` -/

/-- Whatever the loop of `get_position` returns is `-1` or a live slot whose
key compares equal. -/
theorem get_position_loop_cases (mem : Nat → List Nat) (h : Hashmap) (key : List Nat)
    (key_size : Nat) (is_string : Bool) (hs : Shape h) (hd : h.data.length = h.length) :
    ∀ (fuel p : Nat) (index : Int), p < h.length →
      get_position_loop mem h key key_size is_string (h.length / 8) fuel (p % 8) (p / 8)
        = .ok index →
      index = -1 ∨ ∃ q, q < h.length ∧ index = (q : Int) ∧ live h q = true
        ∧ keycmp mem key (h.data.getD q default).key key_size is_string = 0 := by
  intro fuel
  induction fuel with
  | zero =>
    intro p index _ hrun
    rw [get_position_loop] at hrun
    cases hrun
  | succ fuel ih =>
    intro p index hp hrun
    rw [get_position_loop_step mem h key key_size is_string fuel p hs hd hp] at hrun
    by_cases hocc : occupied h p = false
    · rw [if_pos hocc] at hrun
      simp only [Except.ok.injEq] at hrun
      exact Or.inl hrun.symm
    · rw [if_neg hocc] at hrun
      by_cases hm : tombstoned h p = false
          ∧ keycmp mem key (h.data.getD p default).key key_size is_string = 0
      · rw [if_pos hm] at hrun
        simp only [Except.ok.injEq] at hrun
        refine Or.inr ⟨p, hp, hrun.symm, ?_, hm.2⟩
        unfold live
        rw [hm.1]
        simpa using hocc
      · rw [if_neg hm] at hrun
        exact ih ((p + 1) % h.length) index (hs.mod_lt _) hrun

theorem get_position_cases (mem : Nat → List Nat) (h : Hashmap) (key : List Nat)
    (key_size : Nat) (is_string : Bool) (hs : Shape h) (hd : h.data.length = h.length)
    (index : Int)
    (hrun : bfutils_hashmap_get_position mem (some h) key key_size is_string = .ok index) :
    index = -1 ∨ ∃ q, q < h.length ∧ index = (q : Int) ∧ live h q = true
      ∧ keycmp mem key (h.data.getD q default).key key_size is_string = 0 := by
  unfold bfutils_hashmap_get_position at hrun
  cases hk : key_hash key key_size is_string with
  | error e => simp [hk] at hrun
  | ok hash =>
    have hne : ¬ bfutils_hashmap_length (some h) = 0 := by
      have := hs.1
      simp only [bfutils_hashmap_length]
      omega
    simp only [hk, if_neg hne] at hrun
    exact get_position_loop_cases mem h key key_size is_string hs hd _ (hash % h.length) index
      (hs.mod_lt _) hrun

/-- The outcome of `remove_key` on a table with storage: nothing changes unless
the returned index is positive, and then the slot is buried. -/
theorem remove_key_cases (mem : Nat → List Nat) (h : Hashmap) (key : List Nat)
    (key_size : Nat) (is_string : Bool) (hs : Shape h) (hd : h.data.length = h.length)
    (hm1 : Option Hashmap) (index : Int)
    (hrun : bfutils_hashmap_remove_key mem (some h) key key_size is_string = .ok (hm1, index)) :
    bfutils_hashmap_get_position mem (some h) key key_size is_string = .ok index ∧
      ((index ≤ 0 ∧ hm1 = some h)
        ∨ ∃ q, 0 < q ∧ q < h.length ∧ index = (q : Int) ∧ live h q = true
            ∧ hm1 = some (bury h q)) := by
  unfold bfutils_hashmap_remove_key at hrun
  cases hg : bfutils_hashmap_get_position mem (some h) key key_size is_string with
  | error e => simp [hg] at hrun
  | ok idx =>
    simp only [hg] at hrun
    by_cases hpos : idx > 0
    · simp only [hpos, if_true] at hrun
      rcases get_position_cases mem h key key_size is_string hs hd idx hg with hc | ⟨q, hq, hiq, hl, _⟩
      · omega
      · subst hiq
        have hq0 : 0 < q := by omega
        simp only [Int.toNat_ofNat, rd_of_lt _ _ (hs.removed_lt hq), Except.ok.injEq,
          Prod.mk.injEq] at hrun
        obtain ⟨e1, e2⟩ := hrun
        subst e1 e2
        exact ⟨rfl, Or.inr ⟨q, hq0, hq, rfl, hl, rfl⟩⟩
    · simp only [hpos, if_false, Except.ok.injEq, Prod.mk.injEq] at hrun
      obtain ⟨e1, e2⟩ := hrun
      subst e1 e2
      exact ⟨rfl, Or.inl ⟨by omega, rfl⟩⟩

/-! ## Resizing keeps the table well formed -/

theorem live_of_zero_bitsets (h : Hashmap) (n : Nat) (hsl : h.slots = List.replicate n 0)
    (idx : Nat) : live h idx = false := by
  unfold live occupied
  rw [hsl, bit_set_replicate_zero]
  rfl

/-- The header and storage set up for a length that is a power of two from 32
on is a well-formed empty table. -/
theorem resize_header_well_formed (hm : Option Hashmap) (n : Nat) (hn : 5 ≤ n) :
    WellFormed (resize_header hm (2 ^ n)) := by
  have hlt : n < 2 ^ n := Nat.lt_two_pow n
  have h32 : 2 ^ 5 ≤ 2 ^ n := Nat.pow_le_pow_right (by norm_num) hn
  have h8 : 8 ∣ 2 ^ n := by
    have : (2 : Nat) ^ 3 ∣ 2 ^ n := Nat.pow_dvd_pow 2 (by omega)
    simpa using this
  refine ⟨⟨?_, h8, ?_, ?_, ?_, ?_⟩, ⟨n, hlt, hn, rfl⟩, ?_, ?_, ?_⟩
  · show 8 ≤ 2 ^ n
    omega
  · show (List.replicate (2 ^ n / 8 + 1) 0).length = 2 ^ n / 8 + 1
    rw [List.length_replicate]
  · show (List.replicate (2 ^ n / 8 + 1) 0).length = 2 ^ n / 8 + 1
    rw [List.length_replicate]
  · show (List.replicate (2 ^ n / 8 + 1) 0)[2 ^ n / 8]? = some 0
    rw [List.getElem?_replicate, if_pos (Nat.lt_succ_self _)]
  · show (List.replicate (2 ^ n / 8 + 1) 0)[2 ^ n / 8]? = some 0
    rw [List.getElem?_replicate, if_pos (Nat.lt_succ_self _)]
  · show ((data_of hm).take (2 ^ n)
      ++ List.replicate (2 ^ n - (data_of hm).length) default).length = 2 ^ n
    rw [List.length_append, List.length_take, List.length_replicate]
    omega
  · intro idx _ ht
    have : tombstoned (resize_header hm (2 ^ n)) idx = false := by
      unfold tombstoned resize_header
      exact bit_set_replicate_zero _ _
    rw [this] at ht
    cases ht
  · show 0 = (live_positions (resize_header hm (2 ^ n))).length
    unfold live_positions
    have : ∀ idx, live (resize_header hm (2 ^ n)) idx = false := fun idx =>
      live_of_zero_bitsets _ _ rfl idx
    rw [List.filter_eq_nil_iff.2 (fun a _ => by simp [this a])]
    rfl

/-- The re-insertion loop keeps the new table well formed and at its length. -/
theorem rehash_loop_well_formed (mem : Nat → List Nat) (slots removed : List Nat)
    (old_data : List Record) (key_size : Nat) (is_string : Bool) :
    ∀ (l : List Nat) (h0 h1 : Hashmap), WellFormed h0 →
      rehash_loop mem slots removed old_data key_size is_string l h0 = .ok h1 →
      WellFormed h1 ∧ h1.length = h0.length ∧ h1.element_free = h0.element_free := by
  intro l
  induction l with
  | nil =>
    intro h0 h1 hw hrun
    rw [rehash_loop] at hrun
    cases hrun
    exact ⟨hw, rfl, rfl⟩
  | cons idx rest ih =>
    intro h0 h1 hw hrun
    rw [rehash_loop] at hrun
    cases hsb : rd slots (idx / 8) with
    | error e => simp [hsb] at hrun
    | ok sb =>
      cases hrb : rd removed (idx / 8) with
      | error e => simp [hsb, hrb] at hrun
      | ok rb =>
        simp only [hsb, hrb] at hrun
        split at hrun
        · cases hod : old_data[idx]? with
          | none => simp [hod] at hrun
          | some source =>
            simp only [hod] at hrun
            cases hins : bfutils_hashmap_insert_position mem (some h0) source.key key_size
                is_string with
            | error e => simp [hins] at hrun
            | ok res =>
              obtain ⟨h2, pos⟩ := res
              simp only [hins] at hrun
              obtain ⟨hw2, _, hlen2⟩ := insert_position_well_formed mem h0 source.key key_size
                is_string hw h2 pos hins
              have hef : h2.element_free = h0.element_free := by
                obtain ⟨_, hc⟩ := insert_position_cases mem h0 source.key key_size is_string
                  hw.shape hw.2.2.1 h2 pos hins
                rcases hc with ⟨_, rfl⟩ | ⟨_, r1, _, _, _, rfl⟩ | ⟨_, _, rfl⟩
                · rfl
                · rfl
                · unfold call_free
                  split <;> rfl
              obtain ⟨hw3, hlen3, hef3⟩ := ih (store h2 pos source) h1
                (well_formed_store hw2 pos source) hrun
              exact ⟨hw3, hlen3.trans hlen2, hef3.trans hef⟩
        · exact ih h0 h1 hw hrun

/-- The decisions of `bfutils_hashmap_resize`, case by case. -/
theorem resize_eq (mem : Nat → List Nat) (hm : Option Hashmap) (key_size : Nat)
    (is_string : Bool) :
    bfutils_hashmap_resize mem hm key_size is_string
      = if bfutils_hashmap_length hm = 0 then .ok (some (resize_header hm 32))
        else if 2 * bfutils_hashmap_insert_count hm > bfutils_hashmap_length hm then
          rehash_into mem hm key_size is_string (bfutils_hashmap_length hm * 2)
        else if bfutils_hashmap_length hm > 32
            ∧ 4 * bfutils_hashmap_insert_count hm < bfutils_hashmap_length hm then
          rehash_into mem hm key_size is_string (bfutils_hashmap_length hm / 2)
        else .ok hm := by
  unfold bfutils_hashmap_resize rehash_into
  by_cases h0 : bfutils_hashmap_length hm = 0
  · simp [h0]
  · have hpos : bfutils_hashmap_length hm > 0 := Nat.pos_of_ne_zero h0
    by_cases hg : 2 * bfutils_hashmap_insert_count hm > bfutils_hashmap_length hm
    · have hns : ¬ 4 * bfutils_hashmap_insert_count hm < bfutils_hashmap_length hm := by omega
      simp [h0, hg, hns, hpos]
    · by_cases hsh : bfutils_hashmap_length hm > 32
          ∧ 4 * bfutils_hashmap_insert_count hm < bfutils_hashmap_length hm
      · simp [h0, hg, hsh.1, hsh.2, hpos]
      · simp only [h0, hg, if_neg hsh]
        by_cases h32 : bfutils_hashmap_length hm > 32
        · have : ¬ 4 * bfutils_hashmap_insert_count hm < bfutils_hashmap_length hm :=
            fun hc => hsh ⟨h32, hc⟩
          simp [h32, this]
        · simp [h32]

theorem rehash_into_well_formed (mem : Nat → List Nat) (hm : Option Hashmap)
    (key_size : Nat) (is_string : Bool) (n : Nat) (hn : 5 ≤ n) (hm1 : Option Hashmap)
    (hrun : rehash_into mem hm key_size is_string (2 ^ n) = .ok hm1) :
    ∃ h1, hm1 = some h1 ∧ WellFormed h1 ∧ h1.length = 2 ^ n := by
  unfold rehash_into at hrun
  cases hl : rehash_loop mem (bfutils_hashmap_slots hm) (bfutils_hashmap_removed hm)
      (data_of hm) key_size is_string (List.range ((bfutils_hashmap_length hm / 8 + 1) * 8))
      (resize_header hm (2 ^ n)) with
  | error e => simp [hl] at hrun
  | ok h1 =>
    simp only [hl, Except.ok.injEq] at hrun
    obtain ⟨hw, hlen, _⟩ := rehash_loop_well_formed mem _ _ _ key_size is_string _ _ h1
      (resize_header_well_formed hm n hn) hl
    exact ⟨h1, hrun.symm, hw, hlen⟩

/-- After `bfutils_hashmap_resize` the table has storage and is well formed. -/
theorem resize_sound (mem : Nat → List Nat) (hm hm1 : Option Hashmap) (key_size : Nat)
    (is_string : Bool) (hsound : Sound hm)
    (hrun : bfutils_hashmap_resize mem hm key_size is_string = .ok hm1) :
    ∃ h1, hm1 = some h1 ∧ WellFormed h1 := by
  rw [resize_eq] at hrun
  by_cases h0 : bfutils_hashmap_length hm = 0
  · rw [if_pos h0] at hrun
    simp only [Except.ok.injEq] at hrun
    exact ⟨_, hrun.symm, resize_header_well_formed hm 5 (le_refl 5)⟩
  · rw [if_neg h0] at hrun
    cases hm with
    | none => exact absurd rfl h0
    | some h =>
      have hw : WellFormed h := by
        rcases hsound with hf | hw
        · exact absurd hf.1 h0
        · exact hw
      obtain ⟨n, _, hn5, hn⟩ := hw.2.1
      simp only [bfutils_hashmap_length, bfutils_hashmap_insert_count] at hrun
      by_cases hg : 2 * h.insert_count > h.length
      · rw [if_pos hg] at hrun
        have e : h.length * 2 = 2 ^ (n + 1) := by rw [hn, pow_succ]
        rw [e] at hrun
        obtain ⟨h1, e1, hw1, _⟩ := rehash_into_well_formed mem (some h) key_size is_string
          (n + 1) (by omega) hm1 hrun
        exact ⟨h1, e1, hw1⟩
      · rw [if_neg hg] at hrun
        by_cases hsh : h.length > 32 ∧ 4 * h.insert_count < h.length
        · rw [if_pos hsh] at hrun
          have hn6 : 6 ≤ n := by
            by_contra hc
            have : n = 5 := by omega
            rw [this] at hn
            have := hsh.1
            omega
          have e : h.length / 2 = 2 ^ (n - 1) := by
            have : n = (n - 1) + 1 := by omega
            rw [hn]
            conv_lhs => rw [this, pow_succ]
            omega
          rw [e] at hrun
          obtain ⟨h1, e1, hw1, _⟩ := rehash_into_well_formed mem (some h) key_size is_string
            (n - 1) (by omega) hm1 hrun
          exact ⟨h1, e1, hw1⟩
        · rw [if_neg hsh] at hrun
          simp only [Except.ok.injEq] at hrun
          exact ⟨h, hrun.symm, hw⟩

/-- A push leaves the table well formed. -/
theorem push_sound (mem : Nat → List Nat) (key_size : Nat) (hm hm1 : Option Hashmap)
    (k : List Nat) (v : Nat) (hsound : Sound hm)
    (hrun : bfutils_hashmap_push mem key_size hm k v = .ok hm1) :
    ∃ h1, hm1 = some h1 ∧ WellFormed h1 := by
  unfold bfutils_hashmap_push at hrun
  cases hr : bfutils_hashmap_resize mem hm key_size false with
  | error e => simp [hr] at hrun
  | ok hm2 =>
    obtain ⟨h2, rfl, hw2⟩ := resize_sound mem hm hm2 key_size false hsound hr
    simp only [hr] at hrun
    cases hi : bfutils_hashmap_insert_position mem (some h2) k key_size false with
    | error e => simp [hi] at hrun
    | ok res =>
      obtain ⟨h3, pos⟩ := res
      simp only [hi, Except.ok.injEq] at hrun
      obtain ⟨hw3, _, _⟩ := insert_position_well_formed mem h2 k key_size false hw2 h3 pos hi
      exact ⟨_, hrun.symm, well_formed_store hw3 pos ⟨k, v⟩⟩

/-- A remove leaves the table well formed. -/
theorem remove_sound (mem : Nat → List Nat) (key_size : Nat) (hm hm1 : Option Hashmap)
    (k : List Nat) (v : Option Nat) (hsound : Sound hm)
    (hrun : bfutils_hashmap_remove mem key_size hm k = .ok (hm1, v)) :
    ∃ h1, hm1 = some h1 ∧ WellFormed h1 := by
  unfold bfutils_hashmap_remove at hrun
  cases hr : bfutils_hashmap_resize mem hm key_size false with
  | error e => simp [hr] at hrun
  | ok hm2 =>
    obtain ⟨h2, rfl, hw2⟩ := resize_sound mem hm hm2 key_size false hsound hr
    simp only [hr] at hrun
    cases hi : bfutils_hashmap_remove_key mem (some h2) k key_size false with
    | error e => simp [hi] at hrun
    | ok res =>
      obtain ⟨hm3, index⟩ := res
      simp only [hi, Except.ok.injEq, Prod.mk.injEq] at hrun
      obtain ⟨e1, _⟩ := hrun
      subst e1
      obtain ⟨_, hc⟩ := remove_key_cases mem h2 k key_size false hw2.shape hw2.2.2.1 hm3 index hi
      rcases hc with ⟨_, rfl⟩ | ⟨q, _, hq, _, hl, rfl⟩
      · exact ⟨h2, rfl, hw2⟩
      · exact ⟨_, rfl, well_formed_bury hw2 hq hl⟩

theorem sound_of_well_formed {h : Hashmap} (hw : WellFormed h) : Sound (some h) :=
  Or.inr hw

/-- A client program leaves a table in one of the states the library keeps. -/
theorem run_sound (mem : Nat → List Nat) (key_size : Nat) :
    ∀ (ops : List Op) (hm hm1 : Option Hashmap), Sound hm →
      run mem key_size hm ops = .ok hm1 → Sound hm1 := by
  intro ops
  induction ops with
  | nil =>
    intro hm hm1 hsound hrun
    rw [run] at hrun
    cases hrun
    exact hsound
  | cons op rest ih =>
    intro hm hm1 hsound hrun
    cases op with
    | push k v =>
      rw [run] at hrun
      cases hp : bfutils_hashmap_push mem key_size hm k v with
      | error e => simp [hp] at hrun
      | ok hm2 =>
        simp only [hp] at hrun
        obtain ⟨h2, rfl, hw2⟩ := push_sound mem key_size hm hm2 k v hsound hp
        exact ih _ hm1 (sound_of_well_formed hw2) hrun
    | remove k =>
      rw [run] at hrun
      cases hp : bfutils_hashmap_remove mem key_size hm k with
      | error e => simp [hp] at hrun
      | ok res =>
        obtain ⟨hm2, v⟩ := res
        simp only [hp] at hrun
        obtain ⟨h2, rfl, hw2⟩ := remove_sound mem key_size hm hm2 k v hsound hp
        exact ih _ hm1 (sound_of_well_formed hw2) hrun

/-- Every reachable table is `NULL`, a header without storage, or well formed. -/
theorem reachable_sound (mem : Nat → List Nat) (key_size : Nat) (hm : Option Hashmap)
    (hr : Reachable mem key_size hm) : Sound hm := by
  obtain ⟨start, ops, hstart, hrun⟩ := hr
  refine run_sound mem key_size ops start hm ?_ hrun
  rcases hstart with rfl | rfl | rfl
  · trivial
  · exact Or.inl ⟨rfl, rfl, rfl, rfl, rfl⟩
  · exact Or.inl ⟨rfl, rfl, rfl, rfl, rfl⟩

/-- A reachable table that has storage is well formed. -/
theorem reachable_well_formed (mem : Nat → List Nat) (key_size : Nat) (h : Hashmap)
    (hr : Reachable mem key_size (some h)) (hlen : 32 ≤ h.length) : WellFormed h := by
  rcases reachable_sound mem key_size (some h) hr with hf | hw
  · have := hf.1
    omega
  · exact hw

/-! ## Client programs over both key kinds -/

/-- A push of a text key leaves the table well formed. -/
theorem string_push_sound (mem : Nat → List Nat) (hm hm1 : Option Hashmap)
    (p : Nat) (v : Nat) (hsound : Sound hm)
    (hrun : bfutils_string_hashmap_push mem hm p v = .ok hm1) :
    ∃ h1, hm1 = some h1 ∧ WellFormed h1 := by
  unfold bfutils_string_hashmap_push at hrun
  cases hr : bfutils_hashmap_resize mem hm 8 true with
  | error e => simp [hr] at hrun
  | ok hm2 =>
    obtain ⟨h2, rfl, hw2⟩ := resize_sound mem hm hm2 8 true hsound hr
    simp only [hr] at hrun
    cases hi : bfutils_hashmap_insert_position mem (some h2) (mem p) 8 true with
    | error e => simp [hi] at hrun
    | ok res =>
      obtain ⟨h3, pos⟩ := res
      simp only [hi, Except.ok.injEq] at hrun
      obtain ⟨hw3, _, _⟩ := insert_position_well_formed mem h2 (mem p) 8 true hw2 h3 pos hi
      exact ⟨_, hrun.symm, well_formed_store hw3 pos ⟨ptr_bytes p, v⟩⟩

/-- A remove of a text key leaves the table well formed. -/
theorem string_remove_sound (mem : Nat → List Nat) (hm hm1 : Option Hashmap)
    (p : Nat) (v : Option Nat) (hsound : Sound hm)
    (hrun : bfutils_string_hashmap_remove mem hm p = .ok (hm1, v)) :
    ∃ h1, hm1 = some h1 ∧ WellFormed h1 := by
  unfold bfutils_string_hashmap_remove at hrun
  cases hr : bfutils_hashmap_resize mem hm 8 true with
  | error e => simp [hr] at hrun
  | ok hm2 =>
    obtain ⟨h2, rfl, hw2⟩ := resize_sound mem hm hm2 8 true hsound hr
    simp only [hr] at hrun
    cases hi : bfutils_hashmap_remove_key mem (some h2) (mem p) 8 true with
    | error e => simp [hi] at hrun
    | ok res =>
      obtain ⟨hm3, index⟩ := res
      simp only [hi, Except.ok.injEq, Prod.mk.injEq] at hrun
      obtain ⟨e1, _⟩ := hrun
      subst e1
      obtain ⟨_, hc⟩ := remove_key_cases mem h2 (mem p) 8 true hw2.shape hw2.2.2.1 hm3 index hi
      rcases hc with ⟨_, rfl⟩ | ⟨q, _, hq, _, hl, rfl⟩
      · exact ⟨h2, rfl, hw2⟩
      · exact ⟨_, rfl, well_formed_bury hw2 hq hl⟩

/-- One call of either key kind leaves the table well formed. -/
theorem call_sound (mem : Nat → List Nat) (key_size : Nat) (hm hm1 : Option Hashmap)
    (c : Call) (hsound : Sound hm)
    (hrun : run_calls mem key_size hm [c] = .ok hm1) :
    ∃ h1, hm1 = some h1 ∧ WellFormed h1 := by
  cases c with
  | push k v =>
    rw [run_calls] at hrun
    cases hp : bfutils_hashmap_push mem key_size hm k v with
    | error e => simp [hp] at hrun
    | ok hm2 =>
      simp only [hp, run_calls, Except.ok.injEq] at hrun
      subst hrun
      exact push_sound mem key_size hm hm2 k v hsound hp
  | remove k =>
    rw [run_calls] at hrun
    cases hp : bfutils_hashmap_remove mem key_size hm k with
    | error e => simp [hp] at hrun
    | ok res =>
      obtain ⟨hm2, v⟩ := res
      simp only [hp, run_calls, Except.ok.injEq] at hrun
      subst hrun
      exact remove_sound mem key_size hm hm2 k v hsound hp
  | string_push p v =>
    rw [run_calls] at hrun
    cases hp : bfutils_string_hashmap_push mem hm p v with
    | error e => simp [hp] at hrun
    | ok hm2 =>
      simp only [hp, run_calls, Except.ok.injEq] at hrun
      subst hrun
      exact string_push_sound mem hm hm2 p v hsound hp
  | string_remove p =>
    rw [run_calls] at hrun
    cases hp : bfutils_string_hashmap_remove mem hm p with
    | error e => simp [hp] at hrun
    | ok res =>
      obtain ⟨hm2, v⟩ := res
      simp only [hp, run_calls, Except.ok.injEq] at hrun
      subst hrun
      exact string_remove_sound mem hm hm2 p v hsound hp

/-- A client program runs its first call and then the rest. -/
theorem run_calls_cons (mem : Nat → List Nat) (key_size : Nat) (hm : Option Hashmap)
    (c : Call) (rest : List Call) :
    run_calls mem key_size hm (c :: rest)
      = match run_calls mem key_size hm [c] with
        | .error e => .error e
        | .ok hm1 => run_calls mem key_size hm1 rest := by
  cases c with
  | push k v =>
    rw [run_calls, run_calls]
    cases bfutils_hashmap_push mem key_size hm k v with
    | error e => rfl
    | ok hm2 => simp only [run_calls]
  | remove k =>
    rw [run_calls, run_calls]
    cases bfutils_hashmap_remove mem key_size hm k with
    | error e => rfl
    | ok res => simp only [run_calls]
  | string_push p v =>
    rw [run_calls, run_calls]
    cases bfutils_string_hashmap_push mem hm p v with
    | error e => rfl
    | ok hm2 => simp only [run_calls]
  | string_remove p =>
    rw [run_calls, run_calls]
    cases bfutils_string_hashmap_remove mem hm p with
    | error e => rfl
    | ok res => simp only [run_calls]

/-- A client program over both key kinds leaves a table in one of the states
the library keeps. -/
theorem run_calls_sound (mem : Nat → List Nat) (key_size : Nat) :
    ∀ (calls : List Call) (hm hm1 : Option Hashmap), Sound hm →
      run_calls mem key_size hm calls = .ok hm1 → Sound hm1 := by
  intro calls
  induction calls with
  | nil =>
    intro hm hm1 hsound hrun
    rw [run_calls] at hrun
    cases hrun
    exact hsound
  | cons c rest ih =>
    intro hm hm1 hsound hrun
    rw [run_calls_cons] at hrun
    cases hc : run_calls mem key_size hm [c] with
    | error e => simp [hc] at hrun
    | ok hm2 =>
      simp only [hc] at hrun
      obtain ⟨h2, rfl, hw2⟩ := call_sound mem key_size hm hm2 c hsound hc
      exact ih (some h2) hm1 (sound_of_well_formed hw2) hrun

/-- A client program over both key kinds keeps a well-formed table well
formed. -/
theorem run_calls_well_formed (mem : Nat → List Nat) (key_size : Nat) :
    ∀ (calls : List Call) (h : Hashmap) (hm1 : Option Hashmap), WellFormed h →
      run_calls mem key_size (some h) calls = .ok hm1 → ∃ h1, hm1 = some h1 ∧ WellFormed h1 := by
  intro calls
  induction calls with
  | nil =>
    intro h hm1 hw hrun
    rw [run_calls] at hrun
    cases hrun
    exact ⟨h, rfl, hw⟩
  | cons c rest ih =>
    intro h hm1 hw hrun
    rw [run_calls_cons] at hrun
    cases hc : run_calls mem key_size (some h) [c] with
    | error e => simp [hc] at hrun
    | ok hm2 =>
      simp only [hc] at hrun
      obtain ⟨h2, rfl, hw2⟩ := call_sound mem key_size (some h) hm2 c (sound_of_well_formed hw) hc
      exact ih h2 hm1 hw2 hrun

/-- After at least one call of either key kind the table has storage and is
well formed. -/
theorem run_calls_nonempty_well_formed (mem : Nat → List Nat) (key_size : Nat)
    (start hm : Option Hashmap) (calls : List Call) (hstart : Sound start) (hne : calls ≠ [])
    (hrun : run_calls mem key_size start calls = .ok hm) : ∃ h, hm = some h ∧ WellFormed h := by
  cases calls with
  | nil => exact absurd rfl hne
  | cons c rest =>
    rw [run_calls_cons] at hrun
    cases hc : run_calls mem key_size start [c] with
    | error e => simp [hc] at hrun
    | ok hm2 =>
      simp only [hc] at hrun
      obtain ⟨h2, rfl, hw2⟩ := call_sound mem key_size start hm2 c hstart hc
      exact run_calls_well_formed mem key_size rest h2 hm hw2 hrun

/-- Every table reached by calls of either key kind is `NULL`, a header without
storage, or well formed. -/
theorem reached_sound (mem : Nat → List Nat) (key_size : Nat) (hm : Option Hashmap)
    (hr : Reached mem key_size hm) : Sound hm := by
  obtain ⟨start, calls, hstart, hrun⟩ := hr
  refine run_calls_sound mem key_size calls start hm ?_ hrun
  rcases hstart with rfl | rfl | rfl
  · trivial
  · exact Or.inl ⟨rfl, rfl, rfl, rfl, rfl⟩
  · exact Or.inl ⟨rfl, rfl, rfl, rfl, rfl⟩

/-- A table with storage reached by calls of either key kind is well formed. -/
theorem reached_well_formed (mem : Nat → List Nat) (key_size : Nat) (h : Hashmap)
    (hr : Reached mem key_size (some h)) (hlen : 32 ≤ h.length) : WellFormed h := by
  rcases reached_sound mem key_size (some h) hr with hf | hw
  · have := hf.1
    omega
  · exact hw

/-- A client program over the binary macros is a client program over both key
kinds. -/
theorem run_calls_of_run (mem : Nat → List Nat) (key_size : Nat) :
    ∀ (ops : List Op) (hm : Option Hashmap),
      run_calls mem key_size hm (ops.map Op.toCall) = run mem key_size hm ops := by
  intro ops
  induction ops with
  | nil =>
    intro hm
    rfl
  | cons op rest ih =>
    intro hm
    cases op with
    | push k v =>
      show run_calls mem key_size hm (Call.push k v :: rest.map Op.toCall) = _
      rw [run_calls, run]
      cases bfutils_hashmap_push mem key_size hm k v with
      | error e => rfl
      | ok hm1 => exact ih hm1
    | remove k =>
      show run_calls mem key_size hm (Call.remove k :: rest.map Op.toCall) = _
      rw [run_calls, run]
      cases bfutils_hashmap_remove mem key_size hm k with
      | error e => rfl
      | ok res => exact ih res.1

/-- Every table reached by the binary macros is reached by calls of either key
kind. -/
theorem reached_of_reachable (mem : Nat → List Nat) (key_size : Nat) (hm : Option Hashmap)
    (hr : Reachable mem key_size hm) : Reached mem key_size hm := by
  obtain ⟨start, ops, hstart, hrun⟩ := hr
  exact ⟨start, ops.map Op.toCall, hstart, by rw [run_calls_of_run]; exact hrun⟩

/-- Every table reached by pushes of text keys is reached by calls of either
key kind. -/
theorem run_calls_of_run_text (mem : Nat → List Nat) (key_size : Nat) :
    ∀ (ps : List (Nat × Nat)) (hm : Option Hashmap),
      run_calls mem key_size hm (ps.map (fun e => Call.string_push e.1 e.2))
        = run_text mem hm ps := by
  intro ps
  induction ps with
  | nil =>
    intro hm
    rfl
  | cons e rest ih =>
    intro hm
    obtain ⟨p, v⟩ := e
    show run_calls mem key_size hm
      (Call.string_push p v :: rest.map (fun e => Call.string_push e.1 e.2)) = _
    rw [run_calls, run_text]
    cases bfutils_string_hashmap_push mem hm p v with
    | error e => rfl
    | ok hm1 => exact ih hm1

/-! ## The iterator -/

theorem live_eq_bits (h : Hashmap) (idx : Nat) :
    ((h.slots.getD (idx / 8) 0 &&& (1 <<< (idx % 8)) != 0)
      && !(h.removed.getD (idx / 8) 0 &&& (1 <<< (idx % 8)) != 0)) = live h idx := rfl

/-- The scan of `bfutils_hashmap_iterator` reads only bytes that exist and is a
fold of `scan_step`. -/
theorem iterator_scan_eq_foldl (h : Hashmap) :
    ∀ (l : List Nat) (acc : Nat × Nat × Bool),
      (∀ idx, idx ∈ l → idx / 8 < h.slots.length ∧ idx / 8 < h.removed.length) →
      iterator_scan h.slots h.removed l acc = .ok (l.foldl (scan_step h) acc) := by
  intro l
  induction l with
  | nil =>
    intro acc _
    rfl
  | cons idx rest ih =>
    intro acc hl
    obtain ⟨first, last, first_set⟩ := acc
    have hidx := hl idx (List.mem_cons_self _ _)
    rw [iterator_scan, rd_of_lt _ _ hidx.1, rd_of_lt _ _ hidx.2]
    simp only [live_eq_bits, List.foldl_cons]
    have hrest : ∀ i, i ∈ rest → i / 8 < h.slots.length ∧ i / 8 < h.removed.length :=
      fun i hi => hl i (List.mem_cons_of_mem _ hi)
    by_cases hlive : live h idx = true
    · rw [if_pos hlive, ih _ hrest]
      unfold scan_step
      rw [if_pos hlive]
    · rw [if_neg hlive, ih _ hrest]
      unfold scan_step
      rw [if_neg hlive]

/-- What the scan has found after the indices below `n`: whether a live slot
exists, and then the lowest and the highest live index. -/
theorem scan_fold_spec (h : Hashmap) :
    ∀ (n first last : Nat) (first_set : Bool),
      (List.range n).foldl (scan_step h) (0, 0, false) = (first, last, first_set) →
      (first_set = false → first = 0 ∧ last = 0 ∧ ∀ i, i < n → live h i = false)
        ∧ (first_set = true →
            live h first = true ∧ first < n ∧ (∀ i, i < first → live h i = false)
            ∧ live h last = true ∧ last < n
            ∧ (∀ i, last < i → i < n → live h i = false)) := by
  intro n
  induction n with
  | zero =>
    intro first last first_set hacc
    simp only [List.range_zero, List.foldl_nil, Prod.mk.injEq] at hacc
    obtain ⟨rfl, rfl, rfl⟩ := hacc
    exact ⟨fun _ => ⟨rfl, rfl, fun i hi => by omega⟩, fun hc => by cases hc⟩
  | succ n ih =>
    intro first last first_set hacc
    rw [List.range_succ, List.foldl_append] at hacc
    simp only [List.foldl_cons, List.foldl_nil] at hacc
    cases hprev : (List.range n).foldl (scan_step h) (0, 0, false) with
    | mk f0 rest0 =>
      obtain ⟨l0, s0⟩ := rest0
      obtain ⟨ih1, ih2⟩ := ih f0 l0 s0 hprev
      rw [hprev] at hacc
      unfold scan_step at hacc
      by_cases hlive : live h n = true
      · rw [if_pos hlive] at hacc
        simp only [Prod.mk.injEq] at hacc
        obtain ⟨e1, e2, e3⟩ := hacc
        subst e2 e3
        refine ⟨fun hc => Bool.noConfusion hc, fun _ => ?_⟩
        cases s0 with
        | false =>
          obtain ⟨_, _, hno⟩ := ih1 rfl
          simp only [Bool.false_eq_true, if_false] at e1
          subst e1
          exact ⟨hlive, Nat.lt_succ_self _, hno, hlive, Nat.lt_succ_self _,
            fun i h1 h2 => by omega⟩
        | true =>
          obtain ⟨a, b, c, _, _, _⟩ := ih2 rfl
          simp only [if_true] at e1
          subst e1
          exact ⟨a, by omega, c, hlive, Nat.lt_succ_self _, fun i h1 h2 => by omega⟩
      · rw [if_neg hlive] at hacc
        have hl : live h n = false := by simpa using hlive
        simp only [Prod.mk.injEq] at hacc
        obtain ⟨e1, e2, e3⟩ := hacc
        subst e1 e2 e3
        refine ⟨fun hc => ?_, fun hc => ?_⟩
        · obtain ⟨a, b, c⟩ := ih1 hc
          refine ⟨a, b, fun i hi => ?_⟩
          by_cases hin : i = n
          · rw [hin]
            exact hl
          · exact c i (by omega)
        · obtain ⟨a, b, c, d, e, f⟩ := ih2 hc
          refine ⟨a, by omega, c, d, by omega, fun i h1 h2 => ?_⟩
          by_cases hin : i = n
          · rw [hin]
            exact hl
          · exact f i h1 (by omega)

theorem live_of_ge {h : Hashmap} (hs : Shape h) {idx : Nat} (hidx : h.length ≤ idx) :
    live h idx = false := by
  unfold live occupied
  rw [bit_set_of_ge h.slots h.length idx hs.2.1 hs.2.2.1 hs.2.2.2.2.1 hidx]
  rfl

/-- The iterator of a table with storage: `first` and `last` are the lowest and
the highest live index, or both 0 when no slot is live. -/
theorem iterator_spec (h : Hashmap) (hs : Shape h) :
    ∃ first last : Nat,
      bfutils_hashmap_iterator (some h)
        = .ok { h := some h, current := first, first := first, last := last, started := 0 }
      ∧ first ≤ last ∧ last < h.length
      ∧ (∀ i, i < first → live h i = false) ∧ (∀ i, last < i → live h i = false)
      ∧ (((∀ i, live h i = false) ∧ first = 0 ∧ last = 0)
          ∨ (live h first = true ∧ live h last = true)) := by
  have hscan := iterator_scan_eq_foldl h (List.range ((h.length / 8 + 1) * 8)) (0, 0, false) (by
    intro idx hidx
    rw [List.mem_range] at hidx
    have h3 := hs.2.2.1
    have h4 := hs.2.2.2.1
    omega)
  unfold bfutils_hashmap_iterator
  simp only [bfutils_hashmap_slots, bfutils_hashmap_removed, bfutils_hashmap_length, hscan]
  cases hacc : (List.range ((h.length / 8 + 1) * 8)).foldl (scan_step h) (0, 0, false) with
  | mk first rest0 =>
  obtain ⟨last, first_set⟩ := rest0
  obtain ⟨h1, h2⟩ := scan_fold_spec h _ first last first_set hacc
  have hpos : 0 < h.length := by
    have := hs.1
    omega
  refine ⟨first, last, rfl, ?_⟩
  cases first_set with
  | false =>
    obtain ⟨a, b, c⟩ := h1 rfl
    subst a b
    have hall : ∀ i, live h i = false := by
      intro i
      by_cases hi : i < (h.length / 8 + 1) * 8
      · exact c i hi
      · apply live_of_ge hs
        obtain ⟨n, hn⟩ := hs.2.1
        omega
    exact ⟨le_refl 0, hpos, fun i _ => hall i, fun i _ => hall i, Or.inl ⟨hall, rfl, rfl⟩⟩
  | true =>
    obtain ⟨a, b, c, d, e, f⟩ := h2 rfl
    have hlast : last < h.length := by
      by_contra hc
      have := live_of_ge hs (Nat.le_of_not_lt hc)
      rw [d] at this
      cases this
    have hfl : first ≤ last := by
      by_contra hc
      have := c last (by omega)
      rw [d] at this
      cases this
    refine ⟨hfl, hlast, c, ?_, Or.inr ⟨a, d⟩⟩
    intro i hi
    by_cases hin : i < (h.length / 8 + 1) * 8
    · exact f i hi hin
    · apply live_of_ge hs
      obtain ⟨n, hn⟩ := hs.2.1
      omega

/-! ## Walking forwards -/

theorem live_from_ge (h : Hashmap) (c : Nat) (hc : h.length ≤ c) : live_from h c = [] := by
  unfold live_from
  have : h.length - c = 0 := by omega
  rw [this]
  rfl

theorem live_from_step (h : Hashmap) (c : Nat) (hc : c < h.length) :
    live_from h c = if live h c = true then c :: live_from h (c + 1) else live_from h (c + 1) := by
  unfold live_from
  have : h.length - c = (h.length - (c + 1)) + 1 := by omega
  rw [this, List.range'_succ, List.filter_cons]

theorem live_from_of_dead (h : Hashmap) :
    ∀ (d c : Nat), (∀ i, c ≤ i → i < c + d → live h i = false) →
      live_from h c = live_from h (c + d) := by
  intro d
  induction d with
  | zero =>
    intro c _
    rfl
  | succ d ih =>
    intro c hdead
    by_cases hc : c < h.length
    · rw [live_from_step h c hc, if_neg (by rw [hdead c (le_refl c) (by omega)]; simp)]
      have := ih (c + 1) (fun i h1 h2 => hdead i (by omega) (by omega))
      rw [this]
      congr 1
      omega
    · rw [live_from_ge h c (by omega), live_from_ge h (c + (d + 1)) (by omega)]

theorem live_positions_eq_live_from (h : Hashmap) : live_positions h = live_from h 0 := by
  unfold live_positions live_from
  rw [List.range_eq_range']
  rfl

theorem live_from_succ_last (h : Hashmap) (last : Nat)
    (hdead : ∀ i, last < i → live h i = false) : live_from h (last + 1) = [] := by
  unfold live_from
  rw [List.filter_eq_nil_iff]
  intro a ha
  rw [List.mem_range'_1] at ha
  rw [hdead a (by omega)]
  simp

/-- One round of the loop of `next_position`, on positions. -/
theorem next_position_loop_step (h : Hashmap) (hs : Shape h) (last fuel i : Nat)
    (hlast : last < h.length) :
    next_position_loop h last (fuel + 1) (i % 8) (i / 8) i
      = if i < last then
          (if live h i = true then .ok i
           else next_position_loop h last fuel ((i + 1) % 8) ((i + 1) / 8) (i + 1))
        else .ok last := by
  rw [next_position_loop]
  by_cases hi : i < last
  · have hiL : i < h.length := by omega
    rw [if_pos hi, if_pos hi, rd_of_lt _ _ (hs.slots_lt hiL), rd_of_lt _ _ (hs.removed_lt hiL)]
    simp only [live_eq_bits]
    by_cases hl : live h i = true
    · rw [if_pos hl, if_pos hl]
    · rw [if_neg hl, if_neg hl]
      have hq : (i + 1) / 8 < h.length / 8 := hs.div_lt (by omega)
      by_cases h8 : i % 8 + 1 = 8
      · rw [if_pos h8, if_neg hs.div_ne_zero]
        have e1 : (i / 8 + 1) % (h.length / 8) = (i + 1) / 8 := by
          have : i / 8 + 1 = (i + 1) / 8 := by omega
          rw [this]
          exact Nat.mod_eq_of_lt hq
        have e2 : (i + 1) % 8 = 0 := by omega
        have e3 : (i + 1) / 8 * 8 + 0 = i + 1 := by omega
        rw [e1, e2, e3]
      · rw [if_neg h8]
        have e1 : (i + 1) / 8 = i / 8 := by omega
        have e2 : (i + 1) % 8 = i % 8 + 1 := by omega
        have e3 : i / 8 * 8 + (i % 8 + 1) = i + 1 := by omega
        rw [e1, e2, e3]
  · rw [if_neg hi, if_neg hi]

/-- From index `i` the loop of `next_position` returns the next live slot `j`, or
`last`, which is live. -/
theorem next_position_loop_spec (h : Hashmap) (hs : Shape h) (last : Nat)
    (hlast : last < h.length) (hlive : live h last = true) :
    ∀ (fuel i : Nat), i ≤ last → last - i < fuel →
      ∃ j, next_position_loop h last fuel (i % 8) (i / 8) i = .ok j ∧ i ≤ j ∧ j ≤ last
        ∧ live_from h i = j :: live_from h (j + 1) := by
  intro fuel
  induction fuel with
  | zero =>
    intro i _ hf
    omega
  | succ fuel ih =>
    intro i hi hf
    rw [next_position_loop_step h hs last fuel i hlast]
    by_cases hil : i < last
    · rw [if_pos hil]
      by_cases hl : live h i = true
      · rw [if_pos hl]
        refine ⟨i, rfl, le_refl i, hi, ?_⟩
        rw [live_from_step h i (by omega), if_pos hl]
      · rw [if_neg hl]
        obtain ⟨j, hj, h1, h2, h3⟩ := ih (i + 1) (by omega) (by omega)
        refine ⟨j, hj, by omega, h2, ?_⟩
        rw [live_from_step h i (by omega), if_neg hl]
        exact h3
    · rw [if_neg hil]
      have : i = last := by omega
      subst this
      refine ⟨i, rfl, le_refl i, le_refl i, ?_⟩
      rw [live_from_step h i hlast, if_pos hlive]

/-- A started forward iterator at the live slot `c` yields the live slots above
`c` and stops at `last`. -/
theorem forward_positions_spec (h : Hashmap) (hs : Shape h) (first last : Nat)
    (hlast : last < h.length) (hlive : live h last = true)
    (hdead : ∀ i, last < i → live h i = false) :
    ∀ (fuel c : Nat), c ≤ last → last - c < fuel →
      forward_positions fuel
          { h := some h, current := c, first := first, last := last, started := 2 }
        = .ok (live_from h (c + 1),
            { h := some h, current := last, first := first, last := last, started := 2 }) := by
  intro fuel
  induction fuel with
  | zero =>
    intro c _ hf
    omega
  | succ fuel ih =>
    intro c hc hf
    rw [forward_positions]
    simp only [bfutils_hashmap_iterator_has_next]
    rw [if_neg (by norm_num)]
    by_cases hcl : c < last
    · simp only [hcl, decide_True]
      simp only [bfutils_hashmap_iterator_next_position]
      rw [if_neg (by norm_num)]
      obtain ⟨j, hj, h1, h2, h3⟩ := next_position_loop_spec h hs last hlast hlive (last + 2)
        (c + 1) (by omega) (by omega)
      simp only [hj]
      rw [ih j h2 (by omega), h3]
    · have : c = last := by omega
      subst this
      simp only [lt_irrefl, decide_False]
      rw [live_from_succ_last h c hdead]

theorem live_positions_nil_iff (h : Hashmap) (hs : Shape h) :
    live_positions h = [] ↔ ∀ i, live h i = false := by
  unfold live_positions
  rw [List.filter_eq_nil_iff]
  constructor
  · intro hall i
    by_cases hi : i < h.length
    · have := hall i (List.mem_range.2 hi)
      simpa using this
    · exact live_of_ge hs (by omega)
  · intro hall a _
    rw [hall a]
    simp

/-- The positions a forward iterator yields on a table with storage: nothing
when `insert_count` is 0; otherwise the live slots in ascending order, or the
single position 0 when no slot is live.  The loop ends with `has_next` false. -/
theorem iterate_forward_spec (h : Hashmap) (hs : Shape h) :
    ∃ it, iterate_forward (some h)
        = .ok (if h.insert_count = 0 then []
               else if live_positions h = [] then [0] else live_positions h, it)
      ∧ bfutils_hashmap_iterator_has_next it = .ok false := by
  obtain ⟨first, last, hit, hfl, hlast, hlow, hhigh, hcase⟩ := iterator_spec h hs
  unfold iterate_forward
  rw [hit]
  simp only
  rw [forward_positions]
  by_cases hc : h.insert_count = 0
  · simp only [bfutils_hashmap_iterator_has_next, if_true, hc, lt_irrefl, decide_False]
    exact ⟨_, rfl, by simp [bfutils_hashmap_iterator_has_next, hc]⟩
  · have hpos : h.insert_count > 0 := Nat.pos_of_ne_zero hc
    simp only [bfutils_hashmap_iterator_has_next, if_true, hpos, decide_True, if_neg hc]
    simp only [bfutils_hashmap_iterator_next_position, if_true]
    rcases hcase with ⟨hall, rfl, rfl⟩ | ⟨hlf, hll⟩
    · rw [next_position_loop_step h hs 0 1 0 hlast, if_neg (lt_irrefl 0)]
      simp only
      rw [forward_positions]
      simp only [bfutils_hashmap_iterator_has_next, lt_irrefl, decide_False]
      rw [if_neg (by norm_num), if_pos ((live_positions_nil_iff h hs).2 hall)]
      exact ⟨_, rfl, by simp [bfutils_hashmap_iterator_has_next]⟩
    · obtain ⟨j, hj, h1, h2, h3⟩ := next_position_loop_spec h hs last hlast hll (last + 2)
        first hfl (by omega)
      simp only [hj]
      rw [forward_positions_spec h hs first last hlast hll hhigh (last + 1) j h2 (by omega)]
      simp only
      have hne : ¬ live_positions h = [] := by
        rw [live_positions_nil_iff h hs]
        intro hall
        rw [hall last] at hll
        cases hll
      rw [if_neg hne, ← h3]
      have h0 := live_from_of_dead h first 0 (fun i _ h2 => hlow i (by omega))
      rw [Nat.zero_add] at h0
      rw [live_positions_eq_live_from, h0]
      exact ⟨_, rfl, by simp [bfutils_hashmap_iterator_has_next]⟩

theorem live_positions_sorted (h : Hashmap) : List.Sorted (· < ·) (live_positions h) := by
  unfold live_positions
  exact List.Sorted.filter _ (List.sorted_lt_range h.length)

theorem mem_live_positions (h : Hashmap) (p : Nat) :
    p ∈ live_positions h ↔ p < h.length ∧ live h p = true := by
  unfold live_positions
  rw [List.mem_filter, List.mem_range]

/-- The forward walk over a table whose `insert_count` is the number of live
slots. -/
theorem forward_iteration_yields_live_slots_aux (h : Hashmap) (hs : Shape h)
    (hcount : h.insert_count = (live_positions h).length) :
    ∃ (out : List Nat) (it : HashmapIterator),
      iterate_forward (some h) = .ok (out, it)
      ∧ bfutils_hashmap_iterator_has_next it = .ok false
      ∧ (∀ p, p ∈ out ↔ p < h.length ∧ occupied h p = true ∧ tombstoned h p = false)
      ∧ List.Sorted (· < ·) out
      ∧ out.Nodup
      ∧ out.length = h.insert_count
      ∧ out = live_positions h := by
  obtain ⟨it, hrun, hnext⟩ := iterate_forward_spec h hs
  have hout : (if h.insert_count = 0 then []
      else if live_positions h = [] then [0] else live_positions h) = live_positions h := by
    by_cases hc : h.insert_count = 0
    · rw [if_pos hc]
      rw [hc] at hcount
      exact (List.length_eq_zero.1 hcount.symm).symm
    · rw [if_neg hc]
      have : ¬ live_positions h = [] := by
        intro hnil
        rw [hnil] at hcount
        exact hc hcount
      rw [if_neg this]
  rw [hout] at hrun
  refine ⟨live_positions h, it, hrun, hnext, ?_, live_positions_sorted h,
    (live_positions_sorted h).nodup, hcount.symm, rfl⟩
  intro p
  rw [mem_live_positions]
  unfold live
  simp only [Bool.and_eq_true, Bool.not_eq_true']

/-- C9: on a table with allocated storage whose `insert_count` is the number of
live slots, the loop `while has_next: next_position` over a forward iterator
yields exactly the indices of the live slots (Occupied and not Tombstoned), in
strictly ascending order and so each once; their number is `insert_count` (zero
when no slot is live); and `has_next` is false when the loop has ended. -/
theorem forward_iteration_yields_live_slots (h : Hashmap) (hs : Shape h)
    (hcount : h.insert_count = (live_positions h).length) :
    ∃ (out : List Nat) (it : HashmapIterator),
      iterate_forward (some h) = .ok (out, it)
      ∧ bfutils_hashmap_iterator_has_next it = .ok false
      ∧ (∀ p, p ∈ out ↔ p < h.length ∧ occupied h p = true ∧ tombstoned h p = false)
      ∧ List.Sorted (· < ·) out
      ∧ out.Nodup
      ∧ out.length = h.insert_count
      ∧ out = live_positions h :=
  forward_iteration_yields_live_slots_aux h hs hcount

set_option maxRecDepth 100000 in
/-- C9 (witness): the statement applied to `sample_table`, whose live slots are
29 and 31. -/
theorem forward_iteration_yields_live_slots_witness :
    Shape sample_table ∧ sample_table.insert_count = (live_positions sample_table).length
      ∧ ∃ (out : List Nat) (it : HashmapIterator),
        iterate_forward (some sample_table) = .ok (out, it)
        ∧ bfutils_hashmap_iterator_has_next it = .ok false
        ∧ (∀ p, p ∈ out ↔ p < sample_table.length ∧ occupied sample_table p = true
            ∧ tombstoned sample_table p = false)
        ∧ List.Sorted (· < ·) out
        ∧ out.Nodup
        ∧ out.length = sample_table.insert_count
        ∧ out = live_positions sample_table :=
  ⟨by decide, by decide,
    forward_iteration_yields_live_slots sample_table (by decide) (by decide)⟩

/-! ## Walking backwards -/

theorem live_below_succ (h : Hashmap) (c : Nat) :
    live_below h (c + 1)
      = if live h c = true then live_below h c ++ [c] else live_below h c := by
  unfold live_below
  rw [List.range_succ, List.filter_append]
  by_cases hl : live h c = true
  · rw [if_pos hl]
    simp [hl]
  · rw [if_neg hl]
    simp [hl]

theorem live_below_of_dead (h : Hashmap) :
    ∀ (d c : Nat), (∀ i, c ≤ i → i < c + d → live h i = false) →
      live_below h (c + d) = live_below h c := by
  intro d
  induction d with
  | zero =>
    intro c _
    rfl
  | succ d ih =>
    intro c hdead
    have e : c + (d + 1) = (c + d) + 1 := by omega
    rw [e, live_below_succ, if_neg (by rw [hdead (c + d) (by omega) (by omega)]; simp)]
    exact ih c (fun i h1 h2 => hdead i h1 (by omega))

theorem live_below_eq_nil (h : Hashmap) (first : Nat)
    (hlow : ∀ i, i < first → live h i = false) : live_below h first = [] := by
  have := live_below_of_dead h first 0 (fun i _ h2 => hlow i (by omega))
  rw [Nat.zero_add] at this
  rw [this]
  rfl

/-- One round of the loop of `previous_position`, on positions. -/
theorem previous_position_loop_step (h : Hashmap) (hs : Shape h) (first fuel i : Nat)
    (hi : i < h.length) :
    previous_position_loop h first (fuel + 1) (i % 8) (i / 8) i
      = if i > first then
          (if live h i = true then .ok i
           else previous_position_loop h first fuel ((i - 1) % 8) ((i - 1) / 8) (i - 1))
        else .ok first := by
  rw [previous_position_loop]
  by_cases hif : i > first
  · rw [if_pos hif, if_pos hif, rd_of_lt _ _ (hs.slots_lt hi), rd_of_lt _ _ (hs.removed_lt hi)]
    simp only [live_eq_bits]
    by_cases hl : live h i = true
    · rw [if_pos hl, if_pos hl]
    · rw [if_neg hl, if_neg hl]
      have hq : i / 8 < h.length / 8 := hs.div_lt hi
      by_cases h0 : i % 8 = 0
      · rw [if_pos h0, if_neg hs.div_ne_zero]
        have hq0 : ¬ i / 8 = 0 := by omega
        have e0 : size_t_pred (i / 8) = i / 8 - 1 := by
          unfold size_t_pred
          rw [if_neg hq0]
        have e1 : size_t_pred (i / 8) % (h.length / 8) = (i - 1) / 8 := by
          rw [e0]
          have : i / 8 - 1 = (i - 1) / 8 := by omega
          rw [this]
          exact Nat.mod_eq_of_lt (by omega)
        have e2 : (i - 1) % 8 = 7 := by omega
        have e3 : (i - 1) / 8 * 8 + 7 = i - 1 := by omega
        rw [e1, e2, e3]
      · rw [if_neg h0]
        have e1 : (i - 1) / 8 = i / 8 := by omega
        have e2 : (i - 1) % 8 = i % 8 - 1 := by omega
        have e3 : i / 8 * 8 + (i % 8 - 1) = i - 1 := by omega
        rw [e1, e2, e3]
  · rw [if_neg hif, if_neg hif]

/-- From index `i` the loop of `previous_position` returns the previous live
slot `j`, or `first`, which is live. -/
theorem previous_position_loop_spec (h : Hashmap) (hs : Shape h) (first : Nat)
    (hlive : live h first = true) :
    ∀ (fuel i : Nat), first ≤ i → i < h.length → i - first < fuel →
      ∃ j, previous_position_loop h first fuel (i % 8) (i / 8) i = .ok j ∧ first ≤ j ∧ j ≤ i
        ∧ live_below h (i + 1) = live_below h j ++ [j] := by
  intro fuel
  induction fuel with
  | zero =>
    intro i _ _ hf
    omega
  | succ fuel ih =>
    intro i hi hiL hf
    rw [previous_position_loop_step h hs first fuel i hiL]
    by_cases hif : i > first
    · rw [if_pos hif]
      by_cases hl : live h i = true
      · rw [if_pos hl]
        refine ⟨i, rfl, hi, le_refl i, ?_⟩
        rw [live_below_succ, if_pos hl]
      · rw [if_neg hl]
        obtain ⟨j, hj, h1, h2, h3⟩ := ih (i - 1) (by omega) (by omega) (by omega)
        refine ⟨j, hj, h1, by omega, ?_⟩
        rw [live_below_succ, if_neg hl]
        have : i - 1 + 1 = i := by omega
        rw [this] at h3
        exact h3
    · rw [if_neg hif]
      have : i = first := by omega
      subst this
      refine ⟨i, rfl, le_refl i, le_refl i, ?_⟩
      rw [live_below_succ, if_pos hlive]

/-- A started reverse iterator at the live slot `c` yields the live slots below
`c` in descending order and stops at `first`. -/
theorem backward_positions_spec (h : Hashmap) (hs : Shape h) (first last : Nat)
    (hlive : live h first = true) (hlow : ∀ i, i < first → live h i = false) :
    ∀ (fuel c : Nat), first ≤ c → c < h.length → c - first < fuel →
      backward_positions fuel
          { h := some h, current := c, first := first, last := last, started := 2 }
        = .ok ((live_below h c).reverse,
            { h := some h, current := first, first := first, last := last, started := 2 }) := by
  intro fuel
  induction fuel with
  | zero =>
    intro c _ _ hf
    omega
  | succ fuel ih =>
    intro c hc hcL hf
    rw [backward_positions]
    simp only [bfutils_hashmap_iterator_has_previous]
    rw [if_neg (by norm_num)]
    by_cases hcf : c > first
    · simp only [hcf, decide_True]
      simp only [bfutils_hashmap_iterator_previous_position]
      rw [if_neg (by norm_num)]
      have hc0 : ¬ c = 0 := by omega
      have e0 : size_t_pred c = c - 1 := by
        unfold size_t_pred
        rw [if_neg hc0]
      rw [e0]
      obtain ⟨j, hj, h1, h2, h3⟩ := previous_position_loop_spec h hs first hlive
        (c - 1 + h.length + 2) (c - 1) (by omega) (by omega) (by omega)
      simp only [hj]
      rw [ih j h1 (by omega) (by omega)]
      have : c - 1 + 1 = c := by omega
      rw [this] at h3
      rw [h3, List.reverse_append]
      rfl
    · have : c = first := by omega
      subst this
      simp only [gt_iff_lt, lt_irrefl, decide_False]
      rw [live_below_eq_nil h c hlow]
      rfl

/-- The positions a reverse iterator yields on a table with storage: nothing
when `insert_count` is 0; otherwise the live slots in descending order, or the
single position 0 when no slot is live.  The loop ends with `has_previous`
false. -/
theorem iterate_backward_spec (h : Hashmap) (hs : Shape h) :
    ∃ it, iterate_backward (some h)
        = .ok (if h.insert_count = 0 then []
               else if live_positions h = [] then [0] else (live_positions h).reverse, it)
      ∧ bfutils_hashmap_iterator_has_previous it = .ok false := by
  obtain ⟨first, last, hit, hfl, hlast, hlow, hhigh, hcase⟩ := iterator_spec h hs
  unfold iterate_backward bfutils_hashmap_iterator_reverse
  rw [hit]
  simp only [bfutils_hashmap_length]
  have hfuel : last + h.length + 2 = (last + h.length + 1) + 1 := rfl
  rw [hfuel, backward_positions]
  by_cases hc : h.insert_count = 0
  · simp only [bfutils_hashmap_iterator_has_previous, if_true, hc, lt_irrefl, decide_False,
      gt_iff_lt]
    exact ⟨_, rfl, by simp [bfutils_hashmap_iterator_has_previous, hc]⟩
  · have hpos : h.insert_count > 0 := Nat.pos_of_ne_zero hc
    simp only [bfutils_hashmap_iterator_has_previous, if_true, hpos, decide_True, if_neg hc]
    simp only [bfutils_hashmap_iterator_previous_position, if_true]
    rcases hcase with ⟨hall, rfl, rfl⟩ | ⟨hlf, hll⟩
    · have hfuel2 : 0 + h.length + 2 = (0 + h.length + 1) + 1 := rfl
      rw [hfuel2, previous_position_loop_step h hs 0 _ 0 hlast, if_neg (lt_irrefl 0)]
      simp only
      have hfuel3 : 0 + h.length + 1 = (0 + h.length) + 1 := rfl
      rw [hfuel3, backward_positions]
      simp only [bfutils_hashmap_iterator_has_previous, lt_irrefl, decide_False, gt_iff_lt]
      rw [if_neg (by norm_num), if_pos ((live_positions_nil_iff h hs).2 hall)]
      exact ⟨_, rfl, by simp [bfutils_hashmap_iterator_has_previous]⟩
    · obtain ⟨j, hj, h1, h2, h3⟩ := previous_position_loop_spec h hs first hlf
        (last + h.length + 2) last hfl hlast (by omega)
      simp only [hj]
      rw [backward_positions_spec h hs first last hlf hlow (last + h.length + 1) j h1 (by omega)
        (by omega)]
      simp only
      have hne : ¬ live_positions h = [] := by
        rw [live_positions_nil_iff h hs]
        intro hall
        rw [hall last] at hll
        cases hll
      rw [if_neg hne]
      have h0 := live_below_of_dead h (h.length - (last + 1)) (last + 1)
        (fun i h1 _ => hhigh i (by omega))
      have e : last + 1 + (h.length - (last + 1)) = h.length := by omega
      rw [e] at h0
      have hlp : live_positions h = live_below h h.length := rfl
      rw [hlp, h0, h3, List.reverse_append]
      exact ⟨_, rfl, by simp [bfutils_hashmap_iterator_has_previous]⟩

/-- C10: on a table with allocated storage, left unchanged between the two
walks, the positions a reverse iterator yields (`while has_previous:
previous_position`) are the reversal of the positions a forward iterator
yields; both walks visit the same multiset of positions and equally many. -/
theorem reverse_iteration_is_reversed_forward (h : Hashmap) (hs : Shape h) :
    ∃ (fw bw : List Nat) (it1 it2 : HashmapIterator),
      iterate_forward (some h) = .ok (fw, it1)
      ∧ iterate_backward (some h) = .ok (bw, it2)
      ∧ bw = fw.reverse
      ∧ bw.Perm fw
      ∧ bw.length = fw.length := by
  obtain ⟨it1, hf, _⟩ := iterate_forward_spec h hs
  obtain ⟨it2, hb, _⟩ := iterate_backward_spec h hs
  refine ⟨_, _, it1, it2, hf, hb, ?_, ?_, ?_⟩
  · by_cases hc : h.insert_count = 0
    · simp [hc]
    · by_cases hl : live_positions h = []
      · simp [hc, hl]
      · simp [hc, hl]
  · by_cases hc : h.insert_count = 0
    · simp [hc]
    · by_cases hl : live_positions h = []
      · simp [hc, hl]
      · simp only [if_neg hc, if_neg hl]
        exact List.reverse_perm _
  · by_cases hc : h.insert_count = 0
    · simp [hc]
    · by_cases hl : live_positions h = []
      · simp [hc, hl]
      · simp [hc, hl]

set_option maxRecDepth 100000 in
/-- C10 (witness): the statement applied to `sample_table`. -/
theorem reverse_iteration_is_reversed_forward_witness :
    Shape sample_table
      ∧ ∃ (fw bw : List Nat) (it1 it2 : HashmapIterator),
        iterate_forward (some sample_table) = .ok (fw, it1)
        ∧ iterate_backward (some sample_table) = .ok (bw, it2)
        ∧ bw = fw.reverse
        ∧ bw.Perm fw
        ∧ bw.length = fw.length :=
  ⟨by decide, reverse_iteration_is_reversed_forward sample_table (by decide)⟩

/-! ## Destructor calls at destruction -/

/-- The loop of `bfutils_hashmap_free_f` makes one destructor call for each
position the forward walk yields, in that order. -/
theorem free_loop_of_forward (h : Hashmap) :
    ∀ (fuel : Nat) (it it1 : HashmapIterator) (ps : List Nat) (freed : List (Nat × Record)),
      forward_positions fuel it = .ok (ps, it1) →
      (∀ p, p ∈ ps → p < h.data.length) →
      free_loop h fuel it freed
        = .ok (freed ++ ps.map (fun p => (p, h.data.getD p default))) := by
  intro fuel
  induction fuel with
  | zero =>
    intro it it1 ps freed hfw _
    rw [forward_positions] at hfw
    cases hfw
  | succ fuel ih =>
    intro it it1 ps freed hfw hps
    rw [forward_positions] at hfw
    rw [free_loop]
    cases hn : bfutils_hashmap_iterator_has_next it with
    | error e => simp [hn] at hfw
    | ok b =>
      cases b with
      | false =>
        simp only [hn, Except.ok.injEq, Prod.mk.injEq] at hfw
        obtain ⟨e1, _⟩ := hfw
        subst e1
        simp
      | true =>
        simp only [hn] at hfw
        cases hnp : bfutils_hashmap_iterator_next_position it with
        | error e => simp [hnp] at hfw
        | ok res =>
          obtain ⟨it2, pos⟩ := res
          simp only [hnp] at hfw
          cases hrest : forward_positions fuel it2 with
          | error e => simp [hrest] at hfw
          | ok res2 =>
            obtain ⟨rest, it3⟩ := res2
            simp only [hrest, Except.ok.injEq, Prod.mk.injEq] at hfw
            obtain ⟨e1, _⟩ := hfw
            subst e1
            have hpos : pos < h.data.length := hps pos (List.mem_cons_self _ _)
            simp only [data_get_of_lt h pos hpos]
            rw [ih it2 it3 rest _ hrest (fun p hp => hps p (List.mem_cons_of_mem _ hp))]
            simp

/-- `bfutils_hashmap_free_f` on a well-formed table with a destructor: one call
for each live slot, in ascending order of the slots. -/
theorem free_f_well_formed (h : Hashmap) (hw : WellFormed h) (hef : h.element_free = true) :
    bfutils_hashmap_free_f (some h)
      = .ok (h.freed ++ (live_positions h).map (fun p => (p, h.data.getD p default))) := by
  have hs := hw.shape
  obtain ⟨out, it, hrun, _, _, _, _, _, hout⟩ :=
    forward_iteration_yields_live_slots_aux h hs hw.2.2.2.2
  subst hout
  obtain ⟨first, last, hit, _⟩ := iterator_spec h hs
  unfold iterate_forward at hrun
  rw [hit] at hrun
  simp only at hrun
  unfold bfutils_hashmap_free_f
  simp only [hef, if_true, hit]
  apply free_loop_of_forward h _ _ it _ _ hrun
  intro p hp
  rw [mem_live_positions] at hp
  rw [hw.2.2.1]
  exact hp.1

/-- C6: for every table with allocated storage (`length >= 32`) and a registered
destructor that a client reaches by pushes and removes of either key kind,
`bfutils_hashmap_free_f` appends to the destructor log one call for each live
slot (Occupied and not Tombstoned), in ascending order of the slots, and nothing
else: no slot is passed twice, no tombstoned or empty slot is passed, and the
number of calls is `insert_count`. -/
theorem free_calls_destructor_on_live_slots (mem : Nat → List Nat) (key_size : Nat)
    (h : Hashmap) (hr : Reached mem key_size (some h)) (hlen : 32 ≤ h.length)
    (hef : h.element_free = true) :
    ∃ calls : List Nat,
      bfutils_hashmap_free_f (some h)
        = .ok (h.freed ++ calls.map (fun p => (p, h.data.getD p default)))
      ∧ calls.Nodup
      ∧ (∀ p, p ∈ calls ↔ p < h.length ∧ occupied h p = true ∧ tombstoned h p = false)
      ∧ calls.length = h.insert_count := by
  have hw := reached_well_formed mem key_size h hr hlen
  refine ⟨live_positions h, free_f_well_formed h hw hef, (live_positions_sorted h).nodup, ?_,
    hw.2.2.2.2.symm⟩
  intro p
  rw [mem_live_positions]
  unfold live
  simp only [Bool.and_eq_true, Bool.not_eq_true']

set_option maxRecDepth 100000 in
/-- C6 (witness): the statement applied to `text_table`, the table with text
keys and a destructor that the client program `text_calls` reaches, and to
`sample_table`, which the binary client program `sample_ops` reaches. -/
theorem free_calls_destructor_on_live_slots_witness :
    (Reached text_mem 8 (some text_table) ∧ 32 ≤ text_table.length
      ∧ text_table.element_free = true
      ∧ ∃ calls : List Nat,
        bfutils_hashmap_free_f (some text_table)
          = .ok (text_table.freed
              ++ calls.map (fun p => (p, text_table.data.getD p default)))
        ∧ calls.Nodup
        ∧ (∀ p, p ∈ calls ↔ p < text_table.length ∧ occupied text_table p = true
            ∧ tombstoned text_table p = false)
        ∧ calls.length = text_table.insert_count)
    ∧ (Reached no_mem 4 (some sample_table) ∧ 32 ≤ sample_table.length
      ∧ sample_table.element_free = true
      ∧ ∃ calls : List Nat,
        bfutils_hashmap_free_f (some sample_table)
          = .ok (sample_table.freed
              ++ calls.map (fun p => (p, sample_table.data.getD p default)))
        ∧ calls.Nodup
        ∧ (∀ p, p ∈ calls ↔ p < sample_table.length ∧ occupied sample_table p = true
            ∧ tombstoned sample_table p = false)
        ∧ calls.length = sample_table.insert_count) :=
  ⟨⟨⟨bfutils_hashmap_with_free true, text_calls, Or.inr (Or.inr rfl), by decide⟩, by decide,
      rfl,
      free_calls_destructor_on_live_slots text_mem 8 text_table
        ⟨bfutils_hashmap_with_free true, text_calls, Or.inr (Or.inr rfl), by decide⟩
        (by decide) rfl⟩,
    ⟨⟨bfutils_hashmap_with_free true, sample_ops.map Op.toCall, Or.inr (Or.inr rfl),
        by decide⟩, by decide, rfl,
      free_calls_destructor_on_live_slots no_mem 4 sample_table
        ⟨bfutils_hashmap_with_free true, sample_ops.map Op.toCall, Or.inr (Or.inr rfl),
          by decide⟩
        (by decide) rfl⟩⟩

/-! ## Probing a table without tombstones -/

theorem byte_diff_eq_zero_iff : ∀ (a b : List Nat), byte_diff a b = 0 ↔ a = b
  | [], [] => by simp [byte_diff]
  | [], _ :: _ => by simp [byte_diff]
  | _ :: _, [] => by simp [byte_diff]
  | x :: xs, y :: ys => by
    rw [byte_diff]
    by_cases hxy : x = y
    · rw [if_pos hxy, byte_diff_eq_zero_iff xs ys]
      simp [hxy]
    · rw [if_neg hxy]
      simp only [List.cons.injEq, hxy, false_and, iff_false]
      omega

/-- For keys of `key_size` bytes the binary comparison is 0 exactly for equal
keys. -/
theorem keycmp_binary_eq_zero_iff (mem : Nat → List Nat) (a b : List Nat) (key_size : Nat)
    (ha : a.length = key_size) (hb : b.length = key_size) :
    keycmp mem a b key_size false = 0 ↔ a = b := by
  unfold keycmp memcmp
  simp only [Bool.false_eq_true, if_false]
  rw [byte_diff_eq_zero_iff, List.take_of_length_le (le_of_eq ha),
    List.take_of_length_le (le_of_eq hb)]

theorem key_hash_binary (key : List Nat) (key_size : Nat) :
    key_hash key key_size false = .ok (bfutils_hashmap_function key key_size) := by
  unfold key_hash
  simp

/-- A table with fewer live slots than slots has a slot that is not live. -/
theorem exists_not_live (h : Hashmap) (hlt : (live_positions h).length < h.length) :
    ∃ f, f < h.length ∧ live h f = false := by
  by_contra hc
  have hall : ∀ f, f ∈ List.range h.length → live h f = true := by
    intro f hf
    rw [List.mem_range] at hf
    by_contra hl
    exact hc ⟨f, hf, by simpa using hl⟩
  have : (live_positions h).length = h.length := by
    unfold live_positions
    rw [List.filter_eq_self.2 hall, List.length_range]
  omega

/-- From any start the cyclic walk meets a first slot that is not Occupied, if
there is one at all. -/
theorem first_free (h : Hashmap) (home f : Nat) (hhome : home < h.length)
    (hf : f < h.length) (hfree : occupied h f = false) :
    ∃ d, d < h.length ∧ occupied h ((home + d) % h.length) = false
      ∧ ∀ e, e < d → occupied h ((home + e) % h.length) = true := by
  have hex : ∃ d, occupied h ((home + d) % h.length) = false := by
    refine ⟨(f + h.length - home) % h.length, ?_⟩
    rw [Nat.add_mod_mod]
    have : home + (f + h.length - home) = f + h.length := by omega
    rw [this, Nat.add_mod_right, Nat.mod_eq_of_lt hf]
    exact hfree
  have hmod : ∀ d, (home + d % h.length) % h.length = (home + d) % h.length := fun d =>
    Nat.add_mod_mod _ _ _
  refine ⟨Nat.find hex, ?_, Nat.find_spec hex, ?_⟩
  · by_contra hge
    have hlt : Nat.find hex % h.length < Nat.find hex := by
      have := Nat.mod_lt (Nat.find hex) (by omega : h.length > 0)
      omega
    have := Nat.find_min hex hlt
    rw [hmod] at this
    exact this (Nat.find_spec hex)
  · intro e he
    have := Nat.find_min hex he
    simpa using this

/-- In a table without tombstones, when the record of the home bucket does not
compare equal, `insert_position` walks over the Occupied slots and takes the
first slot that is not Occupied. -/
theorem insert_position_loop_walk (mem : Nat → List Nat) (h : Hashmap) (key : List Nat)
    (key_size : Nat) (is_string : Bool) (index : Nat) (hs : Shape h)
    (hd : h.data.length = h.length) (hindex : index < h.length)
    (hnt : ∀ s, tombstoned h s = false) :
    ∀ (d fuel p : Nat), d < fuel → p < h.length →
      (0 < d → keycmp mem key (h.data.getD index default).key key_size is_string ≠ 0) →
      (∀ e, e < d → occupied h ((p + e) % h.length) = true) →
      occupied h ((p + d) % h.length) = false →
      insert_position_loop mem h key key_size is_string index (h.length / 8) fuel
          (p % 8) (p / 8) false 0
        = .ok (occupy h ((p + d) % h.length), (p + d) % h.length) := by
  intro d
  induction d with
  | zero =>
    intro fuel p hfuel hp _ _ hfree
    obtain ⟨fuel, rfl⟩ : ∃ k, fuel = k + 1 := ⟨fuel - 1, by omega⟩
    have e0 : (p + 0) % h.length = p := Nat.mod_eq_of_lt hp
    rw [e0] at hfree ⊢
    rw [insert_position_loop_step mem h key key_size is_string index fuel p false 0 hs hd hp
      hindex (by simp), if_pos hfree]
    simp
  | succ d ih =>
    intro fuel p hfuel hp hne0 hocc hfree
    have hne := hne0 (by omega)
    obtain ⟨fuel, rfl⟩ : ∃ k, fuel = k + 1 := ⟨fuel - 1, by omega⟩
    have h0 := hocc 0 (by omega)
    have e0 : (p + 0) % h.length = p := Nat.mod_eq_of_lt hp
    rw [e0] at h0
    rw [insert_position_loop_step mem h key key_size is_string index fuel p false 0 hs hd hp
      hindex (by simp), if_neg (by rw [h0]; simp), if_neg (by rw [hnt p]; simp),
      if_neg (fun hc => hne hc.1)]
    have e1 : ∀ e, ((p + 1) % h.length + e) % h.length = (p + (e + 1)) % h.length := by
      intro e
      rw [Nat.mod_add_mod]
      congr 1
      omega
    have := ih fuel ((p + 1) % h.length) (by omega) (hs.mod_lt _) (fun _ => hne)
      (fun e he => by rw [e1]; exact hocc (e + 1) (by omega))
      (by rw [e1]; exact hfree)
    rw [this, e1]

/-- The walk of `get_position` over Occupied slots ends with `-1` at the first
slot that is not Occupied when no slot on the way holds an equal live key. -/
theorem get_position_loop_miss (mem : Nat → List Nat) (h : Hashmap) (key : List Nat)
    (key_size : Nat) (is_string : Bool) (hs : Shape h) (hd : h.data.length = h.length)
    (hno : ∀ s, s < h.length → occupied h s = true →
      ¬ (tombstoned h s = false
        ∧ keycmp mem key (h.data.getD s default).key key_size is_string = 0)) :
    ∀ (d fuel p : Nat), d < fuel → p < h.length →
      (∀ e, e < d → occupied h ((p + e) % h.length) = true) →
      occupied h ((p + d) % h.length) = false →
      get_position_loop mem h key key_size is_string (h.length / 8) fuel (p % 8) (p / 8)
        = .ok (-1) := by
  intro d
  induction d with
  | zero =>
    intro fuel p hfuel hp _ hfree
    obtain ⟨fuel, rfl⟩ : ∃ k, fuel = k + 1 := ⟨fuel - 1, by omega⟩
    have e0 : (p + 0) % h.length = p := Nat.mod_eq_of_lt hp
    rw [e0] at hfree
    rw [get_position_loop_step mem h key key_size is_string fuel p hs hd hp, if_pos hfree]
  | succ d ih =>
    intro fuel p hfuel hp hocc hfree
    obtain ⟨fuel, rfl⟩ : ∃ k, fuel = k + 1 := ⟨fuel - 1, by omega⟩
    have h0 := hocc 0 (by omega)
    have e0 : (p + 0) % h.length = p := Nat.mod_eq_of_lt hp
    rw [e0] at h0
    rw [get_position_loop_step mem h key key_size is_string fuel p hs hd hp,
      if_neg (by rw [h0]; simp), if_neg (hno p hp h0)]
    have e1 : ∀ e, ((p + 1) % h.length + e) % h.length = (p + (e + 1)) % h.length := by
      intro e
      rw [Nat.mod_add_mod]
      congr 1
      omega
    exact ih fuel ((p + 1) % h.length) (by omega) (hs.mod_lt _)
      (fun e he => by rw [e1]; exact hocc (e + 1) (by omega))
      (by rw [e1]; exact hfree)

/-- The walk of `get_position` over Occupied slots up to a slot that holds an
equal live key returns a slot on the way that holds an equal live key. -/
theorem get_position_loop_hit (mem : Nat → List Nat) (h : Hashmap) (key : List Nat)
    (key_size : Nat) (is_string : Bool) (hs : Shape h) (hd : h.data.length = h.length) :
    ∀ (d fuel p : Nat), d < fuel → p < h.length →
      (∀ e, e ≤ d → occupied h ((p + e) % h.length) = true) →
      (tombstoned h ((p + d) % h.length) = false
        ∧ keycmp mem key (h.data.getD ((p + d) % h.length) default).key key_size is_string
            = 0) →
      ∃ s, s < h.length
        ∧ get_position_loop mem h key key_size is_string (h.length / 8) fuel (p % 8) (p / 8)
            = .ok (s : Int)
        ∧ occupied h s = true ∧ tombstoned h s = false
        ∧ keycmp mem key (h.data.getD s default).key key_size is_string = 0 := by
  intro d
  induction d with
  | zero =>
    intro fuel p hfuel hp hocc hm
    obtain ⟨fuel, rfl⟩ : ∃ k, fuel = k + 1 := ⟨fuel - 1, by omega⟩
    have h0 := hocc 0 (le_refl 0)
    have e0 : (p + 0) % h.length = p := Nat.mod_eq_of_lt hp
    rw [e0] at h0 hm
    rw [get_position_loop_step mem h key key_size is_string fuel p hs hd hp,
      if_neg (by rw [h0]; simp), if_pos hm]
    exact ⟨p, hp, rfl, h0, hm.1, hm.2⟩
  | succ d ih =>
    intro fuel p hfuel hp hocc hm
    obtain ⟨fuel, rfl⟩ : ∃ k, fuel = k + 1 := ⟨fuel - 1, by omega⟩
    have h0 := hocc 0 (by omega)
    have e0 : (p + 0) % h.length = p := Nat.mod_eq_of_lt hp
    rw [e0] at h0
    rw [get_position_loop_step mem h key key_size is_string fuel p hs hd hp,
      if_neg (by rw [h0]; simp)]
    by_cases hmp : tombstoned h p = false
        ∧ keycmp mem key (h.data.getD p default).key key_size is_string = 0
    · rw [if_pos hmp]
      exact ⟨p, hp, rfl, h0, hmp.1, hmp.2⟩
    · rw [if_neg hmp]
      have e1 : ∀ e, ((p + 1) % h.length + e) % h.length = (p + (e + 1)) % h.length := by
        intro e
        rw [Nat.mod_add_mod]
        congr 1
        omega
      exact ih fuel ((p + 1) % h.length) (by omega) (hs.mod_lt _)
        (fun e he => by rw [e1]; exact hocc (e + 1) (by omega))
        (by rw [e1]; exact hm)

/-! ## Re-insertion into the resized table -/

theorem data_getD_set (l : List Record) (e s : Nat) (r : Record) (he : e < l.length) :
    (l.set e r).getD s default = if s = e then r else l.getD s default := by
  simp only [List.getD_eq_getElem?_getD, List.getElem?_set]
  by_cases hk : e = s
  · subst hk
    simp [he]
  · have hk1 : ¬ s = e := fun hc => hk hc.symm
    simp [hk, hk1]

theorem live_below_length_mono (h : Hashmap) (a : Nat) :
    ∀ d, (live_below h a).length ≤ (live_below h (a + d)).length := by
  intro d
  induction d with
  | zero => exact le_refl _
  | succ d ih =>
    have e : a + (d + 1) = (a + d) + 1 := by omega
    rw [e, live_below_succ]
    split
    · rw [List.length_append]
      omega
    · exact ih

theorem live_of_no_tomb (t : Hashmap) (hnt : ∀ s, tombstoned t s = false) (s : Nat) :
    live t s = occupied t s := by
  unfold live
  rw [hnt s]
  simp

/-- The re-insertion of one live record of the old table: `insert_position`
takes a slot that was not Occupied, and the new table with the record copied
there is in the state for the next old slot. -/
theorem rehash_insert (mem : Nat → List Nat) (old t : Hashmap) (key_size n : Nat)
    (hsized : KeysSized old key_size) (hdist : KeysDistinct old)
    (hinv : Rehashed old key_size n t) (hn : n < old.length) (hlive : live old n = true)
    (hroom : (live_positions old).length ≤ t.length) :
    ∃ e, e < t.length
      ∧ bfutils_hashmap_insert_position mem (some t) (old.data.getD n default).key key_size false
          = .ok (occupy t e, e)
      ∧ Rehashed old key_size (n + 1) (store (occupy t e) e (old.data.getD n default)) := by
  have hw := hinv.wf
  have hs := hw.shape
  have hd := hw.2.2.1
  have hcount1 : (live_below old (n + 1)).length = (live_below old n).length + 1 := by
    rw [live_below_succ, if_pos hlive, List.length_append]
    rfl
  have hcount2 : (live_below old (n + 1)).length ≤ (live_positions old).length := by
    have := live_below_length_mono old (n + 1) (old.length - (n + 1))
    have e : n + 1 + (old.length - (n + 1)) = old.length := by omega
    rw [e] at this
    exact this
  have hlt : (live_positions t).length < t.length := by
    rw [← hw.2.2.2.2, hinv.count]
    omega
  obtain ⟨f, hf, hflive⟩ := exists_not_live t hlt
  rw [live_of_no_tomb t hinv.no_tomb] at hflive
  have hhome : bfutils_hashmap_function (old.data.getD n default).key key_size % t.length
      < t.length := hs.mod_lt _
  obtain ⟨d, hdlt, hdfree, hdocc⟩ := first_free t _ f hhome hf hflive
  have hne : 0 < d → keycmp mem (old.data.getD n default).key
      (t.data.getD (bfutils_hashmap_function (old.data.getD n default).key key_size % t.length)
        default).key key_size false ≠ 0 := by
    intro hd0
    have h0 := hdocc 0 hd0
    rw [Nat.add_zero, Nat.mod_eq_of_lt hhome] at h0
    obtain ⟨i, hi, hil, hie⟩ := hinv.from_old _ hhome h0
    have hiL : i < old.length := by omega
    rw [hie, Ne, keycmp_binary_eq_zero_iff mem _ _ key_size (hsized n hn hlive)
      (hsized i hiL hil)]
    intro hc
    have := hdist n hn i hiL hlive hil hc
    omega
  have hrun : bfutils_hashmap_insert_position mem (some t) (old.data.getD n default).key
      key_size false
      = .ok (occupy t ((bfutils_hashmap_function (old.data.getD n default).key key_size
            % t.length + d) % t.length),
          (bfutils_hashmap_function (old.data.getD n default).key key_size % t.length + d)
            % t.length) := by
    unfold bfutils_hashmap_insert_position
    have hl0 : ¬ bfutils_hashmap_length (some t) = 0 := by
      have := hs.1
      simp only [bfutils_hashmap_length]
      omega
    rw [key_hash_binary]
    simp only [if_neg hl0]
    exact insert_position_loop_walk mem t _ key_size false _ hs hd hhome hinv.no_tomb d _ _
      (by omega) hhome hne hdocc hdfree
  refine ⟨_, hs.mod_lt _, hrun, ?_⟩
  generalize hE : (bfutils_hashmap_function (old.data.getD n default).key key_size
    % t.length + d) % t.length = e at hrun hdfree
  have he : e < t.length := by
    rw [← hE]
    exact hs.mod_lt _
  have hocc' : ∀ s, occupied (store (occupy t e) e (old.data.getD n default)) s
      = (occupied t s || decide (s = e)) := fun s => occupied_occupy t e s (hs.slots_lt he)
  have hdata' : ∀ s, (store (occupy t e) e (old.data.getD n default)).data.getD s default
      = if s = e then old.data.getD n default else t.data.getD s default := fun s =>
    data_getD_set t.data e s _ (by rw [hd]; exact he)
  have hlen' : (store (occupy t e) e (old.data.getD n default)).length = t.length := rfl
  have hhome' : ∀ s, s ≠ e →
      home_of (store (occupy t e) e (old.data.getD n default)) key_size s
        = home_of t key_size s := by
    intro s hse
    unfold home_of
    rw [hdata', if_neg hse, hlen']
  have hhome_e : home_of (store (occupy t e) e (old.data.getD n default)) key_size e
      = bfutils_hashmap_function (old.data.getD n default).key key_size % t.length := by
    unfold home_of
    rw [hdata', if_pos rfl, hlen']
  refine ⟨well_formed_store (well_formed_occupy hw he hdfree) e _, hinv.freed_eq, hinv.no_tomb,
    ?_, ?_, ?_, ?_⟩
  · intro s hsl hso
    rw [hocc'] at hso
    rw [hdata']
    by_cases hse : s = e
    · rw [if_pos hse]
      exact ⟨n, Nat.lt_succ_self n, hlive, rfl⟩
    · rw [if_neg hse]
      simp only [Bool.or_eq_true, decide_eq_true_eq, hse, or_false] at hso
      obtain ⟨i, hi, hil, hie⟩ := hinv.from_old s hsl hso
      exact ⟨i, by omega, hil, hie⟩
  · intro i hi hil
    by_cases hin : i = n
    · subst hin
      refine ⟨e, he, ?_, ?_⟩
      · rw [hocc']
        simp
      · rw [hdata', if_pos rfl]
    · obtain ⟨s, hsl, hso, hse⟩ := hinv.to_new i (by omega) hil
      have hne_se : s ≠ e := by
        intro hc
        rw [hc, hdfree] at hso
        cases hso
      refine ⟨s, hsl, ?_, ?_⟩
      · rw [hocc', hso]
        rfl
      · rw [hdata', if_neg hne_se]
        exact hse
  · intro s hsl hso
    rw [hlen'] at hsl ⊢
    by_cases hse : s = e
    · subst hse
      rw [hhome_e]
      refine ⟨d, hdlt, hE.symm, ?_⟩
      intro e1 he1
      rw [hocc']
      by_cases h1 : e1 = d
      · rw [h1, hE]
        simp
      · rw [hdocc e1 (by omega)]
        rfl
    · rw [hocc'] at hso
      simp only [Bool.or_eq_true, decide_eq_true_eq, hse, or_false] at hso
      obtain ⟨d1, hd1, hsd, hpath⟩ := hinv.path s hsl hso
      rw [hhome' s hse]
      refine ⟨d1, hd1, hsd, ?_⟩
      intro e1 he1
      rw [hocc', hpath e1 he1]
      rfl
  · show t.insert_count + 1 = (live_below old (n + 1)).length
    rw [hcount1, hinv.count]

theorem rehashed_skip (old t : Hashmap) (key_size n : Nat)
    (hinv : Rehashed old key_size n t) (hdead : live old n = false) :
    Rehashed old key_size (n + 1) t := by
  refine ⟨hinv.wf, hinv.freed_eq, hinv.no_tomb, ?_, ?_, hinv.path, ?_⟩
  · intro s hsl hso
    obtain ⟨i, hi, hil, hie⟩ := hinv.from_old s hsl hso
    exact ⟨i, by omega, hil, hie⟩
  · intro i hi hil
    have hin : i ≠ n := by
      intro hc
      rw [hc, hdead] at hil
      cases hil
    exact hinv.to_new i (by omega) hil
  · rw [live_below_succ, if_neg (by rw [hdead]; simp)]
    exact hinv.count

theorem rehashed_start (hm : Option Hashmap) (old : Hashmap) (key_size m : Nat) (hm5 : 5 ≤ m)
    (hfreed : (resize_header hm (2 ^ m)).freed = old.freed) :
    Rehashed old key_size 0 (resize_header hm (2 ^ m)) := by
  have hocc : ∀ s, occupied (resize_header hm (2 ^ m)) s = false := fun s =>
    bit_set_replicate_zero _ _
  refine ⟨resize_header_well_formed hm m hm5, hfreed, fun s => bit_set_replicate_zero _ _,
    ?_, ?_, ?_, rfl⟩
  · intro s _ hso
    rw [hocc s] at hso
    cases hso
  · intro i hi
    omega
  · intro s _ hso
    rw [hocc s] at hso
    cases hso

/-- The two `for` loops of `bfutils_hashmap_resize`, run over the old slots
from `n` on, complete and bring the new table into the state for the end of
the old table. -/
theorem rehash_loop_spec (mem : Nat → List Nat) (old : Hashmap) (key_size : Nat)
    (hsold : Shape old) (hdold : old.data.length = old.length)
    (hsized : KeysSized old key_size) (hdist : KeysDistinct old) (N : Nat)
    (hroom : (live_positions old).length ≤ N) :
    ∀ (k n : Nat) (t : Hashmap), Rehashed old key_size n t → t.length = N →
      n + k ≤ (old.length / 8 + 1) * 8 →
      ∃ t1, rehash_loop mem old.slots old.removed old.data key_size false (List.range' n k) t
          = .ok t1
        ∧ Rehashed old key_size (n + k) t1 ∧ t1.length = N := by
  intro k
  induction k with
  | zero =>
    intro n t hinv hN _
    exact ⟨t, rfl, hinv, hN⟩
  | succ k ih =>
    intro n t hinv hN hbound
    have hn8 : n / 8 < old.length / 8 + 1 := by omega
    rw [List.range'_succ, rehash_loop, rd_of_lt _ _ (by rw [hsold.2.2.1]; exact hn8),
      rd_of_lt _ _ (by rw [hsold.2.2.2.1]; exact hn8)]
    simp only [live_eq_bits]
    have e : n + (k + 1) = (n + 1) + k := by omega
    rw [e]
    by_cases hlive : live old n = true
    · have hn : n < old.length := by
        by_contra hc
        have := live_of_ge hsold (Nat.le_of_not_lt hc)
        rw [hlive] at this
        cases this
      obtain ⟨e1, he1, hrun, hinv1⟩ := rehash_insert mem old t key_size n hsized hdist hinv hn
        hlive (by rw [hN]; exact hroom)
      rw [if_pos hlive]
      simp only [data_get_of_lt old n (by rw [hdold]; exact hn), hrun]
      exact ih (n + 1) _ hinv1 hN (by omega)
    · rw [if_neg hlive]
      exact ih (n + 1) t (rehashed_skip old t key_size n hinv (by simpa using hlive)) hN
        (by omega)

/-- After the re-insertion every live record of the old table is found by
`get_position` under its key, in a live slot that holds that record. -/
theorem rehashed_get_hit (mem : Nat → List Nat) (old t : Hashmap) (key_size n : Nat)
    (hsold : Shape old) (hsized : KeysSized old key_size) (hdist : KeysDistinct old)
    (hinv : Rehashed old key_size n t) (hn : old.length ≤ n) (i : Nat) (hi : i < old.length)
    (hlive : live old i = true) :
    ∃ s, s < t.length
      ∧ bfutils_hashmap_get_position mem (some t) (old.data.getD i default).key key_size false
          = .ok (s : Int)
      ∧ live t s = true
      ∧ t.data.getD s default = old.data.getD i default := by
  have hw := hinv.wf
  have hs := hw.shape
  have hd := hw.2.2.1
  obtain ⟨s0, hs0, hocc0, hdata0⟩ := hinv.to_new i (by omega) hlive
  obtain ⟨d, hdlt, hsd, hpath⟩ := hinv.path s0 hs0 hocc0
  have hhome : home_of t key_size s0
      = bfutils_hashmap_function (old.data.getD i default).key key_size % t.length := by
    unfold home_of
    rw [hdata0]
  rw [hhome] at hsd hpath
  have hmatch : tombstoned t ((bfutils_hashmap_function (old.data.getD i default).key key_size
        % t.length + d) % t.length) = false
      ∧ keycmp mem (old.data.getD i default).key
          (t.data.getD ((bfutils_hashmap_function (old.data.getD i default).key key_size
            % t.length + d) % t.length) default).key key_size false = 0 := by
    rw [← hsd, hdata0]
    exact ⟨hinv.no_tomb s0,
      (keycmp_binary_eq_zero_iff mem _ _ key_size (hsized i hi hlive) (hsized i hi hlive)).2 rfl⟩
  obtain ⟨s, hsl, hrun, hso, hst, hsk⟩ := get_position_loop_hit mem t
    (old.data.getD i default).key key_size false hs hd d (t.length + 9) _ (by omega)
    (hs.mod_lt _) hpath hmatch
  refine ⟨s, hsl, ?_, ?_, ?_⟩
  · unfold bfutils_hashmap_get_position
    have hl0 : ¬ bfutils_hashmap_length (some t) = 0 := by
      have := hs.1
      simp only [bfutils_hashmap_length]
      omega
    rw [key_hash_binary]
    simp only [if_neg hl0]
    exact hrun
  · rw [live_of_no_tomb t hinv.no_tomb]
    exact hso
  · obtain ⟨j, hj, hjl, hje⟩ := hinv.from_old s hsl hso
    have hjL : j < old.length := by
      by_contra hc
      have := live_of_ge hsold (Nat.le_of_not_lt hc)
      rw [hjl] at this
      cases this
    rw [hje] at hsk ⊢
    rw [keycmp_binary_eq_zero_iff mem _ _ key_size (hsized i hi hlive) (hsized j hjL hjl)] at hsk
    have := hdist i hi j hjL hlive hjl hsk
    rw [this]

/-- After the re-insertion a key that no live record of the old table had is
not found. -/
theorem rehashed_get_miss (mem : Nat → List Nat) (old t : Hashmap) (key_size n : Nat)
    (hsold : Shape old) (hsized : KeysSized old key_size)
    (hinv : Rehashed old key_size n t) (hroom : t.insert_count < t.length)
    (k : List Nat) (hk : k.length = key_size)
    (habsent : ∀ i, i < old.length → live old i = true → (old.data.getD i default).key ≠ k) :
    bfutils_hashmap_get_position mem (some t) k key_size false = .ok (-1) := by
  have hw := hinv.wf
  have hs := hw.shape
  have hd := hw.2.2.1
  have hlt : (live_positions t).length < t.length := by
    rw [← hw.2.2.2.2]
    exact hroom
  obtain ⟨f, hf, hflive⟩ := exists_not_live t hlt
  rw [live_of_no_tomb t hinv.no_tomb] at hflive
  have hhome : bfutils_hashmap_function k key_size % t.length < t.length := hs.mod_lt _
  obtain ⟨d, hdlt, hdfree, hdocc⟩ := first_free t _ f hhome hf hflive
  unfold bfutils_hashmap_get_position
  have hl0 : ¬ bfutils_hashmap_length (some t) = 0 := by
    have := hs.1
    simp only [bfutils_hashmap_length]
    omega
  rw [key_hash_binary]
  simp only [if_neg hl0]
  refine get_position_loop_miss mem t k key_size false hs hd ?_ d (t.length + 9) _ (by omega)
    hhome hdocc hdfree
  intro s hsl hso hmatch
  obtain ⟨j, _, hjl, hje⟩ := hinv.from_old s hsl hso
  have hjL : j < old.length := by
    by_contra hc
    have := live_of_ge hsold (Nat.le_of_not_lt hc)
    rw [hjl] at this
    cases this
  rw [hje, keycmp_binary_eq_zero_iff mem _ _ key_size hk (hsized j hjL hjl)] at hmatch
  exact habsent j hjL hjl hmatch.2.symm

theorem live_positions_length_le (h : Hashmap) : (live_positions h).length ≤ h.length := by
  unfold live_positions
  have := List.length_filter_le (live h) (List.range h.length)
  rw [List.length_range] at this
  exact this

/-- The re-insertion into a table of length `2 ^ m` that has room for the live
records: it completes, no destructor is called, `insert_count` is restored,
every live record is found under its key, and no other key is found. -/
theorem rehash_into_spec (mem : Nat → List Nat) (h : Hashmap) (key_size : Nat)
    (hw : WellFormed h) (hsized : KeysSized h key_size) (hdist : KeysDistinct h)
    (m : Nat) (hm5 : 5 ≤ m) (hroom : h.insert_count < 2 ^ m) :
    ∃ h1, rehash_into mem (some h) key_size false (2 ^ m) = .ok (some h1)
      ∧ h1.length = 2 ^ m
      ∧ h1.insert_count = h.insert_count
      ∧ h1.freed = h.freed
      ∧ (∀ i, i < h.length → live h i = true →
          ∃ s, s < h1.length
            ∧ bfutils_hashmap_get_position mem (some h1) (h.data.getD i default).key
                key_size false = .ok (s : Int)
            ∧ live h1 s = true
            ∧ h1.data.getD s default = h.data.getD i default)
      ∧ (∀ k, k.length = key_size →
          (∀ i, i < h.length → live h i = true → (h.data.getD i default).key ≠ k) →
          bfutils_hashmap_get_position mem (some h1) k key_size false = .ok (-1)) := by
  have hs := hw.shape
  have hcnt := hw.2.2.2.2
  obtain ⟨t1, hrun, hinv, hlen⟩ := rehash_loop_spec mem h key_size hs hw.2.2.1 hsized hdist
    (2 ^ m) (by rw [← hcnt]; omega) ((h.length / 8 + 1) * 8) 0 (resize_header (some h) (2 ^ m))
    (rehashed_start (some h) h key_size m hm5 rfl) rfl (by omega)
  rw [Nat.zero_add] at hinv
  have hge : h.length ≤ (h.length / 8 + 1) * 8 := by omega
  have hcount : t1.insert_count = h.insert_count := by
    rw [hinv.count, hcnt]
    have h0 := live_below_of_dead h ((h.length / 8 + 1) * 8 - h.length) h.length
      (fun i h1 _ => live_of_ge hs h1)
    have e : h.length + ((h.length / 8 + 1) * 8 - h.length) = (h.length / 8 + 1) * 8 := by
      omega
    rw [e] at h0
    rw [h0]
    rfl
  refine ⟨t1, ?_, hlen, hcount, hinv.freed_eq, ?_, ?_⟩
  · unfold rehash_into
    simp only [bfutils_hashmap_slots, bfutils_hashmap_removed, bfutils_hashmap_length, data_of]
    rw [List.range_eq_range', hrun]
  · intro i hi hlive
    exact rehashed_get_hit mem h t1 key_size _ hs hsized hdist hinv hge i hi hlive
  · intro k hk habsent
    exact rehashed_get_miss mem h t1 key_size _ hs hsized hinv
      (by rw [hcount, hlen]; exact hroom) k hk habsent

/-- C7: for a well-formed table with binary keys of `key_size` bytes whose live
keys are pairwise distinct, whenever `bfutils_hashmap_resize` rehashes (it grows
because `insert_count / length > 0.5`, or shrinks because `length > 32` and
`insert_count / length < 0.25`), it returns a table of the doubled or halved
length that represents the same map: every key that was live is found by
`get_position` at a live slot whose record equals the old record, a key that no
live record had is not found, `insert_count` is unchanged, and no destructor
call is made. -/
theorem resize_rehash_preserves_map (mem : Nat → List Nat) (h : Hashmap) (key_size : Nat)
    (hw : WellFormed h) (hsized : KeysSized h key_size) (hdist : KeysDistinct h)
    (hre : 2 * h.insert_count > h.length ∨ (h.length > 32 ∧ 4 * h.insert_count < h.length)) :
    ∃ h1, bfutils_hashmap_resize mem (some h) key_size false = .ok (some h1)
      ∧ h1.length = (if 2 * h.insert_count > h.length then h.length * 2 else h.length / 2)
      ∧ h1.insert_count = h.insert_count
      ∧ h1.freed = h.freed
      ∧ (∀ i, i < h.length → live h i = true →
          ∃ s, s < h1.length
            ∧ bfutils_hashmap_get_position mem (some h1) (h.data.getD i default).key
                key_size false = .ok (s : Int)
            ∧ live h1 s = true
            ∧ h1.data.getD s default = h.data.getD i default)
      ∧ (∀ k, k.length = key_size →
          (∀ i, i < h.length → live h i = true → (h.data.getD i default).key ≠ k) →
          bfutils_hashmap_get_position mem (some h1) k key_size false = .ok (-1)) := by
  obtain ⟨n, _, hn5, hn⟩ := hw.2.1
  have hcnt := hw.2.2.2.2
  have hle := live_positions_length_le h
  have hl0 : ¬ bfutils_hashmap_length (some h) = 0 := by
    have := hw.shape.1
    simp only [bfutils_hashmap_length]
    omega
  rw [resize_eq, if_neg hl0]
  simp only [bfutils_hashmap_length, bfutils_hashmap_insert_count]
  by_cases hg : 2 * h.insert_count > h.length
  · rw [if_pos hg, if_pos hg]
    have e : h.length * 2 = 2 ^ (n + 1) := by rw [hn, pow_succ]
    rw [e]
    exact rehash_into_spec mem h key_size hw hsized hdist (n + 1) (by omega)
      (by rw [← e]; omega)
  · have hsh : h.length > 32 ∧ 4 * h.insert_count < h.length := by
      rcases hre with hc | hc
      · exact absurd hc hg
      · exact hc
    rw [if_neg hg, if_pos hsh, if_neg hg]
    have hn6 : 6 ≤ n := by
      by_contra hc
      have : n = 5 := by omega
      rw [this] at hn
      have := hsh.1
      omega
    have e : h.length / 2 = 2 ^ (n - 1) := by
      have : n = (n - 1) + 1 := by omega
      rw [hn]
      conv_lhs => rw [this, pow_succ]
      omega
    rw [e]
    exact rehash_into_spec mem h key_size hw hsized hdist (n - 1) (by omega)
      (by rw [← e]; omega)

set_option maxRecDepth 100000 in
/-- C7 (witness): the statement applied to `full_table`, which grows from 32 to
64 slots. -/
theorem resize_rehash_preserves_map_witness :
    WellFormed full_table ∧ KeysSized full_table 4 ∧ KeysDistinct full_table
      ∧ (2 * full_table.insert_count > full_table.length
          ∨ (full_table.length > 32 ∧ 4 * full_table.insert_count < full_table.length))
      ∧ ∃ h1, bfutils_hashmap_resize no_mem (some full_table) 4 false = .ok (some h1)
        ∧ h1.length = (if 2 * full_table.insert_count > full_table.length
            then full_table.length * 2 else full_table.length / 2)
        ∧ h1.insert_count = full_table.insert_count
        ∧ h1.freed = full_table.freed
        ∧ (∀ i, i < full_table.length → live full_table i = true →
            ∃ s, s < h1.length
              ∧ bfutils_hashmap_get_position no_mem (some h1)
                  (full_table.data.getD i default).key 4 false = .ok (s : Int)
              ∧ live h1 s = true
              ∧ h1.data.getD s default = full_table.data.getD i default)
        ∧ (∀ k, k.length = 4 →
            (∀ i, i < full_table.length → live full_table i = true →
              (full_table.data.getD i default).key ≠ k) →
            bfutils_hashmap_get_position no_mem (some h1) k 4 false = .ok (-1)) :=
  ⟨by decide, by decide, by decide, by decide,
    resize_rehash_preserves_map no_mem full_table 4 (by decide) (by decide) (by decide)
      (by decide)⟩

/-! ## Termination of the probes -/

/-- On a walk over Occupied slots without tombstone that ends at a slot that is
not Occupied, the loop of `insert_position` returns. -/
theorem insert_position_loop_total (mem : Nat → List Nat) (h : Hashmap) (key : List Nat)
    (key_size : Nat) (is_string : Bool) (index : Nat) (hs : Shape h)
    (hd : h.data.length = h.length) (hindex : index < h.length) :
    ∀ (d fuel p : Nat), d < fuel → p < h.length →
      (∀ e, e < d → occupied h ((p + e) % h.length) = true
        ∧ tombstoned h ((p + e) % h.length) = false) →
      occupied h ((p + d) % h.length) = false →
      ∃ res, insert_position_loop mem h key key_size is_string index (h.length / 8) fuel
          (p % 8) (p / 8) false 0 = .ok res := by
  intro d
  induction d with
  | zero =>
    intro fuel p hfuel hp _ hfree
    obtain ⟨fuel, rfl⟩ : ∃ k, fuel = k + 1 := ⟨fuel - 1, by omega⟩
    have e0 : (p + 0) % h.length = p := Nat.mod_eq_of_lt hp
    rw [e0] at hfree
    rw [insert_position_loop_step mem h key key_size is_string index fuel p false 0 hs hd hp
      hindex (by simp), if_pos hfree, if_neg (by simp)]
    exact ⟨_, rfl⟩
  | succ d ih =>
    intro fuel p hfuel hp hocc hfree
    obtain ⟨fuel, rfl⟩ : ∃ k, fuel = k + 1 := ⟨fuel - 1, by omega⟩
    have h0 := hocc 0 (by omega)
    have e0 : (p + 0) % h.length = p := Nat.mod_eq_of_lt hp
    rw [e0] at h0
    rw [insert_position_loop_step mem h key key_size is_string index fuel p false 0 hs hd hp
      hindex (by simp), if_neg (by rw [h0.1]; simp), if_neg (by rw [h0.2]; simp)]
    by_cases hm : keycmp mem key (h.data.getD index default).key key_size is_string = 0
        ∧ tombstoned h p = false
    · rw [if_pos hm]
      exact ⟨_, rfl⟩
    · rw [if_neg hm]
      have e1 : ∀ e, ((p + 1) % h.length + e) % h.length = (p + (e + 1)) % h.length := by
        intro e
        rw [Nat.mod_add_mod]
        congr 1
        omega
      exact ih fuel ((p + 1) % h.length) (by omega) (hs.mod_lt _)
        (fun e he => by rw [e1]; exact hocc (e + 1) (by omega))
        (by rw [e1]; exact hfree)

/-- In a table without tombstones that has a slot that is not Occupied,
`insert_position` returns for every key that can be hashed: it either takes a
slot that was not Occupied or stops at an Occupied slot after the destructor
call. -/
theorem insert_position_total (mem : Nat → List Nat) (h : Hashmap) (key : List Nat)
    (key_size : Nat) (is_string : Bool) (hs : Shape h) (hd : h.data.length = h.length)
    (hnt : ∀ s, tombstoned h s = false) (f : Nat) (hf : f < h.length)
    (hfree : occupied h f = false) (hash : Nat)
    (hhash : key_hash key key_size is_string = .ok hash) :
    ∃ h1 pos, bfutils_hashmap_insert_position mem (some h) key key_size is_string
        = .ok (h1, pos)
      ∧ pos < h.length
      ∧ ((occupied h pos = false ∧ h1 = occupy h pos)
          ∨ (occupied h pos = true ∧ h1 = call_free h pos)) := by
  have hhome : hash % h.length < h.length := hs.mod_lt _
  obtain ⟨d, hdlt, hdfree, hdocc⟩ := first_free h _ f hhome hf hfree
  obtain ⟨res, hres⟩ := insert_position_loop_total mem h key key_size is_string
    (hash % h.length) hs hd hhome d (2 * (h.length + 8) + 2) (hash % h.length) (by omega) hhome
    (fun e he => ⟨hdocc e he, hnt _⟩) hdfree
  obtain ⟨h1, pos⟩ := res
  have hrun : bfutils_hashmap_insert_position mem (some h) key key_size is_string
      = .ok (h1, pos) := by
    unfold bfutils_hashmap_insert_position
    have hl0 : ¬ bfutils_hashmap_length (some h) = 0 := by
      have := hs.1
      simp only [bfutils_hashmap_length]
      omega
    rw [hhash]
    simp only [if_neg hl0]
    exact hres
  obtain ⟨hpos, hc⟩ := insert_position_cases mem h key key_size is_string hs hd h1 pos hrun
  refine ⟨h1, pos, hrun, hpos, ?_⟩
  rcases hc with hc | ⟨_, r1, _, _, ht, _⟩ | ⟨ho, _, he⟩
  · exact Or.inl hc
  · rw [hnt r1] at ht
    cases ht
  · exact Or.inr ⟨ho, he⟩

theorem hashable_binary (key : List Nat) (key_size : Nat) : hashable key key_size false = true := by
  unfold hashable
  rw [key_hash_binary]

theorem keys_hashable_binary (h : Hashmap) (key_size : Nat) : KeysHashable h key_size false :=
  fun _ _ _ => hashable_binary _ _

theorem key_hash_of_hashable (key : List Nat) (key_size : Nat) (is_string : Bool)
    (hh : hashable key key_size is_string = true) :
    ∃ hash, key_hash key key_size is_string = .ok hash := by
  unfold hashable at hh
  cases hk : key_hash key key_size is_string with
  | error e => simp [hk] at hh
  | ok hash => exact ⟨hash, rfl⟩

/-- The two `for` loops of `bfutils_hashmap_resize` always complete when the new
table has more slots than the old table has live records: the new table stays
well formed and free of tombstones, and its `insert_count` is at most the
number of old live records handled. -/
theorem rehash_loop_total (mem : Nat → List Nat) (old : Hashmap) (key_size : Nat)
    (is_string : Bool) (hsold : Shape old) (hdold : old.data.length = old.length)
    (hhash : KeysHashable old key_size is_string) (N : Nat)
    (hroom : (live_positions old).length < N) :
    ∀ (k n : Nat) (t : Hashmap), WellFormed t → (∀ s, tombstoned t s = false) →
      t.length = N → t.insert_count ≤ (live_below old n).length →
      n + k ≤ (old.length / 8 + 1) * 8 →
      ∃ t1, rehash_loop mem old.slots old.removed old.data key_size is_string
          (List.range' n k) t = .ok t1
        ∧ WellFormed t1 ∧ (∀ s, tombstoned t1 s = false) ∧ t1.length = N
        ∧ t1.insert_count ≤ (live_below old (n + k)).length
        ∧ t1.element_free = t.element_free := by
  intro k
  induction k with
  | zero =>
    intro n t hw hnt hN hcnt _
    exact ⟨t, rfl, hw, hnt, hN, hcnt, rfl⟩
  | succ k ih =>
    intro n t hw hnt hN hcnt hbound
    have hn8 : n / 8 < old.length / 8 + 1 := by omega
    rw [List.range'_succ, rehash_loop, rd_of_lt _ _ (by rw [hsold.2.2.1]; exact hn8),
      rd_of_lt _ _ (by rw [hsold.2.2.2.1]; exact hn8)]
    simp only [live_eq_bits]
    have e : n + (k + 1) = (n + 1) + k := by omega
    rw [e]
    by_cases hlive : live old n = true
    · have hn : n < old.length := by
        by_contra hc
        have := live_of_ge hsold (Nat.le_of_not_lt hc)
        rw [hlive] at this
        cases this
      have hcount1 : (live_below old (n + 1)).length = (live_below old n).length + 1 := by
        rw [live_below_succ, if_pos hlive, List.length_append]
        rfl
      have hcount2 : (live_below old (n + 1)).length ≤ (live_positions old).length := by
        have := live_below_length_mono old (n + 1) (old.length - (n + 1))
        have e2 : n + 1 + (old.length - (n + 1)) = old.length := by omega
        rw [e2] at this
        exact this
      have hlt : (live_positions t).length < t.length := by
        rw [← hw.2.2.2.2, hN]
        omega
      obtain ⟨f, hf, hflive⟩ := exists_not_live t hlt
      rw [live_of_no_tomb t hnt] at hflive
      obtain ⟨hash, hhk⟩ := key_hash_of_hashable _ key_size is_string (hhash n hn hlive)
      obtain ⟨h1, pos, hrun, hpos, hc⟩ := insert_position_total mem t
        (old.data.getD n default).key key_size is_string hw.shape hw.2.2.1 hnt f hf hflive hash hhk
      rw [if_pos hlive]
      simp only [data_get_of_lt old n (by rw [hdold]; exact hn), hrun]
      rcases hc with ⟨hocc, rfl⟩ | ⟨_, rfl⟩
      · obtain ⟨t1, hr, hw1, hnt1, hN1, hc1, hef1⟩ := ih (n + 1)
          (store (occupy t pos) pos (old.data.getD n default))
          (well_formed_store (well_formed_occupy hw hpos hocc) pos _) hnt hN
          (by
            show t.insert_count + 1 ≤ (live_below old (n + 1)).length
            omega)
          (by omega)
        exact ⟨t1, hr, hw1, hnt1, hN1, hc1, hef1⟩
      · obtain ⟨t1, hr, hw1, hnt1, hN1, hc1, hef1⟩ := ih (n + 1)
          (store (call_free t pos) pos (old.data.getD n default))
          (well_formed_store (well_formed_call_free hw pos) pos _)
          (fun s => by
            show tombstoned (call_free t pos) s = false
            rw [tombstoned_call_free]
            exact hnt s)
          (by
            show (call_free t pos).length = N
            rw [call_free_length]
            exact hN)
          (by
            show (call_free t pos).insert_count ≤ (live_below old (n + 1)).length
            rw [call_free_insert_count]
            omega)
          (by omega)
        refine ⟨t1, hr, hw1, hnt1, hN1, hc1, ?_⟩
        rw [hef1]
        show (call_free t pos).element_free = t.element_free
        unfold call_free
        split <;> rfl
    · rw [if_neg hlive]
      have hdead : live old n = false := by simpa using hlive
      exact ih (n + 1) t hw hnt hN
        (by rw [live_below_succ, if_neg hlive]; exact hcnt) (by omega)

theorem live_below_all (h : Hashmap) (hs : Shape h) :
    live_below h ((h.length / 8 + 1) * 8) = live_positions h := by
  have h0 := live_below_of_dead h ((h.length / 8 + 1) * 8 - h.length) h.length
    (fun i h1 _ => live_of_ge hs h1)
  have e : h.length + ((h.length / 8 + 1) * 8 - h.length) = (h.length / 8 + 1) * 8 := by
    omega
  rw [e] at h0
  rw [h0]
  rfl

/-- The re-insertion into a table of length `2 ^ m` with more slots than the
old table has live records always completes. -/
theorem rehash_into_total (mem : Nat → List Nat) (h : Hashmap) (key_size : Nat)
    (is_string : Bool) (hw : WellFormed h) (hhash : KeysHashable h key_size is_string)
    (m : Nat) (hm5 : 5 ≤ m) (hroom : h.insert_count < 2 ^ m) :
    ∃ h1, rehash_into mem (some h) key_size is_string (2 ^ m) = .ok (some h1)
      ∧ WellFormed h1 ∧ (∀ s, tombstoned h1 s = false) ∧ h1.length = 2 ^ m
      ∧ h1.insert_count ≤ h.insert_count ∧ h1.element_free = h.element_free := by
  have hs := hw.shape
  have hcnt := hw.2.2.2.2
  obtain ⟨t1, hrun, hw1, hnt1, hlen1, hc1, hef1⟩ := rehash_loop_total mem h key_size is_string
    hs hw.2.2.1 hhash (2 ^ m) (by rw [← hcnt]; exact hroom) ((h.length / 8 + 1) * 8) 0
    (resize_header (some h) (2 ^ m)) (resize_header_well_formed (some h) m hm5)
    (fun s => bit_set_replicate_zero _ _) rfl (Nat.zero_le _) (by omega)
  rw [Nat.zero_add, live_below_all h hs, ← hcnt] at hc1
  refine ⟨t1, ?_, hw1, hnt1, hlen1, hc1, hef1⟩
  unfold rehash_into
  simp only [bfutils_hashmap_slots, bfutils_hashmap_removed, bfutils_hashmap_length, data_of]
  rw [List.range_eq_range', hrun]

/-- `bfutils_hashmap_resize` always returns on a table in one of the states the
library keeps: the result has storage and is well formed, its length is the one
the load-factor tests select, its `insert_count` has not grown, it has no
tombstone when the storage was rebuilt, and it is the table itself otherwise. -/
theorem resize_total (mem : Nat → List Nat) (hm : Option Hashmap) (key_size : Nat)
    (is_string : Bool) (hsound : Sound hm)
    (hhash : ∀ h, hm = some h → KeysHashable h key_size is_string) :
    ∃ h1, bfutils_hashmap_resize mem hm key_size is_string = .ok (some h1)
      ∧ WellFormed h1
      ∧ h1.length
          = (if bfutils_hashmap_length hm = 0 then 32
             else if 2 * bfutils_hashmap_insert_count hm > bfutils_hashmap_length hm then
               bfutils_hashmap_length hm * 2
             else if bfutils_hashmap_length hm > 32
                 ∧ 4 * bfutils_hashmap_insert_count hm < bfutils_hashmap_length hm then
               bfutils_hashmap_length hm / 2
             else bfutils_hashmap_length hm)
      ∧ h1.insert_count ≤ bfutils_hashmap_insert_count hm
      ∧ ((bfutils_hashmap_length hm = 0
            ∨ 2 * bfutils_hashmap_insert_count hm > bfutils_hashmap_length hm
            ∨ (bfutils_hashmap_length hm > 32
                ∧ 4 * bfutils_hashmap_insert_count hm < bfutils_hashmap_length hm)) →
          ∀ s, tombstoned h1 s = false)
      ∧ (¬ (bfutils_hashmap_length hm = 0
            ∨ 2 * bfutils_hashmap_insert_count hm > bfutils_hashmap_length hm
            ∨ (bfutils_hashmap_length hm > 32
                ∧ 4 * bfutils_hashmap_insert_count hm < bfutils_hashmap_length hm)) →
          hm = some h1) := by
  rw [resize_eq]
  by_cases h0 : bfutils_hashmap_length hm = 0
  · rw [if_pos h0, if_pos h0]
    refine ⟨_, rfl, resize_header_well_formed hm 5 (le_refl 5), rfl, Nat.zero_le _,
      fun _ s => bit_set_replicate_zero _ _, fun hc => absurd (Or.inl h0) hc⟩
  · rw [if_neg h0, if_neg h0]
    cases hm with
    | none => exact absurd rfl h0
    | some h =>
      have hw : WellFormed h := by
        rcases hsound with hf | hw
        · exact absurd hf.1 h0
        · exact hw
      obtain ⟨n, _, hn5, hn⟩ := hw.2.1
      have hle := live_positions_length_le h
      have hcnt := hw.2.2.2.2
      simp only [bfutils_hashmap_length, bfutils_hashmap_insert_count] at h0 ⊢
      by_cases hg : 2 * h.insert_count > h.length
      · rw [if_pos hg, if_pos hg]
        have e : h.length * 2 = 2 ^ (n + 1) := by rw [hn, pow_succ]
        rw [e]
        obtain ⟨h1, hr, hw1, hnt1, hl1, hc1, _⟩ := rehash_into_total mem h key_size is_string hw
          (hhash h rfl) (n + 1) (by omega) (by rw [← e]; omega)
        exact ⟨h1, hr, hw1, hl1, hc1, fun _ => hnt1,
          fun hc => absurd (Or.inr (Or.inl hg)) hc⟩
      · rw [if_neg hg, if_neg hg]
        by_cases hsh : h.length > 32 ∧ 4 * h.insert_count < h.length
        · rw [if_pos hsh, if_pos hsh]
          have hn6 : 6 ≤ n := by
            by_contra hc
            have : n = 5 := by omega
            rw [this] at hn
            have := hsh.1
            omega
          have e : h.length / 2 = 2 ^ (n - 1) := by
            have : n = (n - 1) + 1 := by omega
            rw [hn]
            conv_lhs => rw [this, pow_succ]
            omega
          rw [e]
          obtain ⟨h1, hr, hw1, hnt1, hl1, hc1, _⟩ := rehash_into_total mem h key_size is_string
            hw (hhash h rfl) (n - 1) (by omega) (by rw [← e]; omega)
          exact ⟨h1, hr, hw1, hl1, hc1, fun _ => hnt1,
            fun hc => absurd (Or.inr (Or.inr hsh)) hc⟩
        · rw [if_neg hsh, if_neg hsh]
          refine ⟨h, rfl, hw, rfl, le_refl _, fun hc => ?_, fun _ => rfl⟩
          rcases hc with hc | hc | hc
          · exact absurd hc h0
          · exact absurd hc hg
          · exact absurd hc hsh

/-- On a walk over Occupied slots that ends at a slot that is not Occupied, the
loop of `get_position` returns. -/
theorem get_position_loop_total (mem : Nat → List Nat) (h : Hashmap) (key : List Nat)
    (key_size : Nat) (is_string : Bool) (hs : Shape h) (hd : h.data.length = h.length) :
    ∀ (d fuel p : Nat), d < fuel → p < h.length →
      (∀ e, e < d → occupied h ((p + e) % h.length) = true) →
      occupied h ((p + d) % h.length) = false →
      ∃ r, get_position_loop mem h key key_size is_string (h.length / 8) fuel (p % 8) (p / 8)
        = .ok r := by
  intro d
  induction d with
  | zero =>
    intro fuel p hfuel hp _ hfree
    obtain ⟨fuel, rfl⟩ : ∃ k, fuel = k + 1 := ⟨fuel - 1, by omega⟩
    have e0 : (p + 0) % h.length = p := Nat.mod_eq_of_lt hp
    rw [e0] at hfree
    rw [get_position_loop_step mem h key key_size is_string fuel p hs hd hp, if_pos hfree]
    exact ⟨_, rfl⟩
  | succ d ih =>
    intro fuel p hfuel hp hocc hfree
    obtain ⟨fuel, rfl⟩ : ∃ k, fuel = k + 1 := ⟨fuel - 1, by omega⟩
    have h0 := hocc 0 (by omega)
    have e0 : (p + 0) % h.length = p := Nat.mod_eq_of_lt hp
    rw [e0] at h0
    rw [get_position_loop_step mem h key key_size is_string fuel p hs hd hp,
      if_neg (by rw [h0]; simp)]
    by_cases hm : tombstoned h p = false
        ∧ keycmp mem key (h.data.getD p default).key key_size is_string = 0
    · rw [if_pos hm]
      exact ⟨_, rfl⟩
    · rw [if_neg hm]
      have e1 : ∀ e, ((p + 1) % h.length + e) % h.length = (p + (e + 1)) % h.length := by
        intro e
        rw [Nat.mod_add_mod]
        congr 1
        omega
      exact ih fuel ((p + 1) % h.length) (by omega) (hs.mod_lt _)
        (fun e he => by rw [e1]; exact hocc (e + 1) (by omega))
        (by rw [e1]; exact hfree)

/-- In a table that has a slot that is not Occupied, `get_position` returns for
every key that can be hashed. -/
theorem get_position_total (mem : Nat → List Nat) (h : Hashmap) (key : List Nat)
    (key_size : Nat) (is_string : Bool) (hs : Shape h) (hd : h.data.length = h.length)
    (f : Nat) (hf : f < h.length) (hfree : occupied h f = false) (hash : Nat)
    (hhash : key_hash key key_size is_string = .ok hash) :
    ∃ index, bfutils_hashmap_get_position mem (some h) key key_size is_string = .ok index := by
  have hhome : hash % h.length < h.length := hs.mod_lt _
  obtain ⟨d, hdlt, hdfree, hdocc⟩ := first_free h _ f hhome hf hfree
  obtain ⟨r, hr⟩ := get_position_loop_total mem h key key_size is_string hs hd d
    (h.length + 9) (hash % h.length) (by omega) hhome hdocc hdfree
  refine ⟨r, ?_⟩
  unfold bfutils_hashmap_get_position
  have hl0 : ¬ bfutils_hashmap_length (some h) = 0 := by
    have := hs.1
    simp only [bfutils_hashmap_length]
    omega
  rw [hhash]
  simp only [if_neg hl0]
  exact hr

/-! ## The lookup walk and the specification -/

theorem take_length_takeWhile (p : Nat → Bool) (l : List Nat) :
    l.take (l.takeWhile p).length = l.takeWhile p := by
  induction l with
  | nil => rfl
  | cons a t ih =>
    by_cases h : p a = true
    · simp [List.takeWhile_cons, h, ih]
    · simp [List.takeWhile_cons, h]

/-- The hash that `get_position` and `insert_position` compute first is the
hash of the specification over the effective key bytes. -/
theorem key_hash_eq_spec_hash (k : List Nat) (key_size : Nat) (is_string : Bool)
    (hterm : is_string = true → 0 ∈ k) :
    key_hash k key_size is_string = .ok (spec_hash k key_size is_string) := by
  cases is_string with
  | false => exact key_hash_binary k key_size
  | true =>
    unfold key_hash strlen spec_hash effective_key bfutils_hashmap_function
    simp only [if_true, if_pos (hterm rfl)]
    unfold cstr
    rw [take_length_takeWhile]

/-- The comparison of `get_position` is 0 exactly for keys that are equal in the
words of the specification: in binary mode for keys of `key_size` bytes, in text
mode for every probe string and stored pointer. -/
theorem keycmp_eq_zero_iff_spec (mem : Nat → List Nat) (k stored : List Nat) (key_size : Nat)
    (is_string : Bool)
    (hbin : is_string = false → k.length = key_size ∧ stored.length = key_size) :
    keycmp mem k stored key_size is_string = 0 ↔ spec_key_equal mem is_string k stored := by
  cases is_string with
  | false =>
    rw [keycmp_binary_eq_zero_iff mem k stored key_size (hbin rfl).1 (hbin rfl).2]
    unfold spec_key_equal
    simp only [Bool.false_eq_true, if_false]
    exact eq_comm
  | true =>
    unfold keycmp strcmp spec_key_equal
    simp only [if_true]
    rw [byte_diff_eq_zero_iff]
    exact eq_comm

/-- On a walk over Occupied slots that ends at a slot that is not Occupied, the
loop of `get_position` computes the walk of the specification. -/
theorem get_position_loop_refines (mem : Nat → List Nat) (h : Hashmap) (k : List Nat)
    (key_size : Nat) (is_string : Bool) (hs : Shape h) (hd : h.data.length = h.length)
    (hcmp : ∀ p, p < h.length → live h p = true →
      (keycmp mem k (h.data.getD p default).key key_size is_string = 0
        ↔ spec_key_equal mem is_string k (h.data.getD p default).key)) :
    ∀ (d fuel1 fuel2 p : Nat), d < fuel1 → d < fuel2 → p < h.length →
      (∀ e, e < d → occupied h ((p + e) % h.length) = true) →
      occupied h ((p + d) % h.length) = false →
      get_position_loop mem h k key_size is_string (h.length / 8) fuel1 (p % 8) (p / 8)
        = .ok (spec_get_position mem h k is_string fuel2 p) := by
  intro d
  induction d with
  | zero =>
    intro fuel1 fuel2 p hf1 hf2 hp _ hfree
    obtain ⟨fuel1, rfl⟩ : ∃ n, fuel1 = n + 1 := ⟨fuel1 - 1, by omega⟩
    obtain ⟨fuel2, rfl⟩ : ∃ n, fuel2 = n + 1 := ⟨fuel2 - 1, by omega⟩
    have e0 : (p + 0) % h.length = p := Nat.mod_eq_of_lt hp
    rw [e0] at hfree
    rw [get_position_loop_step mem h k key_size is_string fuel1 p hs hd hp, if_pos hfree,
      spec_get_position, if_pos hfree]
  | succ d ih =>
    intro fuel1 fuel2 p hf1 hf2 hp hocc hfree
    obtain ⟨fuel1, rfl⟩ : ∃ n, fuel1 = n + 1 := ⟨fuel1 - 1, by omega⟩
    obtain ⟨fuel2, rfl⟩ : ∃ n, fuel2 = n + 1 := ⟨fuel2 - 1, by omega⟩
    have h0 := hocc 0 (by omega)
    have e0 : (p + 0) % h.length = p := Nat.mod_eq_of_lt hp
    rw [e0] at h0
    have hn0 : ¬ occupied h p = false := by rw [h0]; simp
    rw [get_position_loop_step mem h k key_size is_string fuel1 p hs hd hp, if_neg hn0,
      spec_get_position, if_neg hn0]
    have hiff : (tombstoned h p = false
          ∧ keycmp mem k (h.data.getD p default).key key_size is_string = 0)
        ↔ (tombstoned h p = false
          ∧ spec_key_equal mem is_string k (h.data.getD p default).key) := by
      constructor
      · intro hc
        have hl : live h p = true := by
          unfold live
          rw [h0, hc.1]
          rfl
        exact ⟨hc.1, (hcmp p hp hl).1 hc.2⟩
      · intro hc
        have hl : live h p = true := by
          unfold live
          rw [h0, hc.1]
          rfl
        exact ⟨hc.1, (hcmp p hp hl).2 hc.2⟩
    by_cases hm : tombstoned h p = false
        ∧ spec_key_equal mem is_string k (h.data.getD p default).key
    · rw [if_pos (hiff.2 hm), if_pos hm]
    · rw [if_neg (fun hc => hm (hiff.1 hc)), if_neg hm]
      have e1 : ∀ e, ((p + 1) % h.length + e) % h.length = (p + (e + 1)) % h.length := by
        intro e
        rw [Nat.mod_add_mod]
        congr 1
        omega
      exact ih fuel1 fuel2 ((p + 1) % h.length) (by omega) (by omega) (hs.mod_lt _)
        (fun e he => by rw [e1]; exact hocc (e + 1) (by omega))
        (by rw [e1]; exact hfree)

/-- C17: for every table with allocated storage (in particular every length
from 32 on) and one record per slot that has at least one slot that is not
Occupied, and for a key `k` of either kind (a binary key of `key_size` bytes in
a table whose live records have keys of `key_size` bytes, or a text key with a
readable terminator), `get_position(k)` returns, and its result is the reference
walk of the specification from `hash(k) mod length`: the first slot that is
Occupied, not Tombstoned and holds a key equal to `k`, or `-1` when a slot that
is not Occupied comes first; tombstoned slots are passed.  The function only
reads the table. -/
theorem get_position_refines_spec (mem : Nat → List Nat) (h : Hashmap) (k : List Nat)
    (key_size : Nat) (is_string : Bool) (hs : Shape h) (hd : h.data.length = h.length)
    (hbin : is_string = false → KeysSized h key_size ∧ k.length = key_size)
    (hterm : is_string = true → 0 ∈ k)
    (hfree : ∃ f, f < h.length ∧ occupied h f = false) :
    bfutils_hashmap_get_position mem (some h) k key_size is_string
      = .ok (spec_get_position mem h k is_string h.length
          (spec_hash k key_size is_string % h.length)) := by
  obtain ⟨f, hf, hfo⟩ := hfree
  have hhome : spec_hash k key_size is_string % h.length < h.length := hs.mod_lt _
  obtain ⟨d, hdlt, hdfree, hdocc⟩ := first_free h _ f hhome hf hfo
  unfold bfutils_hashmap_get_position
  have hl0 : ¬ bfutils_hashmap_length (some h) = 0 := by
    have := hs.1
    simp only [bfutils_hashmap_length]
    omega
  rw [key_hash_eq_spec_hash k key_size is_string hterm]
  simp only [if_neg hl0]
  exact get_position_loop_refines mem h k key_size is_string hs hd
    (fun p hp hl => keycmp_eq_zero_iff_spec mem k _ key_size is_string
      (fun hb => ⟨(hbin hb).2, (hbin hb).1 p hp hl⟩))
    d (h.length + 9) h.length _ (by omega) hdlt hhome hdocc hdfree

set_option maxRecDepth 100000 in
/-- C17 (witness): the statement applied to `sample_table` and the binary key 3,
whose home bucket is the live slot 29, and to `text_table` and the text key
`"b"`, whose home bucket 2 is a tombstone: the walk passes it and the live slot
3 and ends with `-1` at slot 4. -/
theorem get_position_refines_spec_witness :
    (Shape sample_table ∧ sample_table.data.length = sample_table.length
      ∧ KeysSized sample_table 4 ∧ (key32 3).length = 4
      ∧ (∃ f, f < sample_table.length ∧ occupied sample_table f = false)
      ∧ spec_get_position no_mem sample_table (key32 3) false sample_table.length
          (spec_hash (key32 3) 4 false % sample_table.length) = 29
      ∧ bfutils_hashmap_get_position no_mem (some sample_table) (key32 3) 4 false
        = .ok (spec_get_position no_mem sample_table (key32 3) false sample_table.length
            (spec_hash (key32 3) 4 false % sample_table.length)))
    ∧ (Shape text_table ∧ text_table.data.length = text_table.length
      ∧ 0 ∈ [98, 0]
      ∧ (∃ f, f < text_table.length ∧ occupied text_table f = false)
      ∧ spec_hash [98, 0] 8 true % text_table.length = 2
      ∧ spec_get_position text_mem text_table [98, 0] true text_table.length
          (spec_hash [98, 0] 8 true % text_table.length) = -1
      ∧ bfutils_hashmap_get_position text_mem (some text_table) [98, 0] 8 true
        = .ok (spec_get_position text_mem text_table [98, 0] true text_table.length
            (spec_hash [98, 0] 8 true % text_table.length))) :=
  ⟨⟨by decide, by decide, by decide, by decide, ⟨0, by decide, by decide⟩, by decide,
    get_position_refines_spec no_mem sample_table (key32 3) 4 false (by decide) (by decide)
      (fun _ => ⟨by decide, by decide⟩) (fun hc => Bool.noConfusion hc)
      ⟨0, by decide, by decide⟩⟩,
   ⟨by decide, by decide, by decide, ⟨0, by decide, by decide⟩, by decide, by decide,
    get_position_refines_spec text_mem text_table [98, 0] 8 true (by decide) (by decide)
      (fun hc => Bool.noConfusion hc) (fun _ => by decide) ⟨0, by decide, by decide⟩⟩⟩

/-! ## Insertion at the first free slot -/

/-- When the walk from `p` passes only live slots and the record of the home
bucket does not compare equal, the loop of `insert_position` takes the first
slot that is not Occupied. -/
theorem insert_position_loop_clean_walk (mem : Nat → List Nat) (h : Hashmap) (key : List Nat)
    (key_size : Nat) (is_string : Bool) (index : Nat) (hs : Shape h)
    (hd : h.data.length = h.length) (hindex : index < h.length) :
    ∀ (d fuel p : Nat), d < fuel → p < h.length →
      (0 < d → keycmp mem key (h.data.getD index default).key key_size is_string ≠ 0) →
      (∀ e, e < d → occupied h ((p + e) % h.length) = true
        ∧ tombstoned h ((p + e) % h.length) = false) →
      occupied h ((p + d) % h.length) = false →
      insert_position_loop mem h key key_size is_string index (h.length / 8) fuel
          (p % 8) (p / 8) false 0
        = .ok (occupy h ((p + d) % h.length), (p + d) % h.length) := by
  intro d
  induction d with
  | zero =>
    intro fuel p hfuel hp _ _ hfree
    obtain ⟨fuel, rfl⟩ : ∃ k, fuel = k + 1 := ⟨fuel - 1, by omega⟩
    have e0 : (p + 0) % h.length = p := Nat.mod_eq_of_lt hp
    rw [e0] at hfree ⊢
    rw [insert_position_loop_step mem h key key_size is_string index fuel p false 0 hs hd hp
      hindex (by simp), if_pos hfree]
    simp
  | succ d ih =>
    intro fuel p hfuel hp hne0 hocc hfree
    have hne := hne0 (by omega)
    obtain ⟨fuel, rfl⟩ : ∃ k, fuel = k + 1 := ⟨fuel - 1, by omega⟩
    have h0 := hocc 0 (by omega)
    have e0 : (p + 0) % h.length = p := Nat.mod_eq_of_lt hp
    rw [e0] at h0
    rw [insert_position_loop_step mem h key key_size is_string index fuel p false 0 hs hd hp
      hindex (by simp), if_neg (by rw [h0.1]; simp), if_neg (by rw [h0.2]; simp),
      if_neg (fun hc => hne hc.1)]
    have e1 : ∀ e, ((p + 1) % h.length + e) % h.length = (p + (e + 1)) % h.length := by
      intro e
      rw [Nat.mod_add_mod]
      congr 1
      omega
    have := ih fuel ((p + 1) % h.length) (by omega) (hs.mod_lt _) (fun _ => hne)
      (fun e he => by rw [e1]; exact hocc (e + 1) (by omega))
      (by rw [e1]; exact hfree)
    rw [this, e1]

/-- C18: for every table with allocated storage (in particular every length
from 32 on) and one record per slot, and every key `k` that can be hashed,
with home bucket `hash(k) mod length`: when the slot `d` steps after the home
bucket is the first that is not Occupied, and every slot before it on the walk
is Occupied, not Tombstoned and holds a key that does not compare equal to `k`,
then `insert_position(k)` returns that slot, sets its Occupied bit and no other
bit, changes no Tombstoned bit and no record, raises `insert_count` by one and
makes no destructor call. -/
theorem insert_position_takes_first_free_slot (mem : Nat → List Nat) (h : Hashmap)
    (key : List Nat) (key_size : Nat) (is_string : Bool) (hash d : Nat)
    (hs : Shape h) (hd : h.data.length = h.length)
    (hhash : key_hash key key_size is_string = .ok hash)
    (hwalk : ∀ e, e < d →
      occupied h ((hash % h.length + e) % h.length) = true
      ∧ tombstoned h ((hash % h.length + e) % h.length) = false
      ∧ keycmp mem key (h.data.getD ((hash % h.length + e) % h.length) default).key
          key_size is_string ≠ 0)
    (hd_lt : d < h.length)
    (hfree : occupied h ((hash % h.length + d) % h.length) = false) :
    ∃ h1, bfutils_hashmap_insert_position mem (some h) key key_size is_string
        = .ok (h1, (hash % h.length + d) % h.length)
      ∧ (∀ idx, occupied h1 idx
          = (occupied h idx || decide (idx = (hash % h.length + d) % h.length)))
      ∧ (∀ idx, tombstoned h1 idx = tombstoned h idx)
      ∧ h1.insert_count = h.insert_count + 1
      ∧ h1.freed = h.freed
      ∧ h1.data = h.data
      ∧ h1.length = h.length := by
  have hhome : hash % h.length < h.length := hs.mod_lt _
  have hne : 0 < d → keycmp mem key (h.data.getD (hash % h.length) default).key key_size
      is_string ≠ 0 := by
    intro hd0
    have := (hwalk 0 hd0).2.2
    rw [Nat.add_zero, Nat.mod_eq_of_lt hhome] at this
    exact this
  refine ⟨occupy h ((hash % h.length + d) % h.length), ?_, ?_, fun _ => rfl, rfl, rfl, rfl, rfl⟩
  · unfold bfutils_hashmap_insert_position
    have hl0 : ¬ bfutils_hashmap_length (some h) = 0 := by
      have := hs.1
      simp only [bfutils_hashmap_length]
      omega
    rw [hhash]
    simp only [if_neg hl0]
    exact insert_position_loop_clean_walk mem h key key_size is_string _ hs hd hhome d _ _
      (by omega) hhome hne (fun e he => ⟨(hwalk e he).1, (hwalk e he).2.1⟩) hfree
  · intro idx
    exact occupied_occupy h _ idx (hs.slots_lt (hs.mod_lt _))

set_option maxRecDepth 100000 in
/-- C18 (witness): the statement applied to `full_table` and key 49, whose home
bucket is 15: the walk passes the seventeen live slots 15..31, which hold the
keys 17..1, wraps around and takes slot 0. -/
theorem insert_position_takes_first_free_slot_witness :
    Shape full_table ∧ full_table.data.length = full_table.length
      ∧ key_hash (key32 49) 4 false = .ok (bfutils_hashmap_function (key32 49) 4)
      ∧ (∀ e, e < 17 →
          occupied full_table
            ((bfutils_hashmap_function (key32 49) 4 % full_table.length + e)
              % full_table.length) = true
          ∧ tombstoned full_table
            ((bfutils_hashmap_function (key32 49) 4 % full_table.length + e)
              % full_table.length) = false
          ∧ keycmp no_mem (key32 49) (full_table.data.getD
            ((bfutils_hashmap_function (key32 49) 4 % full_table.length + e)
              % full_table.length) default).key 4 false ≠ 0)
      ∧ occupied full_table
          ((bfutils_hashmap_function (key32 49) 4 % full_table.length + 17)
            % full_table.length) = false
      ∧ (bfutils_hashmap_function (key32 49) 4 % full_table.length + 17)
          % full_table.length = 0
      ∧ ∃ h1, bfutils_hashmap_insert_position no_mem (some full_table) (key32 49) 4 false
          = .ok (h1, (bfutils_hashmap_function (key32 49) 4 % full_table.length + 17)
              % full_table.length)
        ∧ (∀ idx, occupied h1 idx
            = (occupied full_table idx
                || decide (idx = (bfutils_hashmap_function (key32 49) 4 % full_table.length + 17)
                    % full_table.length)))
        ∧ (∀ idx, tombstoned h1 idx = tombstoned full_table idx)
        ∧ h1.insert_count = full_table.insert_count + 1
        ∧ h1.freed = full_table.freed
        ∧ h1.data = full_table.data
        ∧ h1.length = full_table.length :=
  ⟨by decide, by decide, by decide, by decide, by decide, by decide,
    insert_position_takes_first_free_slot no_mem full_table (key32 49) 4 false
      (bfutils_hashmap_function (key32 49) 4) 17 (by decide) (by decide) (by decide)
      (by decide) (by decide) (by decide)⟩

/-! ## The capacity chosen by `bfutils_hashmap_resize` -/

theorem sound_length (hm : Option Hashmap) (hsound : Sound hm)
    (h0 : bfutils_hashmap_length hm ≠ 0) :
    ∃ h, hm = some h ∧ WellFormed h ∧ 32 ≤ h.length := by
  cases hm with
  | none => exact absurd rfl h0
  | some h =>
    rcases hsound with hf | hw
    · exact absurd hf.1 h0
    · obtain ⟨n, _, hn5, hn⟩ := hw.2.1
      have h32 : 2 ^ 5 ≤ 2 ^ n := Nat.pow_le_pow_right (by norm_num) hn5
      exact ⟨h, rfl, hw, by rw [hn]; omega⟩

/-- C19: on every table in one of the states the library keeps (`NULL`, a
header without storage, or a well-formed table, whose length is a power of two
from 32 on) and whose live key fields can be hashed, `bfutils_hashmap_resize`
returns a table with this capacity: when `length == 0` or
`insert_count / length > 0.5` the new length is `max(32, 2 * length)`; else
when `length > 32` and `insert_count / length < 0.25` the new length is
`length / 2`; otherwise the table is returned as it is.  The grow and the
shrink condition never hold together. -/
theorem resize_chooses_capacity (mem : Nat → List Nat) (hm : Option Hashmap) (key_size : Nat)
    (is_string : Bool) (hsound : Sound hm)
    (hhash : ∀ h, hm = some h → KeysHashable h key_size is_string) :
    ∃ h1, bfutils_hashmap_resize mem hm key_size is_string = .ok (some h1)
      ∧ ((bfutils_hashmap_length hm = 0
            ∨ 2 * bfutils_hashmap_insert_count hm > bfutils_hashmap_length hm) →
          h1.length = max 32 (2 * bfutils_hashmap_length hm))
      ∧ (¬ (bfutils_hashmap_length hm = 0
            ∨ 2 * bfutils_hashmap_insert_count hm > bfutils_hashmap_length hm) →
          (bfutils_hashmap_length hm > 32
            ∧ 4 * bfutils_hashmap_insert_count hm < bfutils_hashmap_length hm) →
          h1.length = bfutils_hashmap_length hm / 2)
      ∧ (¬ (bfutils_hashmap_length hm = 0
            ∨ 2 * bfutils_hashmap_insert_count hm > bfutils_hashmap_length hm) →
          ¬ (bfutils_hashmap_length hm > 32
            ∧ 4 * bfutils_hashmap_insert_count hm < bfutils_hashmap_length hm) →
          hm = some h1)
      ∧ ¬ ((bfutils_hashmap_length hm = 0
            ∨ 2 * bfutils_hashmap_insert_count hm > bfutils_hashmap_length hm)
          ∧ (bfutils_hashmap_length hm > 32
            ∧ 4 * bfutils_hashmap_insert_count hm < bfutils_hashmap_length hm)) := by
  obtain ⟨h1, hrun, _, hlen, _, _, hsame⟩ := resize_total mem hm key_size is_string hsound hhash
  refine ⟨h1, hrun, ?_, ?_, ?_, ?_⟩
  · intro hg
    by_cases h0 : bfutils_hashmap_length hm = 0
    · rw [if_pos h0] at hlen
      rw [hlen, h0]
      rfl
    · have hg1 : 2 * bfutils_hashmap_insert_count hm > bfutils_hashmap_length hm := by
        rcases hg with hg | hg
        · exact absurd hg h0
        · exact hg
      rw [if_neg h0, if_pos hg1] at hlen
      obtain ⟨h, rfl, _, h32⟩ := sound_length hm hsound h0
      simp only [bfutils_hashmap_length] at hlen h32 ⊢
      rw [hlen]
      omega
  · intro hng hsh
    have h0 : ¬ bfutils_hashmap_length hm = 0 := fun hc => hng (Or.inl hc)
    have hg1 : ¬ 2 * bfutils_hashmap_insert_count hm > bfutils_hashmap_length hm :=
      fun hc => hng (Or.inr hc)
    rw [if_neg h0, if_neg hg1, if_pos hsh] at hlen
    exact hlen
  · intro hng hnsh
    apply hsame
    intro hc
    rcases hc with hc | hc | hc
    · exact hng (Or.inl hc)
    · exact hng (Or.inr hc)
    · exact hnsh hc
  · intro hc
    obtain ⟨hg, hsh⟩ := hc
    rcases hg with hg | hg
    · omega
    · omega

set_option maxRecDepth 100000 in
/-- C19 (witness): the statement applied to `full_table` (length 32,
`insert_count` 17), which grows to 64 slots. -/
theorem resize_chooses_capacity_witness :
    Sound (some full_table) ∧ (∀ h, some full_table = some h → KeysHashable h 4 false)
      ∧ ∃ h1, bfutils_hashmap_resize no_mem (some full_table) 4 false = .ok (some h1)
        ∧ ((bfutils_hashmap_length (some full_table) = 0
              ∨ 2 * bfutils_hashmap_insert_count (some full_table)
                  > bfutils_hashmap_length (some full_table)) →
            h1.length = max 32 (2 * bfutils_hashmap_length (some full_table)))
        ∧ (¬ (bfutils_hashmap_length (some full_table) = 0
              ∨ 2 * bfutils_hashmap_insert_count (some full_table)
                  > bfutils_hashmap_length (some full_table)) →
            (bfutils_hashmap_length (some full_table) > 32
              ∧ 4 * bfutils_hashmap_insert_count (some full_table)
                  < bfutils_hashmap_length (some full_table)) →
            h1.length = bfutils_hashmap_length (some full_table) / 2)
        ∧ (¬ (bfutils_hashmap_length (some full_table) = 0
              ∨ 2 * bfutils_hashmap_insert_count (some full_table)
                  > bfutils_hashmap_length (some full_table)) →
            ¬ (bfutils_hashmap_length (some full_table) > 32
              ∧ 4 * bfutils_hashmap_insert_count (some full_table)
                  < bfutils_hashmap_length (some full_table)) →
            some full_table = some h1)
        ∧ ¬ ((bfutils_hashmap_length (some full_table) = 0
              ∨ 2 * bfutils_hashmap_insert_count (some full_table)
                  > bfutils_hashmap_length (some full_table))
            ∧ (bfutils_hashmap_length (some full_table) > 32
              ∧ 4 * bfutils_hashmap_insert_count (some full_table)
                  < bfutils_hashmap_length (some full_table))) :=
  ⟨Or.inr (by decide), fun h _ => keys_hashable_binary h 4,
    resize_chooses_capacity no_mem (some full_table) 4 false (Or.inr (by decide))
      (fun h _ => keys_hashable_binary h 4)⟩

/-! ## The load factor after an operation -/

/-- After the resize at the start of an operation on a table with binary keys
the load factor is at most 0.5. -/
theorem resize_load_bound (mem : Nat → List Nat) (hm : Option Hashmap) (key_size : Nat)
    (hsound : Sound hm) :
    ∃ h1, bfutils_hashmap_resize mem hm key_size false = .ok (some h1)
      ∧ WellFormed h1 ∧ 2 * h1.insert_count ≤ h1.length := by
  obtain ⟨h1, hrun, hw1, hlen, hcnt, _, hsame⟩ := resize_total mem hm key_size false hsound
    (fun h _ => keys_hashable_binary h key_size)
  refine ⟨h1, hrun, hw1, ?_⟩
  by_cases h0 : bfutils_hashmap_length hm = 0
  · rw [if_pos h0] at hlen
    have hc0 : bfutils_hashmap_insert_count hm = 0 := by
      cases hm with
      | none => rfl
      | some h =>
        rcases hsound with hf | hw
        · exact hf.2.1
        · have := hw.shape.1
          simp only [bfutils_hashmap_length] at h0
          omega
    omega
  · obtain ⟨h, rfl, hw, h32⟩ := sound_length hm hsound h0
    have hle := live_positions_length_le h
    have hc := hw.2.2.2.2
    obtain ⟨n, _, _, hn⟩ := hw.2.1
    simp only [bfutils_hashmap_length, bfutils_hashmap_insert_count] at hlen hcnt h0 hsame
    rw [if_neg h0] at hlen
    by_cases hg : 2 * h.insert_count > h.length
    · rw [if_pos hg] at hlen
      omega
    · rw [if_neg hg] at hlen
      by_cases hsh : h.length > 32 ∧ 4 * h.insert_count < h.length
      · rw [if_pos hsh] at hlen
        omega
      · rw [if_neg hsh] at hlen
        omega

/-- C12 (amended): the load check of a push runs before the insertion, so
immediately after every push on a reachable table returns,
`2 * insert_count <= length + 2`, that is `insert_count <= length / 2 + 1`.
Concretely, after the pushes (1,10), ..., (17,170) on an empty table the length
is 32, `insert_count` is 17 and every `get(i)` is `10 * i`. -/
theorem push_load_bound (mem : Nat → List Nat) (key_size : Nat) (hm hm1 : Option Hashmap)
    (k : List Nat) (v : Nat) (hr : Reachable mem key_size hm)
    (hrun : bfutils_hashmap_push mem key_size hm k v = .ok hm1) :
    2 * bfutils_hashmap_insert_count hm1 ≤ bfutils_hashmap_length hm1 + 2
      ∧ ∃ h : Hashmap, run no_mem 4 none (pushes_upto 17) = .ok (some h)
        ∧ h.length = 32 ∧ h.insert_count = 17
        ∧ ∀ i, i < 17 → bfutils_hashmap_get no_mem 4 (some h) (key32 (i + 1))
            = .ok (10 * (i + 1)) := by
  constructor
  · obtain ⟨h2, hres, hw2, hload⟩ := resize_load_bound mem hm key_size
      (reachable_sound mem key_size hm hr)
    unfold bfutils_hashmap_push at hrun
    rw [hres] at hrun
    simp only at hrun
    cases hi : bfutils_hashmap_insert_position mem (some h2) k key_size false with
    | error e => simp [hi] at hrun
    | ok res =>
      obtain ⟨h3, pos⟩ := res
      simp only [hi, Except.ok.injEq] at hrun
      subst hrun
      obtain ⟨_, hc⟩ := insert_position_cases mem h2 k key_size false hw2.shape hw2.2.2.1
        h3 pos hi
      simp only [bfutils_hashmap_insert_count, bfutils_hashmap_length]
      rcases hc with ⟨_, rfl⟩ | ⟨_, r1, _, _, _, rfl⟩ | ⟨_, _, rfl⟩
      · show 2 * (h2.insert_count + 1) ≤ h2.length + 2
        omega
      · show 2 * (h2.insert_count + 1) ≤ h2.length + 2
        omega
      · rw [call_free_insert_count, call_free_length]
        omega
  · refine ⟨_, rfl, ?_, ?_, ?_⟩ <;> decide

set_option maxRecDepth 100000 in
/-- C12 (witness): the amended statement applied to the first push on the empty
table `NULL`. -/
theorem push_load_bound_witness :
    Reachable no_mem 4 none
      ∧ ∃ hm1, bfutils_hashmap_push no_mem 4 none (key32 1) 10 = .ok hm1
        ∧ 2 * bfutils_hashmap_insert_count hm1 ≤ bfutils_hashmap_length hm1 + 2 :=
  ⟨⟨none, [], Or.inl rfl, rfl⟩, _, rfl,
    (push_load_bound no_mem 4 none _ (key32 1) 10 ⟨none, [], Or.inl rfl, rfl⟩ rfl).1⟩

/-- On a table with storage, `remove_key` returns whenever `get_position`
does, and keeps the length. -/
theorem remove_key_total (mem : Nat → List Nat) (h : Hashmap) (key : List Nat)
    (key_size : Nat) (is_string : Bool) (hs : Shape h) (hd : h.data.length = h.length)
    (index : Int)
    (hg : bfutils_hashmap_get_position mem (some h) key key_size is_string = .ok index) :
    ∃ h1, bfutils_hashmap_remove_key mem (some h) key key_size is_string
        = .ok (some h1, index)
      ∧ h1.length = h.length := by
  unfold bfutils_hashmap_remove_key
  simp only [hg]
  by_cases hpos : index > 0
  · rcases get_position_cases mem h key key_size is_string hs hd index hg with hc | ⟨q, hq, hiq, _, _⟩
    · omega
    · subst hiq
      simp only [hpos, if_true, Int.toNat_ofNat, rd_of_lt _ _ (hs.removed_lt hq)]
      exact ⟨_, rfl, rfl⟩
  · simp only [hpos, if_false]
    exact ⟨h, rfl, rfl⟩

/-- C13 (amended): the shrink is done by the resize at the start of the next
operation.  On a reachable table with `length > 32` and
`insert_count / length < 0.25`, every push and every remove returns, with half
that length. -/
theorem shrink_at_next_operation (mem : Nat → List Nat) (key_size : Nat) (h : Hashmap)
    (hr : Reachable mem key_size (some h)) (hlen : 32 < h.length)
    (hload : 4 * h.insert_count < h.length) :
    (∀ k v, ∃ hm1, bfutils_hashmap_push mem key_size (some h) k v = .ok hm1
        ∧ bfutils_hashmap_length hm1 = h.length / 2)
      ∧ (∀ k, ∃ hm1 v, bfutils_hashmap_remove mem key_size (some h) k = .ok (hm1, v)
        ∧ bfutils_hashmap_length hm1 = h.length / 2) := by
  have hsound := reachable_sound mem key_size (some h) hr
  obtain ⟨h2, hres, hw2, hlen2, hcnt2, hnt2, _⟩ := resize_total mem (some h) key_size false hsound
    (fun h _ => keys_hashable_binary h key_size)
  simp only [bfutils_hashmap_length, bfutils_hashmap_insert_count] at hlen2 hcnt2 hnt2
  have h0 : ¬ h.length = 0 := by omega
  have hg : ¬ 2 * h.insert_count > h.length := by omega
  rw [if_neg h0, if_neg hg, if_pos ⟨hlen, hload⟩] at hlen2
  have hnt := hnt2 (Or.inr (Or.inr ⟨hlen, hload⟩))
  have hlt : (live_positions h2).length < h2.length := by
    rw [← hw2.2.2.2.2, hlen2]
    omega
  obtain ⟨f, hf, hflive⟩ := exists_not_live h2 hlt
  rw [live_of_no_tomb h2 hnt] at hflive
  constructor
  · intro k v
    obtain ⟨h3, pos, hi, _, hc⟩ := insert_position_total mem h2 k key_size false hw2.shape
      hw2.2.2.1 hnt f hf hflive _ (key_hash_binary k key_size)
    refine ⟨some (store h3 pos ⟨k, v⟩), ?_, ?_⟩
    · unfold bfutils_hashmap_push
      rw [hres]
      simp only [hi]
      rfl
    · show h3.length = h.length / 2
      rcases hc with ⟨_, rfl⟩ | ⟨_, rfl⟩
      · exact hlen2
      · rw [call_free_length]
        exact hlen2
  · intro k
    obtain ⟨index, hgp⟩ := get_position_total mem h2 k key_size false hw2.shape hw2.2.2.1 f hf
      hflive _ (key_hash_binary k key_size)
    obtain ⟨h3, hrk, hl3⟩ := remove_key_total mem h2 k key_size false hw2.shape hw2.2.2.1
      index hgp
    refine ⟨some h3, value_at (some h3) index, ?_, ?_⟩
    · unfold bfutils_hashmap_remove
      rw [hres]
      simp only [hrk]
    · show h3.length = h.length / 2
      rw [hl3]
      exact hlen2

set_option maxRecDepth 100000 in
/-- C13 (witness): the amended statement applied to `sparse_table` (length 64,
`insert_count` 15), which the pushes of the keys 1..18 and the removals of the
keys 1..3 reach. -/
theorem shrink_at_next_operation_witness :
    Reachable no_mem 4 (some sparse_table) ∧ 32 < sparse_table.length
      ∧ 4 * sparse_table.insert_count < sparse_table.length
      ∧ (∀ k v, ∃ hm1, bfutils_hashmap_push no_mem 4 (some sparse_table) k v = .ok hm1
          ∧ bfutils_hashmap_length hm1 = sparse_table.length / 2)
      ∧ (∀ k, ∃ hm1 v, bfutils_hashmap_remove no_mem 4 (some sparse_table) k = .ok (hm1, v)
          ∧ bfutils_hashmap_length hm1 = sparse_table.length / 2) :=
  ⟨⟨none, pushes_upto 18 ++ removes_upto 3, Or.inl rfl, by decide⟩, by decide, by decide,
    shrink_at_next_operation no_mem 4 sparse_table
      ⟨none, pushes_upto 18 ++ removes_upto 3, Or.inl rfl, by decide⟩ (by decide) (by decide)⟩

/-! ## The length of a reachable table -/

/-- A client program keeps a well-formed table well formed. -/
theorem run_well_formed (mem : Nat → List Nat) (key_size : Nat) :
    ∀ (ops : List Op) (h : Hashmap) (hm1 : Option Hashmap), WellFormed h →
      run mem key_size (some h) ops = .ok hm1 → ∃ h1, hm1 = some h1 ∧ WellFormed h1 := by
  intro ops
  induction ops with
  | nil =>
    intro h hm1 hw hrun
    rw [run] at hrun
    cases hrun
    exact ⟨h, rfl, hw⟩
  | cons op rest ih =>
    intro h hm1 hw hrun
    cases op with
    | push k v =>
      rw [run] at hrun
      cases hp : bfutils_hashmap_push mem key_size (some h) k v with
      | error e => simp [hp] at hrun
      | ok hm2 =>
        simp only [hp] at hrun
        obtain ⟨h2, rfl, hw2⟩ := push_sound mem key_size (some h) hm2 k v
          (sound_of_well_formed hw) hp
        exact ih h2 hm1 hw2 hrun
    | remove k =>
      rw [run] at hrun
      cases hp : bfutils_hashmap_remove mem key_size (some h) k with
      | error e => simp [hp] at hrun
      | ok res =>
        obtain ⟨hm2, v⟩ := res
        simp only [hp] at hrun
        obtain ⟨h2, rfl, hw2⟩ := remove_sound mem key_size (some h) hm2 k v
          (sound_of_well_formed hw) hp
        exact ih h2 hm1 hw2 hrun

/-- A client program of at least one operation on an empty table leaves a
well-formed table. -/
theorem run_nonempty_well_formed (mem : Nat → List Nat) (key_size : Nat)
    (start hm : Option Hashmap) (ops : List Op) (hstart : Sound start) (hne : ops ≠ [])
    (hrun : run mem key_size start ops = .ok hm) : ∃ h, hm = some h ∧ WellFormed h := by
  cases ops with
  | nil => exact absurd rfl hne
  | cons op rest =>
    cases op with
    | push k v =>
      rw [run] at hrun
      cases hp : bfutils_hashmap_push mem key_size start k v with
      | error e => simp [hp] at hrun
      | ok hm2 =>
        simp only [hp] at hrun
        obtain ⟨h2, rfl, hw2⟩ := push_sound mem key_size start hm2 k v hstart hp
        exact run_well_formed mem key_size rest h2 hm hw2 hrun
    | remove k =>
      rw [run] at hrun
      cases hp : bfutils_hashmap_remove mem key_size start k with
      | error e => simp [hp] at hrun
      | ok res =>
        obtain ⟨hm2, v⟩ := res
        simp only [hp] at hrun
        obtain ⟨h2, rfl, hw2⟩ := remove_sound mem key_size start hm2 k v hstart hp
        exact run_well_formed mem key_size rest h2 hm hw2 hrun

/-- C20: in the table state a client reaches from an empty table (`NULL` or the
result of the constructor) by pushes and removes of either key kind, the length
is 0, and then no storage has been allocated, or it is a power of two from 32
on; once the first push or remove has been made it is a power of two from 32 on,
never 0 again. -/
theorem length_zero_or_power_of_two (mem : Nat → List Nat) (key_size : Nat)
    (start hm : Option Hashmap) (calls : List Call)
    (hstart : start = none ∨ start = bfutils_hashmap_with_free false
      ∨ start = bfutils_hashmap_with_free true)
    (hrun : run_calls mem key_size start calls = .ok hm) :
    ((bfutils_hashmap_length hm = 0 ∧ bfutils_hashmap_slots hm = []
        ∧ bfutils_hashmap_removed hm = [] ∧ data_of hm = [])
      ∨ ∃ n, 5 ≤ n ∧ bfutils_hashmap_length hm = 2 ^ n)
      ∧ (calls ≠ [] → ∃ n, 5 ≤ n ∧ bfutils_hashmap_length hm = 2 ^ n) := by
  have hsound : Sound start := by
    rcases hstart with rfl | rfl | rfl
    · trivial
    · exact Or.inl ⟨rfl, rfl, rfl, rfl, rfl⟩
    · exact Or.inl ⟨rfl, rfl, rfl, rfl, rfl⟩
  have hpow : calls ≠ [] → ∃ n, 5 ≤ n ∧ bfutils_hashmap_length hm = 2 ^ n := by
    intro hne
    obtain ⟨h, rfl, hw⟩ :=
      run_calls_nonempty_well_formed mem key_size start hm calls hsound hne hrun
    obtain ⟨n, _, hn5, hn⟩ := hw.2.1
    exact ⟨n, hn5, hn⟩
  refine ⟨?_, hpow⟩
  by_cases hne : calls = []
  · subst hne
    rw [run_calls] at hrun
    cases hrun
    rcases hstart with rfl | rfl | rfl
    · exact Or.inl ⟨rfl, rfl, rfl, rfl⟩
    · exact Or.inl ⟨rfl, rfl, rfl, rfl⟩
    · exact Or.inl ⟨rfl, rfl, rfl, rfl⟩
  · exact Or.inr (hpow hne)

set_option maxRecDepth 100000 in
/-- C20 (witness): the statement applied to the client program `text_calls` on
text keys, which reaches `text_table`, and to the binary client program
`sample_ops`, which reaches `sample_table`; both have the length 32. -/
theorem length_zero_or_power_of_two_witness :
    (run_calls text_mem 8 (bfutils_hashmap_with_free true) text_calls = .ok (some text_table)
      ∧ ((bfutils_hashmap_length (some text_table) = 0
            ∧ bfutils_hashmap_slots (some text_table) = []
            ∧ bfutils_hashmap_removed (some text_table) = []
            ∧ data_of (some text_table) = [])
          ∨ ∃ n, 5 ≤ n ∧ bfutils_hashmap_length (some text_table) = 2 ^ n)
      ∧ (text_calls ≠ [] → ∃ n, 5 ≤ n ∧ bfutils_hashmap_length (some text_table) = 2 ^ n))
    ∧ (run_calls no_mem 4 (bfutils_hashmap_with_free true) (sample_ops.map Op.toCall)
          = .ok (some sample_table)
      ∧ ((bfutils_hashmap_length (some sample_table) = 0
            ∧ bfutils_hashmap_slots (some sample_table) = []
            ∧ bfutils_hashmap_removed (some sample_table) = []
            ∧ data_of (some sample_table) = [])
          ∨ ∃ n, 5 ≤ n ∧ bfutils_hashmap_length (some sample_table) = 2 ^ n)
      ∧ (sample_ops.map Op.toCall ≠ [] →
          ∃ n, 5 ≤ n ∧ bfutils_hashmap_length (some sample_table) = 2 ^ n)) :=
  ⟨⟨by decide,
      length_zero_or_power_of_two text_mem 8 (bfutils_hashmap_with_free true) (some text_table)
        text_calls (Or.inr (Or.inr rfl)) (by decide)⟩,
    ⟨by decide,
      length_zero_or_power_of_two no_mem 4 (bfutils_hashmap_with_free true) (some sample_table)
        (sample_ops.map Op.toCall) (Or.inr (Or.inr rfl)) (by decide)⟩⟩

/-! ## The path from the home bucket to a record -/

/-- Whatever the loop of `insert_position` returns, the returned position is
reached from the start of the walk over Occupied slots. -/
theorem insert_position_loop_path (mem : Nat → List Nat) (h : Hashmap) (key : List Nat)
    (key_size : Nat) (is_string : Bool) (index : Nat) (hs : Shape h)
    (hd : h.data.length = h.length) (hindex : index < h.length) :
    ∀ (fuel p : Nat) (found : Bool) (r : Nat) (h1 : Hashmap) (pos : Nat),
      p < h.length → (found = true → r < h.length) →
      insert_position_loop mem h key key_size is_string index (h.length / 8) fuel
        (p % 8) (p / 8) found r = .ok (h1, pos) →
      ∃ d, pos = (p + d) % h.length
        ∧ ∀ e, e < d → occupied h ((p + e) % h.length) = true := by
  intro fuel
  induction fuel with
  | zero =>
    intro p found r h1 pos _ _ hrun
    rw [insert_position_loop] at hrun
    cases hrun
  | succ fuel ih =>
    intro p found r h1 pos hp hr hrun
    rw [insert_position_loop_step mem h key key_size is_string index fuel p found r hs hd hp
      hindex hr] at hrun
    have e0 : (p + 0) % h.length = p := Nat.mod_eq_of_lt hp
    have hstop : p = pos → ∃ d, pos = (p + d) % h.length
        ∧ ∀ e, e < d → occupied h ((p + e) % h.length) = true := by
      intro e
      refine ⟨0, ?_, fun e he => absurd he (Nat.not_lt_zero e)⟩
      rw [e0]
      exact e.symm
    by_cases hocc : occupied h p = false
    · rw [if_pos hocc] at hrun
      by_cases hf : found = true
      · rw [if_pos hf] at hrun
        simp only [Except.ok.injEq, Prod.mk.injEq] at hrun
        exact hstop hrun.2
      · rw [if_neg hf] at hrun
        simp only [Except.ok.injEq, Prod.mk.injEq] at hrun
        exact hstop hrun.2
    · rw [if_neg hocc] at hrun
      have hocc1 : occupied h p = true := by simpa using hocc
      by_cases ht : tombstoned h p = true ∧ found = false
      · rw [if_pos ht] at hrun
        exact ih p true p h1 pos hp (fun _ => hp) hrun
      · rw [if_neg ht] at hrun
        by_cases hm : keycmp mem key (h.data.getD index default).key key_size is_string = 0
            ∧ tombstoned h p = false
        · rw [if_pos hm] at hrun
          simp only [Except.ok.injEq, Prod.mk.injEq] at hrun
          exact hstop hrun.2
        · rw [if_neg hm] at hrun
          obtain ⟨d, hd1, hd2⟩ := ih ((p + 1) % h.length) found r h1 pos (hs.mod_lt _) hr hrun
          refine ⟨d + 1, ?_, ?_⟩
          · rw [hd1, Nat.mod_add_mod]
            have e2 : p + 1 + d = p + (d + 1) := by omega
            rw [e2]
          · intro e he
            cases e with
            | zero =>
              rw [e0]
              exact hocc1
            | succ e =>
              have h3 := hd2 e (by omega)
              rw [Nat.mod_add_mod] at h3
              have e2 : p + (e + 1) = p + 1 + e := by omega
              rw [e2]
              exact h3

/-- The position `bfutils_hashmap_insert_position` returns for a binary key is
reached from the home bucket of the key over Occupied slots. -/
theorem insert_position_path (mem : Nat → List Nat) (h : Hashmap) (key : List Nat)
    (key_size : Nat) (hs : Shape h) (hd : h.data.length = h.length) (h1 : Hashmap) (pos : Nat)
    (hrun : bfutils_hashmap_insert_position mem (some h) key key_size false = .ok (h1, pos)) :
    ∃ d, pos = (bfutils_hashmap_function key key_size % h.length + d) % h.length
      ∧ ∀ e, e < d →
        occupied h ((bfutils_hashmap_function key key_size % h.length + e) % h.length)
          = true := by
  unfold bfutils_hashmap_insert_position at hrun
  have hne : ¬ bfutils_hashmap_length (some h) = 0 := by
    have := hs.1
    simp only [bfutils_hashmap_length]
    omega
  simp only [key_hash_binary, if_neg hne] at hrun
  have hidx : bfutils_hashmap_function key key_size % h.length < h.length := hs.mod_lt _
  exact insert_position_loop_path mem h key key_size false _ hs hd hidx _ _ false 0 h1 pos hidx
    (fun hc => Bool.noConfusion hc) hrun

/-- A walk of any number of steps that ends at a slot is a walk of fewer than
`L` steps to that slot. -/
theorem path_normalize (P : Nat → Bool) (L a pos : Nat) (hL : 0 < L)
    (hpath : ∃ d, pos = (a + d) % L ∧ ∀ e, e < d → P ((a + e) % L) = true)
    (hpos : P pos = true) :
    ∃ d, d < L ∧ pos = (a + d) % L ∧ ∀ e, e ≤ d → P ((a + e) % L) = true := by
  obtain ⟨d, h1, h2⟩ := hpath
  refine ⟨d % L, Nat.mod_lt _ hL, ?_, ?_⟩
  · rw [h1, Nat.add_mod_mod]
  · intro e he
    by_cases hlt : e < d
    · exact h2 e hlt
    · have hle : d % L ≤ d := Nat.mod_le _ _
      have hed : e = d := by omega
      rw [hed, ← h1]
      exact hpos

/-- An update that sets no Occupied bit but possibly that of `pos`, clears
none, and changes no record of an Occupied slot other than `pos`, keeps every
record reachable from its home bucket when the record at `pos` is. -/
theorem pathed_update {h t : Hashmap} {key_size : Nat} (pos : Nat) (hp : Pathed h key_size)
    (hlen : t.length = h.length)
    (hmono : ∀ s, occupied h s = true → occupied t s = true)
    (hold : ∀ s, s < h.length → occupied t s = true → s ≠ pos →
      occupied h s = true ∧ t.data.getD s default = h.data.getD s default)
    (hnew : occupied t pos = true →
      ∃ d, d < t.length ∧ pos = (home_of t key_size pos + d) % t.length
        ∧ ∀ e, e ≤ d → occupied t ((home_of t key_size pos + e) % t.length) = true) :
    Pathed t key_size := by
  intro s hs hocc
  by_cases hsp : s = pos
  · subst hsp
    exact hnew hocc
  · rw [hlen] at hs
    obtain ⟨ho, hdat⟩ := hold s hs hocc hsp
    obtain ⟨d, hd, h1, h2⟩ := hp s hs ho
    have hh : home_of t key_size s = home_of h key_size s := by
      unfold home_of
      rw [hdat, hlen]
    rw [hh, hlen]
    exact ⟨d, hd, h1, fun e he => hmono _ (h2 e he)⟩

/-- The record written at the position `insert_position` returned for a key
with the same hash keeps every Occupied slot reachable from the home bucket of
its record. -/
theorem insert_position_pathed (mem : Nat → List Nat) (h : Hashmap) (key : List Nat)
    (key_size : Nat) (hw : WellFormed h) (hp : Pathed h key_size) (h1 : Hashmap) (pos : Nat)
    (rec : Record)
    (hkey : bfutils_hashmap_function rec.key key_size = bfutils_hashmap_function key key_size)
    (hrun : bfutils_hashmap_insert_position mem (some h) key key_size false = .ok (h1, pos)) :
    Pathed (store h1 pos rec) key_size := by
  have hs := hw.shape
  have hd := hw.2.2.1
  have hL : 0 < h.length := by
    have := hs.1
    omega
  have hpath := insert_position_path mem h key key_size hs hd h1 pos hrun
  obtain ⟨hpos, hc⟩ := insert_position_cases mem h key key_size false hs hd h1 pos hrun
  have hposd : pos < h.data.length := by
    rw [hd]
    exact hpos
  rcases hc with ⟨hocc, rfl⟩ | ⟨hocc, r1, hr1, ho, _, rfl⟩ | ⟨hocc, _, rfl⟩
  · -- a not-Occupied slot was taken
    have hoc : ∀ s, occupied (store (occupy h pos) pos rec) s
        = (occupied h s || decide (s = pos)) := fun s =>
      occupied_occupy h pos s (hs.slots_lt hpos)
    refine pathed_update pos hp rfl ?_ ?_ ?_
    · intro s ho
      rw [hoc, ho]
      rfl
    · intro s _ ho hne
      rw [hoc] at ho
      simp only [Bool.or_eq_true, decide_eq_true_eq] at ho
      refine ⟨ho.resolve_right hne, ?_⟩
      show (h.data.set pos rec).getD s default = h.data.getD s default
      rw [data_getD_set _ _ _ _ hposd, if_neg hne]
    · intro ho
      have hh : home_of (store (occupy h pos) pos rec) key_size pos
          = bfutils_hashmap_function key key_size % h.length := by
        unfold home_of
        show bfutils_hashmap_function ((h.data.set pos rec).getD pos default).key key_size
          % h.length = _
        rw [data_getD_set _ _ _ _ hposd, if_pos rfl, hkey]
      rw [hh]
      show ∃ d, d < h.length ∧ _
      obtain ⟨d, hd1, hd2⟩ := hpath
      exact path_normalize (occupied (store (occupy h pos) pos rec)) h.length _ pos hL
        ⟨d, hd1, fun e he => by rw [hoc, hd2 e he]; rfl⟩ ho
  · -- a tombstone was taken back and the record goes to a not-Occupied slot
    have hoc : ∀ s, occupied (store (revive h r1) pos rec) s
        = (occupied h s || decide (s = r1)) := fun s =>
      occupied_revive h r1 s (hs.slots_lt hr1)
    have hsame : ∀ s, occupied (store (revive h r1) pos rec) s = true → occupied h s = true := by
      intro s ho
      rw [hoc] at ho
      simp only [Bool.or_eq_true, decide_eq_true_eq] at ho
      rcases ho with ho | ho
      · exact ho
      · rw [ho]
        exact ho ▸ ‹occupied h r1 = true›
    refine pathed_update pos hp rfl ?_ ?_ ?_
    · intro s ho
      rw [hoc, ho]
      rfl
    · intro s _ ho hne
      refine ⟨hsame s ho, ?_⟩
      show (h.data.set pos rec).getD s default = h.data.getD s default
      rw [data_getD_set _ _ _ _ hposd, if_neg hne]
    · intro ho
      have := hsame pos ho
      rw [hocc] at this
      cases this
  · -- the walk stopped at a live slot
    have hoc : ∀ s, occupied (store (call_free h pos) pos rec) s = occupied h s := fun s =>
      occupied_call_free h pos s
    have hlen : (store (call_free h pos) pos rec).length = h.length := call_free_length h pos
    have hdat : (store (call_free h pos) pos rec).data = h.data.set pos rec := by
      show (call_free h pos).data.set pos rec = _
      rw [call_free_data]
    refine pathed_update pos hp hlen ?_ ?_ ?_
    · intro s ho
      rw [hoc, ho]
    · intro s _ ho hne
      rw [hoc] at ho
      refine ⟨ho, ?_⟩
      rw [hdat, data_getD_set _ _ _ _ hposd, if_neg hne]
    · intro ho
      have hh : home_of (store (call_free h pos) pos rec) key_size pos
          = bfutils_hashmap_function key key_size % h.length := by
        unfold home_of
        rw [hdat, hlen, data_getD_set _ _ _ _ hposd, if_pos rfl, hkey]
      rw [hh, hlen]
      obtain ⟨d, hd1, hd2⟩ := hpath
      exact path_normalize (occupied (store (call_free h pos) pos rec)) h.length _ pos hL
        ⟨d, hd1, fun e he => by rw [hoc, hd2 e he]⟩ ho

/-- A table whose Occupied bitset is zero has every record reachable, there
being none. -/
theorem pathed_of_zero_slots (h : Hashmap) (key_size n : Nat)
    (hsl : h.slots = List.replicate n 0) : Pathed h key_size := by
  intro s _ ho
  unfold occupied at ho
  rw [hsl, bit_set_replicate_zero] at ho
  cases ho

/-- Burying a slot changes neither the Occupied bits nor the records. -/
theorem pathed_bury {h : Hashmap} {key_size : Nat} (hp : Pathed h key_size) (p : Nat) :
    Pathed (bury h p) key_size := hp

/-- The re-insertion loop keeps every record of the new table reachable from
its home bucket. -/
theorem rehash_loop_pathed (mem : Nat → List Nat) (slots removed : List Nat)
    (old_data : List Record) (key_size : Nat) :
    ∀ (l : List Nat) (h0 h1 : Hashmap), WellFormed h0 → Pathed h0 key_size →
      rehash_loop mem slots removed old_data key_size false l h0 = .ok h1 →
      Pathed h1 key_size := by
  intro l
  induction l with
  | nil =>
    intro h0 h1 _ hp hrun
    rw [rehash_loop] at hrun
    cases hrun
    exact hp
  | cons idx rest ih =>
    intro h0 h1 hw hp hrun
    rw [rehash_loop] at hrun
    cases hsb : rd slots (idx / 8) with
    | error e => simp [hsb] at hrun
    | ok sb =>
      cases hrb : rd removed (idx / 8) with
      | error e => simp [hsb, hrb] at hrun
      | ok rb =>
        simp only [hsb, hrb] at hrun
        split at hrun
        · cases hod : old_data[idx]? with
          | none => simp [hod] at hrun
          | some source =>
            simp only [hod] at hrun
            cases hins : bfutils_hashmap_insert_position mem (some h0) source.key key_size
                false with
            | error e => simp [hins] at hrun
            | ok res =>
              obtain ⟨h2, pos⟩ := res
              simp only [hins] at hrun
              obtain ⟨hw2, _, _⟩ := insert_position_well_formed mem h0 source.key key_size
                false hw h2 pos hins
              exact ih (store h2 pos source) h1 (well_formed_store hw2 pos source)
                (insert_position_pathed mem h0 source.key key_size hw hp h2 pos source rfl hins)
                hrun
        · exact ih h0 h1 hw hp hrun

theorem rehash_into_pathed (mem : Nat → List Nat) (hm : Option Hashmap)
    (key_size : Nat) (n : Nat) (hn : 5 ≤ n) (hm1 : Option Hashmap)
    (hrun : rehash_into mem hm key_size false (2 ^ n) = .ok hm1) :
    ∃ h1, hm1 = some h1 ∧ WellFormed h1 ∧ Pathed h1 key_size := by
  obtain ⟨h1, e1, hw1, _⟩ := rehash_into_well_formed mem hm key_size false n hn hm1 hrun
  refine ⟨h1, e1, hw1, ?_⟩
  subst e1
  unfold rehash_into at hrun
  cases hl : rehash_loop mem (bfutils_hashmap_slots hm) (bfutils_hashmap_removed hm)
      (data_of hm) key_size false (List.range ((bfutils_hashmap_length hm / 8 + 1) * 8))
      (resize_header hm (2 ^ n)) with
  | error e => simp [hl] at hrun
  | ok h2 =>
    simp only [hl, Except.ok.injEq, Option.some.injEq] at hrun
    subst hrun
    exact rehash_loop_pathed mem _ _ _ key_size _ _ h2 (resize_header_well_formed hm n hn)
      (pathed_of_zero_slots _ key_size _ rfl) hl

/-- After `bfutils_hashmap_resize` on a table with binary keys the table is well
formed and every record is reachable from its home bucket. -/
theorem resize_tracked (mem : Nat → List Nat) (hm hm1 : Option Hashmap) (key_size : Nat)
    (ht : Tracked hm key_size)
    (hrun : bfutils_hashmap_resize mem hm key_size false = .ok hm1) :
    ∃ h1, hm1 = some h1 ∧ WellFormed h1 ∧ Pathed h1 key_size := by
  rw [resize_eq] at hrun
  by_cases h0 : bfutils_hashmap_length hm = 0
  · rw [if_pos h0] at hrun
    simp only [Except.ok.injEq] at hrun
    exact ⟨_, hrun.symm, resize_header_well_formed hm 5 (le_refl 5),
      pathed_of_zero_slots _ key_size _ rfl⟩
  · rw [if_neg h0] at hrun
    cases hm with
    | none => exact absurd rfl h0
    | some h =>
      have hwp : WellFormed h ∧ Pathed h key_size := by
        rcases ht with hf | hw
        · exact absurd hf.1 h0
        · exact hw
      obtain ⟨hw, hp⟩ := hwp
      obtain ⟨n, _, hn5, hn⟩ := hw.2.1
      simp only [bfutils_hashmap_length, bfutils_hashmap_insert_count] at hrun
      by_cases hg : 2 * h.insert_count > h.length
      · rw [if_pos hg] at hrun
        have e : h.length * 2 = 2 ^ (n + 1) := by rw [hn, pow_succ]
        rw [e] at hrun
        exact rehash_into_pathed mem (some h) key_size (n + 1) (by omega) hm1 hrun
      · rw [if_neg hg] at hrun
        by_cases hsh : h.length > 32 ∧ 4 * h.insert_count < h.length
        · rw [if_pos hsh] at hrun
          have hn6 : 6 ≤ n := by
            by_contra hc
            have : n = 5 := by omega
            rw [this] at hn
            have := hsh.1
            omega
          have e : h.length / 2 = 2 ^ (n - 1) := by
            have : n = (n - 1) + 1 := by omega
            rw [hn]
            conv_lhs => rw [this, pow_succ]
            omega
          rw [e] at hrun
          exact rehash_into_pathed mem (some h) key_size (n - 1) (by omega) hm1 hrun
        · rw [if_neg hsh] at hrun
          simp only [Except.ok.injEq] at hrun
          exact ⟨h, hrun.symm, hw, hp⟩

/-- A push keeps every record reachable from its home bucket. -/
theorem push_tracked (mem : Nat → List Nat) (key_size : Nat) (hm hm1 : Option Hashmap)
    (k : List Nat) (v : Nat) (ht : Tracked hm key_size)
    (hrun : bfutils_hashmap_push mem key_size hm k v = .ok hm1) :
    ∃ h1, hm1 = some h1 ∧ WellFormed h1 ∧ Pathed h1 key_size := by
  unfold bfutils_hashmap_push at hrun
  cases hr : bfutils_hashmap_resize mem hm key_size false with
  | error e => simp [hr] at hrun
  | ok hm2 =>
    obtain ⟨h2, rfl, hw2, hp2⟩ := resize_tracked mem hm hm2 key_size ht hr
    simp only [hr] at hrun
    cases hi : bfutils_hashmap_insert_position mem (some h2) k key_size false with
    | error e => simp [hi] at hrun
    | ok res =>
      obtain ⟨h3, pos⟩ := res
      simp only [hi, Except.ok.injEq] at hrun
      obtain ⟨hw3, _, _⟩ := insert_position_well_formed mem h2 k key_size false hw2 h3 pos hi
      exact ⟨_, hrun.symm, well_formed_store hw3 pos ⟨k, v⟩,
        insert_position_pathed mem h2 k key_size hw2 hp2 h3 pos ⟨k, v⟩ rfl hi⟩

/-- A remove keeps every record reachable from its home bucket. -/
theorem remove_tracked (mem : Nat → List Nat) (key_size : Nat) (hm hm1 : Option Hashmap)
    (k : List Nat) (v : Option Nat) (ht : Tracked hm key_size)
    (hrun : bfutils_hashmap_remove mem key_size hm k = .ok (hm1, v)) :
    ∃ h1, hm1 = some h1 ∧ WellFormed h1 ∧ Pathed h1 key_size := by
  unfold bfutils_hashmap_remove at hrun
  cases hr : bfutils_hashmap_resize mem hm key_size false with
  | error e => simp [hr] at hrun
  | ok hm2 =>
    obtain ⟨h2, rfl, hw2, hp2⟩ := resize_tracked mem hm hm2 key_size ht hr
    simp only [hr] at hrun
    cases hi : bfutils_hashmap_remove_key mem (some h2) k key_size false with
    | error e => simp [hi] at hrun
    | ok res =>
      obtain ⟨hm3, index⟩ := res
      simp only [hi, Except.ok.injEq, Prod.mk.injEq] at hrun
      obtain ⟨e1, _⟩ := hrun
      subst e1
      obtain ⟨_, hc⟩ := remove_key_cases mem h2 k key_size false hw2.shape hw2.2.2.1 hm3 index hi
      rcases hc with ⟨_, rfl⟩ | ⟨q, _, hq, _, hl, rfl⟩
      · exact ⟨h2, rfl, hw2, hp2⟩
      · exact ⟨_, rfl, well_formed_bury hw2 hq hl, pathed_bury hp2 q⟩

/-- A client program keeps every record reachable from its home bucket. -/
theorem run_tracked (mem : Nat → List Nat) (key_size : Nat) :
    ∀ (ops : List Op) (hm hm1 : Option Hashmap), Tracked hm key_size →
      run mem key_size hm ops = .ok hm1 → Tracked hm1 key_size := by
  intro ops
  induction ops with
  | nil =>
    intro hm hm1 ht hrun
    rw [run] at hrun
    cases hrun
    exact ht
  | cons op rest ih =>
    intro hm hm1 ht hrun
    cases op with
    | push k v =>
      rw [run] at hrun
      cases hp : bfutils_hashmap_push mem key_size hm k v with
      | error e => simp [hp] at hrun
      | ok hm2 =>
        simp only [hp] at hrun
        obtain ⟨h2, rfl, hw2, hp2⟩ := push_tracked mem key_size hm hm2 k v ht hp
        exact ih (some h2) hm1 (Or.inr ⟨hw2, hp2⟩) hrun
    | remove k =>
      rw [run] at hrun
      cases hp : bfutils_hashmap_remove mem key_size hm k with
      | error e => simp [hp] at hrun
      | ok res =>
        obtain ⟨hm2, v⟩ := res
        simp only [hp] at hrun
        obtain ⟨h2, rfl, hw2, hp2⟩ := remove_tracked mem key_size hm hm2 k v ht hp
        exact ih (some h2) hm1 (Or.inr ⟨hw2, hp2⟩) hrun

/-- In a reachable table with storage every Occupied slot is reached from the
home bucket of its record over Occupied slots. -/
theorem reachable_pathed (mem : Nat → List Nat) (key_size : Nat) (h : Hashmap)
    (hr : Reachable mem key_size (some h)) (hlen : 32 ≤ h.length) : Pathed h key_size := by
  obtain ⟨start, ops, hstart, hrun⟩ := hr
  have ht : Tracked (some h) key_size := by
    refine run_tracked mem key_size ops start (some h) ?_ hrun
    rcases hstart with rfl | rfl | rfl
    · trivial
    · exact Or.inl ⟨rfl, rfl, rfl, rfl, rfl⟩
    · exact Or.inl ⟨rfl, rfl, rfl, rfl, rfl⟩
  rcases ht with hf | hw
  · have := hf.1
    omega
  · exact hw.2

/-- C21: in every table with binary keys that a client reaches by pushes and
removes, every live slot `s` is reached from the home bucket of the key it holds
(the hash of the key modulo the length) by a cyclic walk with unit stride on
which every slot, up to and including `s`, has its Occupied bit set: there is no
not-Occupied hole between a live key and its home bucket. -/
theorem no_hole_before_live_key (mem : Nat → List Nat) (key_size : Nat) (h : Hashmap)
    (s : Nat) (hr : Reachable mem key_size (some h)) (hs : s < h.length)
    (hlive : live h s = true) :
    ∃ d, d < h.length
      ∧ s = (bfutils_hashmap_function (h.data.getD s default).key key_size % h.length + d)
          % h.length
      ∧ ∀ e, e ≤ d →
        occupied h ((bfutils_hashmap_function (h.data.getD s default).key key_size % h.length
          + e) % h.length) = true := by
  have hocc : occupied h s = true := by
    unfold live at hlive
    simp only [Bool.and_eq_true] at hlive
    exact hlive.1
  have h32 : 32 ≤ h.length := by
    rcases reachable_sound mem key_size (some h) hr with hf | hw
    · have := hf.1
      omega
    · obtain ⟨n, _, hn5, hn⟩ := hw.2.1
      rw [hn]
      exact Nat.pow_le_pow_right (Nat.zero_lt_two) hn5
  exact reachable_pathed mem key_size h hr h32 s hs hocc

set_option maxRecDepth 100000 in
/-- C21 (witness): in the table reached with the pushes (1,10) and (33,20) the
live slot 0 holds key 33, whose home bucket is 31, and the walk 31, 0 passes
Occupied slots only. -/
theorem no_hole_before_live_key_witness :
    Reachable no_mem 4 (some displaced_table) ∧ 0 < displaced_table.length
      ∧ live displaced_table 0 = true
      ∧ bfutils_hashmap_function (displaced_table.data.getD 0 default).key 4
          % displaced_table.length = 31
      ∧ ∃ d, d < displaced_table.length
        ∧ 0 = (bfutils_hashmap_function (displaced_table.data.getD 0 default).key 4
            % displaced_table.length + d) % displaced_table.length
        ∧ ∀ e, e ≤ d →
          occupied displaced_table
            ((bfutils_hashmap_function (displaced_table.data.getD 0 default).key 4
              % displaced_table.length + e) % displaced_table.length) = true :=
  ⟨⟨none, [Op.push (key32 1) 10, Op.push (key32 33) 20], Or.inl rfl, by decide⟩, by decide,
    by decide, by decide,
    no_hole_before_live_key no_mem 4 displaced_table 0
      ⟨none, [Op.push (key32 1) 10, Op.push (key32 33) 20], Or.inl rfl, by decide⟩
      (by decide) (by decide)⟩

/-! ## Probing a table whose slots are all Occupied -/

/-- In a table in which every slot is Occupied and no live slot holds the key,
the lookup walk never stops: whatever number of rounds it is given, it uses
them all. -/
theorem get_position_loop_spins (mem : Nat → List Nat) (h : Hashmap) (key : List Nat)
    (key_size : Nat) (is_string : Bool) (hs : Shape h) (hd : h.data.length = h.length)
    (hfull : ∀ s, s < h.length → occupied h s = true)
    (hno : ∀ s, s < h.length →
      ¬ (tombstoned h s = false
        ∧ keycmp mem key (h.data.getD s default).key key_size is_string = 0)) :
    ∀ (fuel p : Nat), p < h.length →
      get_position_loop mem h key key_size is_string (h.length / 8) fuel (p % 8) (p / 8)
        = .error Fault.no_fuel := by
  intro fuel
  induction fuel with
  | zero =>
    intro p _
    rw [get_position_loop]
  | succ fuel ih =>
    intro p hp
    rw [get_position_loop_step mem h key key_size is_string fuel p hs hd hp]
    have ho := hfull p hp
    have hof : ¬ occupied h p = false := by
      rw [ho]
      exact fun hc => Bool.noConfusion hc
    rw [if_neg hof, if_neg (hno p hp)]
    exact ih _ (hs.mod_lt _)

/-- In a table in which every slot is Occupied and the record of the home
bucket does not compare equal to the key, the insertion walk never stops. -/
theorem insert_position_loop_spins (mem : Nat → List Nat) (h : Hashmap) (key : List Nat)
    (key_size : Nat) (is_string : Bool) (index : Nat) (hs : Shape h)
    (hd : h.data.length = h.length) (hindex : index < h.length)
    (hfull : ∀ s, s < h.length → occupied h s = true)
    (hne : keycmp mem key (h.data.getD index default).key key_size is_string ≠ 0) :
    ∀ (fuel p : Nat) (found : Bool) (r : Nat), p < h.length → (found = true → r < h.length) →
      insert_position_loop mem h key key_size is_string index (h.length / 8) fuel
        (p % 8) (p / 8) found r = .error Fault.no_fuel := by
  intro fuel
  induction fuel with
  | zero =>
    intro p found r _ _
    rw [insert_position_loop]
  | succ fuel ih =>
    intro p found r hp hr
    rw [insert_position_loop_step mem h key key_size is_string index fuel p found r hs hd hp
      hindex hr]
    have ho := hfull p hp
    have hof : ¬ occupied h p = false := by
      rw [ho]
      exact fun hc => Bool.noConfusion hc
    rw [if_neg hof]
    by_cases ht : tombstoned h p = true ∧ found = false
    · rw [if_pos ht]
      exact ih p true p hp (fun _ => hp)
    · rw [if_neg ht, if_neg (fun hc => hne hc.1)]
      exact ih _ found r (hs.mod_lt _) hr

/-! ## Counting the bits of the bitsets -/

theorem filter_range_of_dead (f : Nat → Bool) (c : Nat) :
    ∀ d, (∀ i, c ≤ i → i < c + d → f i = false) →
      (List.range (c + d)).filter f = (List.range c).filter f := by
  intro d
  induction d with
  | zero =>
    intro _
    rfl
  | succ d ih =>
    intro hdead
    have e : c + (d + 1) = (c + d) + 1 := by omega
    have hf : f (c + d) = false := hdead (c + d) (by omega) (by omega)
    rw [e, List.range_succ, List.filter_append, ih (fun i h1 h2 => hdead i h1 (by omega))]
    simp [hf]

/-- In a table with storage the set bits of the Occupied bitset are the
Occupied slots. -/
theorem set_bits_slots (h : Hashmap) (hs : Shape h) :
    set_bits h.slots = ((List.range h.length).filter (occupied h)).length := by
  unfold set_bits
  have e : 8 * h.slots.length = h.length + 8 := by
    have h1 := hs.2.2.1
    obtain ⟨n, hn⟩ := hs.2.1
    omega
  rw [e, filter_range_of_dead (bit_set h.slots) h.length 8
    (fun i h1 _ => bit_set_of_ge h.slots h.length i hs.2.1 hs.2.2.1 hs.2.2.2.2.1 h1)]
  rfl

/-- In a table with storage the live bits are the live slots. -/
theorem live_bits_eq (h : Hashmap) (hs : Shape h) :
    live_bits h.slots h.removed = (live_positions h).length := by
  have e : 8 * h.slots.length = h.length + 8 := by
    have h1 := hs.2.2.1
    obtain ⟨n, hn⟩ := hs.2.1
    omega
  show ((List.range (8 * h.slots.length)).filter (live h)).length = _
  rw [e, filter_range_of_dead (live h) h.length 8 (fun i h1 _ => live_of_ge hs h1)]
  rfl

theorem bit_set_nil (idx : Nat) : bit_set [] idx = false := by
  unfold bit_set
  simp

/-- C24: in every table state a client reaches by pushes and removes of either
key kind, `insert_count` is at most the number of set bits of the Occupied
bitset, which is at most the length; on `NULL` and on a table without storage
all three are zero. -/
theorem insert_count_le_occupied_bits_le_length (mem : Nat → List Nat) (key_size : Nat)
    (hm : Option Hashmap) (hr : Reached mem key_size hm) :
    bfutils_hashmap_insert_count hm ≤ set_bits (bfutils_hashmap_slots hm)
      ∧ set_bits (bfutils_hashmap_slots hm) ≤ bfutils_hashmap_length hm := by
  have hsound := reached_sound mem key_size hm hr
  cases hm with
  | none => exact ⟨Nat.le_refl 0, Nat.le_refl 0⟩
  | some h =>
    show h.insert_count ≤ set_bits h.slots ∧ set_bits h.slots ≤ h.length
    rcases hsound with hf | hw
    · obtain ⟨h1, h2, h3, _, _⟩ := hf
      rw [h1, h2, h3]
      exact ⟨Nat.le_refl 0, Nat.le_refl 0⟩
    · rw [set_bits_slots h hw.shape, hw.2.2.2.2]
      refine ⟨?_, ?_⟩
      · unfold live_positions
        rw [← List.countP_eq_length_filter, ← List.countP_eq_length_filter]
        refine List.countP_mono_left (fun x _ hx => ?_)
        unfold live at hx
        simp only [Bool.and_eq_true] at hx
        exact hx.1
      · have := List.length_filter_le (occupied h) (List.range h.length)
        rw [List.length_range] at this
        exact this

set_option maxRecDepth 100000 in
/-- C24 (witness): `text_table`, with text keys, is reached by `text_calls`; its
`insert_count` is 2, three bits of its Occupied bitset are set, and its length
is 32. -/
theorem insert_count_le_occupied_bits_le_length_witness :
    Reached text_mem 8 (some text_table)
      ∧ bfutils_hashmap_insert_count (some text_table) = 2
      ∧ set_bits (bfutils_hashmap_slots (some text_table)) = 3
      ∧ bfutils_hashmap_insert_count (some text_table)
          ≤ set_bits (bfutils_hashmap_slots (some text_table))
      ∧ set_bits (bfutils_hashmap_slots (some text_table))
          ≤ bfutils_hashmap_length (some text_table) :=
  ⟨⟨bfutils_hashmap_with_free true, text_calls, Or.inr (Or.inr rfl), by decide⟩, rfl,
    by decide,
    insert_count_le_occupied_bits_le_length text_mem 8 (some text_table)
      ⟨bfutils_hashmap_with_free true, text_calls, Or.inr (Or.inr rfl), by decide⟩⟩

/-- C27: in every table state a client reaches by pushes and removes of either
key kind, rehashes included, `insert_count` is the number of live slots, that
is, of the indices whose Occupied bit is set and whose Tombstoned bit is clear,
and every index whose Tombstoned bit is set has its Occupied bit set. -/
theorem insert_count_is_live_count (mem : Nat → List Nat) (key_size : Nat)
    (hm : Option Hashmap) (hr : Reached mem key_size hm) :
    bfutils_hashmap_insert_count hm
        = live_bits (bfutils_hashmap_slots hm) (bfutils_hashmap_removed hm)
      ∧ ∀ idx, bit_set (bfutils_hashmap_removed hm) idx = true →
          bit_set (bfutils_hashmap_slots hm) idx = true := by
  have hsound := reached_sound mem key_size hm hr
  cases hm with
  | none =>
    refine ⟨rfl, fun idx ht => ?_⟩
    have h0 : bit_set (bfutils_hashmap_removed none) idx = false := bit_set_nil idx
    rw [h0] at ht
    cases ht
  | some h =>
    show h.insert_count = live_bits h.slots h.removed
      ∧ ∀ idx, bit_set h.removed idx = true → bit_set h.slots idx = true
    rcases hsound with hf | hw
    · obtain ⟨_, h2, h3, h4, _⟩ := hf
      rw [h2, h3, h4]
      refine ⟨rfl, fun idx ht => ?_⟩
      rw [bit_set_nil] at ht
      cases ht
    · rw [live_bits_eq h hw.shape]
      refine ⟨hw.2.2.2.2, fun idx ht => ?_⟩
      by_cases hidx : idx < h.length
      · exact hw.2.2.2.1 idx hidx ht
      · have hs := hw.shape
        rw [bit_set_of_ge h.removed h.length idx hs.2.1 hs.2.2.2.1 hs.2.2.2.2.2
          (Nat.le_of_not_lt hidx)] at ht
        cases ht

set_option maxRecDepth 100000 in
/-- C27 (witness): `text_table`, with text keys, is reached by `text_calls`; its
`insert_count` is 2, the live slots are 1 and 3, and the tombstone 2 has its
Occupied bit set. -/
theorem insert_count_is_live_count_witness :
    Reached text_mem 8 (some text_table)
      ∧ live_positions text_table = [1, 3]
      ∧ bit_set (bfutils_hashmap_removed (some text_table)) 2 = true
      ∧ bfutils_hashmap_insert_count (some text_table)
          = live_bits (bfutils_hashmap_slots (some text_table))
              (bfutils_hashmap_removed (some text_table))
      ∧ ∀ idx, bit_set (bfutils_hashmap_removed (some text_table)) idx = true →
          bit_set (bfutils_hashmap_slots (some text_table)) idx = true :=
  ⟨⟨bfutils_hashmap_with_free true, text_calls, Or.inr (Or.inr rfl), by decide⟩, by decide,
    by decide,
    insert_count_is_live_count text_mem 8 (some text_table)
      ⟨bfutils_hashmap_with_free true, text_calls, Or.inr (Or.inr rfl), by decide⟩⟩

/-! ## The hash function -/

/-- One round of the SDBM loop is `(b + 65599 * hash) mod 2^64`. -/
theorem sdbm_step_eq (hash b : Nat) : sdbm_step hash b = spec_sdbm_step hash b := by
  unfold sdbm_step spec_sdbm_step
  rw [Nat.shiftLeft_eq, Nat.shiftLeft_eq]
  norm_num
  omega

/-- One round of the SDBM loop is the shift form of the specification, taken
over the integers and reduced modulo `2^64`. -/
theorem sdbm_step_shift (hash b : Nat) : (sdbm_step hash b : Int) = spec_sdbm_shift hash b := by
  rw [sdbm_step_eq]
  unfold spec_sdbm_step spec_sdbm_shift
  push_cast
  omega

/-- C25: `bfutils_hashmap_function` is the SDBM hash over exactly the first
`key_size` bytes with a 64-bit accumulator: it is the left fold from 0 of the
round `(b + (h << 6) + (h << 16) - h) mod 2^64`, which is
`(b + 65599 * h) mod 2^64`; the hash of the empty sequence is 0; a binary key is
hashed over its first `key_size` bytes and a text key over the bytes before its
terminator. -/
theorem hash_function_is_sdbm (key : List Nat) (key_size : Nat) :
    bfutils_hashmap_function key key_size = (key.take key_size).foldl spec_sdbm_step 0
      ∧ (∀ hash b : Nat, sdbm_step hash b = (b + 65599 * hash) % 2 ^ 64
          ∧ (sdbm_step hash b : Int) = spec_sdbm_shift hash b)
      ∧ bfutils_hashmap_function [] key_size = 0
      ∧ bfutils_hashmap_function key 0 = 0
      ∧ bfutils_hashmap_function key key_size < 2 ^ 64
      ∧ key_hash key key_size false = .ok ((key.take key_size).foldl spec_sdbm_step 0)
      ∧ key_hash key key_size true
          = if 0 ∈ key then .ok ((cstr key).foldl spec_sdbm_step 0)
            else .error Fault.out_of_bounds := by
  have hfun : sdbm_step = spec_sdbm_step := funext fun a => funext fun b => sdbm_step_eq a b
  have hfold : ∀ n, bfutils_hashmap_function key n = (key.take n).foldl spec_sdbm_step 0 := by
    intro n
    unfold bfutils_hashmap_function
    rw [hfun]
  have hlt : ∀ (l : List Nat) (a : Nat), a < 2 ^ 64 → l.foldl spec_sdbm_step a < 2 ^ 64 := by
    intro l
    induction l with
    | nil => exact fun a ha => ha
    | cons x t ih =>
      intro a _
      exact ih _ (Nat.mod_lt _ (by norm_num))
  refine ⟨hfold key_size, fun a b => ⟨sdbm_step_eq a b, sdbm_step_shift a b⟩, ?_, ?_, ?_, ?_, ?_⟩
  · unfold bfutils_hashmap_function
    rw [List.take_nil]
    rfl
  · unfold bfutils_hashmap_function
    rw [List.take_zero]
    rfl
  · rw [hfold]
    exact hlt _ 0 (by norm_num)
  · rw [key_hash_binary, hfold]
  · unfold key_hash strlen
    by_cases h0 : 0 ∈ key
    · simp only [if_true, if_pos h0]
      rw [hfold]
      unfold cstr
      rw [take_length_takeWhile]
    · simp only [if_true, if_neg h0]

/-! ## Behaviour on concrete client programs -/

set_option maxRecDepth 100000 in
/-- C1 (evaluation at the failing input): on an empty table, push (1,10),
(33,20) and then (33,30); keys 1 and 33 share the home bucket 31 of a table of
length 32.  The third push does not find key 33 in slot 0 and stores a second
record in slot 1; `get_position(33)` then returns slot 0, whose value is still
20, not 30. -/
theorem push_then_get_yields_old_value :
    ∃ t : Option Hashmap,
      run no_mem 4 none [Op.push (key32 1) 10, Op.push (key32 33) 20, Op.push (key32 33) 30]
        = .ok t
      ∧ bfutils_hashmap_get_position no_mem t (key32 33) 4 false = .ok 0
      ∧ bfutils_hashmap_get no_mem 4 t (key32 33) = .ok 20
      ∧ (data_of t)[1]? = some ⟨key32 33, 30⟩ := by
  refine ⟨_, rfl, ?_, ?_, ?_⟩ <;> decide

set_option maxRecDepth 100000 in
/-- C2 (evaluation at the failing input): with a destructor registered, after
push (1,10) and (33,20) the table holds two records; the push of (33,30) for the
present key 33 raises `insert_count` from 2 to 3, makes no destructor call, and
`get(33)` still yields 20. -/
theorem push_present_key_adds_second_record :
    ∃ t t1 : Option Hashmap,
      run no_mem 4 (bfutils_hashmap_with_free true)
        [Op.push (key32 1) 10, Op.push (key32 33) 20] = .ok t
      ∧ bfutils_hashmap_get no_mem 4 t (key32 33) = .ok 20
      ∧ bfutils_hashmap_insert_count t = 2
      ∧ bfutils_hashmap_push no_mem 4 t (key32 33) 30 = .ok t1
      ∧ bfutils_hashmap_insert_count t1 = 3
      ∧ freed_of t1 = []
      ∧ bfutils_hashmap_get no_mem 4 t1 (key32 33) = .ok 20 := by
  refine ⟨_, _, rfl, ?_, ?_, rfl, ?_, ?_, ?_⟩ <;> decide

set_option maxRecDepth 100000 in
/-- C3 (evaluation at the failing input): the 32-bit key 0 hashes to slot 0.
After push (0,5), `remove(0)` leaves the table as it was: `remove_key` returns
index 0, no tombstone bit is set, `insert_count` is still 1 and
`get_position(0)` still returns slot 0. -/
theorem remove_key_in_slot_zero_is_ignored :
    ∃ t t1 : Option Hashmap,
      run no_mem 4 none [Op.push (key32 0) 5] = .ok t
      ∧ bfutils_hashmap_get_position no_mem t (key32 0) 4 false = .ok 0
      ∧ bfutils_hashmap_remove no_mem 4 t (key32 0) = .ok (t1, some 5)
      ∧ t1 = t
      ∧ bfutils_hashmap_insert_count t1 = 1
      ∧ bfutils_hashmap_removed t1 = [0, 0, 0, 0, 0]
      ∧ bfutils_hashmap_get_position no_mem t1 (key32 0) 4 false = .ok 0 := by
  refine ⟨_, _, rfl, ?_, rfl, ?_, ?_, ?_, ?_⟩ <;> decide

set_option maxRecDepth 100000 in
/-- C4 (evaluation at the failing input): after push (0,5) on an empty table the
key 0 is present, `get_position(0)` returns the valid slot index 0, and
`hashmap_contains(0)` is false. -/
theorem contains_is_false_for_slot_zero :
    ∃ t : Option Hashmap,
      run no_mem 4 none [Op.push (key32 0) 5] = .ok t
      ∧ bfutils_hashmap_get_position no_mem t (key32 0) 4 false = .ok 0
      ∧ bfutils_hashmap_get no_mem 4 t (key32 0) = .ok 5
      ∧ bfutils_hashmap_contains no_mem 4 t (key32 0) = .ok false := by
  refine ⟨_, rfl, ?_, ?_, ?_⟩ <;> decide

set_option maxRecDepth 100000 in
/-- C8 (evaluation at the failing input): seventeen pushes of the text keys
`"a"`, ..., `"q"` fill a table of length 32, and `"a"` is found with its value
100.  The push of `"r"` grows the table to 64 slots; the rehash hashes the
bytes of each stored pointer instead of the characters it points to, and
afterwards `get_position("a")` returns `-1`. -/
theorem grow_loses_text_keys :
    ∃ t17 t18 : Option Hashmap,
      run_text text_mem none ((List.range 17).map (fun i => (text_key i, 100 + i))) = .ok t17
      ∧ bfutils_hashmap_length t17 = 32
      ∧ bfutils_string_hashmap_get text_mem t17 (text_key 0) = .ok 100
      ∧ bfutils_string_hashmap_push text_mem t17 (text_key 17) 117 = .ok t18
      ∧ bfutils_hashmap_length t18 = 64
      ∧ bfutils_hashmap_insert_count t18 = 18
      ∧ bfutils_hashmap_get_position text_mem t18 (text_mem (text_key 0)) 8 true = .ok (-1) := by
  refine ⟨_, _, rfl, ?_, ?_, rfl, ?_, ?_, ?_⟩ <;> decide

set_option maxRecDepth 100000 in
/-- C11 (evaluation at the failing input): after push (1,10), (33,20), (33,30) on
an empty table the reference map of the specification holds the two keys 1 and
33, while `insert_count` is 3 and the two live slots 0 and 1 both hold key
33. -/
theorem insert_count_exceeds_reference_map :
    ∃ h : Hashmap,
      run no_mem 4 none [Op.push (key32 1) 10, Op.push (key32 33) 20, Op.push (key32 33) 30]
        = .ok (some h)
      ∧ (spec_map_run [] [Op.push (key32 1) 10, Op.push (key32 33) 20,
          Op.push (key32 33) 30]).length = 2
      ∧ h.insert_count = 3
      ∧ live h 0 = true ∧ live h 1 = true
      ∧ (h.data.getD 0 default).key = key32 33
      ∧ (h.data.getD 1 default).key = key32 33 := by
  refine ⟨_, rfl, ?_, ?_, ?_, ?_, ?_, ?_⟩ <;> decide

set_option maxRecDepth 100000 in
/-- C12 (counterexample): after the pushes (1,10), ..., (17,170) on an empty
table the length is 32, not 64, and `insert_count` is 17, so that
`insert_count / length > 0.5` when the seventeenth push returns. -/
theorem load_factor_after_seventeen_pushes :
    ∃ h : Hashmap,
      run no_mem 4 none (pushes_upto 17) = .ok (some h)
      ∧ h.length = 32 ∧ h.insert_count = 17
      ∧ ¬ (2 * h.insert_count ≤ h.length)
      ∧ ¬ (h.length = 64) := by
  refine ⟨_, rfl, ?_, ?_, ?_, ?_⟩ <;> decide

set_option maxRecDepth 100000 in
/-- C13 (counterexample): after the pushes of the keys 1..40 the length is 128;
the removal of key 9, which leaves 31 entries, returns with the length still
128 and `insert_count / length < 0.25`; the table is halved to 64 by the next
operation, the removal of key 10. -/
theorem load_factor_after_removals :
    ∃ h h1 : Hashmap,
      run no_mem 4 none (pushes_upto 40 ++ removes_upto 9) = .ok (some h)
      ∧ h.length = 128 ∧ h.insert_count = 31
      ∧ ¬ (h.length = 32 ∨ 4 * h.insert_count ≥ h.length)
      ∧ bfutils_hashmap_remove no_mem 4 (some h) (key32 10) = .ok (some h1, some 100)
      ∧ h1.length = 64 ∧ h1.insert_count = 30 := by
  refine ⟨_, _, rfl, ?_, ?_, ?_, rfl, ?_, ?_⟩ <;> decide

/-- C14 (evaluation at the failing inputs): on a table without storage, `NULL`
or fresh from the constructor, `get_position` computes `hash % 0` for every
binary key: the result is a division by zero, not `-1`, and `contains` fails the
same way. -/
theorem get_position_divides_by_zero_on_empty_table (mem : Nat → List Nat) (key : List Nat)
    (key_size : Nat) (element_free : Bool) :
    bfutils_hashmap_get_position mem none key key_size false = .error Fault.div_by_zero
      ∧ bfutils_hashmap_get_position mem (bfutils_hashmap_with_free element_free) key key_size
          false = .error Fault.div_by_zero
      ∧ bfutils_hashmap_contains mem key_size none key = .error Fault.div_by_zero
      ∧ bfutils_hashmap_contains mem key_size (bfutils_hashmap_with_free element_free) key
          = .error Fault.div_by_zero := by
  refine ⟨?_, ?_, ?_, ?_⟩
  · unfold bfutils_hashmap_get_position
    rw [key_hash_binary]
    rfl
  · unfold bfutils_hashmap_get_position
    rw [key_hash_binary]
    rfl
  · unfold bfutils_hashmap_contains bfutils_hashmap_get_position
    rw [key_hash_binary]
    rfl
  · unfold bfutils_hashmap_contains bfutils_hashmap_get_position
    rw [key_hash_binary]
    rfl

set_option maxRecDepth 100000 in
/-- C15 (evaluation at the failing input): with a destructor registered, push
(1,10) and then sixteen times the key 33.  The table holds 17 records, sixteen
of them with key 33, and no destructor call has been made.  The next
`bfutils_hashmap_resize` grows the table to 64 slots, and its rehash makes 15
destructor calls, all on slot 31 of the new table; `insert_count` drops to
2. -/
theorem rehash_calls_destructor_on_duplicates :
    ∃ h h1 : Hashmap,
      run no_mem 4 (bfutils_hashmap_with_free true) duplicate_ops = .ok (some h)
      ∧ h.insert_count = 17 ∧ h.length = 32 ∧ h.freed = []
      ∧ bfutils_hashmap_resize no_mem (some h) 4 false = .ok (some h1)
      ∧ h1.length = 64 ∧ h1.insert_count = 2
      ∧ h1.freed.length = 15
      ∧ h1.freed.head? = some (31, ⟨key32 33, 20⟩) := by
  refine ⟨_, _, rfl, ?_, ?_, ?_, rfl, ?_, ?_, ?_, ?_⟩ <;> decide

set_option maxRecDepth 100000 in
/-- C16 (evaluation at the failing input): push (1,5) and remove key 1, which
leaves a tombstone in slot 31.  `insert_position` for key 33, whose home bucket
is 31, passes the tombstone and reaches the not-Occupied slot 0.  It clears the
Tombstoned bit of slot 31, leaves its Occupied bit set and raises `insert_count`
to 1, but it returns 0, the index of the not-Occupied slot, whose Occupied bit
stays clear. -/
theorem insert_position_returns_free_slot_after_tombstone :
    ∃ h h1 : Hashmap,
      run no_mem 4 none [Op.push (key32 1) 5, Op.remove (key32 1)] = .ok (some h)
      ∧ occupied h 31 = true ∧ tombstoned h 31 = true ∧ occupied h 0 = false
      ∧ h.insert_count = 0
      ∧ bfutils_hashmap_function (key32 33) 4 % h.length = 31
      ∧ bfutils_hashmap_insert_position no_mem (some h) (key32 33) 4 false = .ok (h1, 0)
      ∧ occupied h1 31 = true ∧ tombstoned h1 31 = false ∧ occupied h1 0 = false
      ∧ h1.insert_count = 1 := by
  refine ⟨_, _, rfl, ?_, ?_, ?_, ?_, ?_, rfl, ?_, ?_, ?_, ?_⟩ <;> decide

set_option maxRecDepth 100000 in
/-- C22 (evaluation at the failing input): after `push(1,10); push(33,20);
push(33,21)` the slots 0 and 1 are both live and both hold key 33, and
`get_position` for key 33 returns slot 0, not the live slot 1. -/
theorem get_position_returns_first_copy :
    ∃ h : Hashmap,
      run no_mem 4 none [Op.push (key32 1) 10, Op.push (key32 33) 20, Op.push (key32 33) 21]
          = .ok (some h)
        ∧ live h 0 = true ∧ live h 1 = true
        ∧ h.data.getD 0 default = ⟨key32 33, 20⟩
        ∧ h.data.getD 1 default = ⟨key32 33, 21⟩
        ∧ bfutils_hashmap_get_position no_mem (some h) (key32 33) 4 false = .ok 0 := by
  refine ⟨_, rfl, ?_, ?_, ?_, ?_, ?_⟩ <;> decide

set_option maxRecDepth 100000 in
/-- C23 (evaluation at the failing input): the client program `clog_ops`
reaches `clogged_table`, of length 32 with `insert_count` 1, in which every slot
has its Occupied bit set; the lookup of the absent key 64 and the push of the
absent key 33 exhaust their rounds, and the two probe loops return for no
number of rounds, from no slot. -/
theorem probe_spins_when_tombstones_fill_table :
    run no_mem 4 none clog_ops = .ok (some clogged_table)
      ∧ 32 ≤ clogged_table.length ∧ clogged_table.insert_count = 1
      ∧ (∀ s, s < clogged_table.length → occupied clogged_table s = true)
      ∧ bfutils_hashmap_get_position no_mem (some clogged_table) (key32 64) 4 false
          = .error Fault.no_fuel
      ∧ bfutils_hashmap_push no_mem 4 (some clogged_table) (key32 33) 1 = .error Fault.no_fuel
      ∧ (∀ fuel p, p < clogged_table.length →
          get_position_loop no_mem clogged_table (key32 64) 4 false (clogged_table.length / 8)
            fuel (p % 8) (p / 8) = .error Fault.no_fuel)
      ∧ (∀ fuel p, p < clogged_table.length →
          insert_position_loop no_mem clogged_table (key32 33) 4 false 31
            (clogged_table.length / 8) fuel (p % 8) (p / 8) false 0 = .error Fault.no_fuel) := by
  refine ⟨by decide, by decide, by decide, by decide, by decide, by decide, ?_, ?_⟩
  · exact get_position_loop_spins no_mem clogged_table (key32 64) 4 false (by decide)
      (by decide) (by decide) (by decide)
  · intro fuel p hp
    exact insert_position_loop_spins no_mem clogged_table (key32 33) 4 false 31 (by decide)
      (by decide) (by decide) (by decide) (by decide) fuel p false 0 hp
      (fun hc => Bool.noConfusion hc)

set_option maxRecDepth 100000 in
/-- C26 (evaluation at the failing input): after `push(1,10); push(2,20);
remove(2)` key 1 is present with the value 10; the push of the other key 2 with
the value 999 writes its record over the record of key 1 in slot 31, after which
key 1 is absent.  And after `push(1,5); remove(1)` key 1 is absent; the push of
the other key 33 makes key 1 present again, with the value 5. -/
theorem push_changes_lookup_of_other_key :
    ∃ h h1 t t1 : Hashmap,
      run no_mem 4 none [Op.push (key32 1) 10, Op.push (key32 2) 20, Op.remove (key32 2)]
          = .ok (some h)
        ∧ bfutils_hashmap_get_position no_mem (some h) (key32 1) 4 false = .ok 31
        ∧ bfutils_hashmap_get no_mem 4 (some h) (key32 1) = .ok 10
        ∧ bfutils_hashmap_push no_mem 4 (some h) (key32 2) 999 = .ok (some h1)
        ∧ h1.data.getD 31 default = ⟨key32 2, 999⟩
        ∧ bfutils_hashmap_get_position no_mem (some h1) (key32 1) 4 false = .ok (-1)
        ∧ run no_mem 4 none [Op.push (key32 1) 5, Op.remove (key32 1)] = .ok (some t)
        ∧ bfutils_hashmap_get_position no_mem (some t) (key32 1) 4 false = .ok (-1)
        ∧ bfutils_hashmap_push no_mem 4 (some t) (key32 33) 7 = .ok (some t1)
        ∧ bfutils_hashmap_get_position no_mem (some t1) (key32 1) 4 false = .ok 31
        ∧ bfutils_hashmap_get no_mem 4 (some t1) (key32 1) = .ok 5 := by
  refine ⟨_, _, _, _, rfl, ?_, ?_, rfl, ?_, ?_, rfl, ?_, rfl, ?_, ?_⟩ <;> decide

/-- C28 (evaluation at the failing input): on `NULL` and on the table fresh
from `bfutils_hashmap_with_free` the scan of `bfutils_hashmap_iterator` runs its
round for byte 0 and reads `slots[0]` through the absent bitset, and
`bfutils_hashmap_free_f` on a fresh table with a destructor does so too. -/
theorem iterator_reads_absent_bitset :
    bfutils_hashmap_iterator none = .error Fault.null_deref
      ∧ bfutils_hashmap_iterator (bfutils_hashmap_with_free false) = .error Fault.null_deref
      ∧ bfutils_hashmap_iterator (bfutils_hashmap_with_free true) = .error Fault.null_deref
      ∧ bfutils_hashmap_free_f (bfutils_hashmap_with_free true) = .error Fault.null_deref := by
  refine ⟨?_, ?_, ?_, ?_⟩ <;> decide

/-! ## Removal and the destructor -/

set_option maxRecDepth 100000 in
/-- C5 (counterexample): with a destructor registered, push (1,5) and then
remove the present key 1.  The remove succeeds (index 31, value 5, slot
tombstoned, `insert_count` 0) and the destructor log is still empty: no call
was made for the removed record. -/
theorem remove_present_key_calls_no_destructor :
    ∃ t t1 : Option Hashmap,
      run no_mem 4 (bfutils_hashmap_with_free true) [Op.push (key32 1) 5] = .ok t
      ∧ bfutils_hashmap_get_position no_mem t (key32 1) 4 false = .ok 31
      ∧ bfutils_hashmap_remove no_mem 4 t (key32 1) = .ok (t1, some 5)
      ∧ bfutils_hashmap_insert_count t1 = 0
      ∧ freed_of t = []
      ∧ freed_of t1 = []
      ∧ (freed_of t1).length ≠ (freed_of t).length + 1 := by
  refine ⟨_, _, rfl, ?_, rfl, ?_, ?_, ?_, ?_⟩ <;> decide

/-- C5 (amended): `bfutils_hashmap_remove_key` makes no destructor call, for a
present key as for an absent one: the destructor log after the call is the log
before it. -/
theorem remove_key_keeps_destructor_log (mem : Nat → List Nat) (hm hm1 : Option Hashmap)
    (key : List Nat) (key_size : Nat) (is_string : Bool) (index : Int)
    (hrm : bfutils_hashmap_remove_key mem hm key key_size is_string = .ok (hm1, index)) :
    freed_of hm1 = freed_of hm := by
  unfold bfutils_hashmap_remove_key at hrm
  cases hg : bfutils_hashmap_get_position mem hm key key_size is_string with
  | error e => simp [hg] at hrm
  | ok idx =>
    simp only [hg] at hrm
    by_cases hpos : idx > 0
    · simp only [hpos, if_true] at hrm
      cases hm with
      | none => simp at hrm
      | some h =>
        cases hr : rd h.removed (idx.toNat / 8) with
        | error e => simp [hr] at hrm
        | ok rb =>
          simp only [hr, Except.ok.injEq, Prod.mk.injEq] at hrm
          obtain ⟨h1, _⟩ := hrm
          subst h1
          rfl
    · simp only [hpos, if_false, Except.ok.injEq, Prod.mk.injEq] at hrm
      obtain ⟨h1, _⟩ := hrm
      subst h1
      rfl

set_option maxRecDepth 100000 in
/-- C5 (witness): the amended statement applied to the removal of the present
key 1 from the table that holds the record (1,5) in slot 31. -/
theorem remove_key_keeps_destructor_log_witness :
    freed_of (some
      { insert_count := 0, length := 32, slots := [0, 0, 0, 128, 0],
        removed := [0, 0, 0, 128, 0], element_free := true,
        data := (List.replicate 32 default).set 31 ⟨key32 1, 5⟩, freed := [] })
    = freed_of (some
      { insert_count := 1, length := 32, slots := [0, 0, 0, 128, 0],
        removed := [0, 0, 0, 0, 0], element_free := true,
        data := (List.replicate 32 default).set 31 ⟨key32 1, 5⟩, freed := [] }) :=
  remove_key_keeps_destructor_log no_mem _ _ (key32 1) 4 false 31 (by decide)

end BFUtils
